import Mathlib

/-!
# go-asn1utils: BER to DER canonicalisation (`make-der.go`)

A shallow embedding of `MakeDER` and its helpers, followed by theorems about them.

Conventions of the embedding.

* A Go `byte` is a `Fin 256`; `toByte` is the conversion `byte(x)`.
* A Go `[]byte` is a `List Byte`.  A slice has fewer than `2 ^ 63` elements, so positions
  (`pos`, always between `0` and `len(data)`) are natural numbers and never wrap.
* A Go `int` that is computed from length octets of the input can wrap; such values are
  integers reduced by `wrapInt` (two's complement, 64 bits).
* A function returning `(..., error)` returns `Except Err ...`.  The position that the Go
  code returns next to a non-nil error is never read by any caller and is dropped.
* A run-time panic of Go (index or slice bounds out of range) is the outcome
  `Err.indexPanic` / `Err.slicePanic`: it is not an error value of the program.
* Loops whose trip count is not known in advance carry a fuel argument;
  `Err.fuelExhausted` is the outcome of running out of it and is not an error of the program.
* `Class` and `TagNumber` of a node are natural numbers (the parser only produces
  non-negative values).
-/

namespace Asn1Utils

/-- A Go byte. -/
abbrev Byte := Fin 256

/-- The conversion `byte(x)` of a non-negative integer: the low eight bits. -/
def toByte (n : Nat) : Byte := ⟨n % 256, Nat.mod_lt _ (by decide)⟩

/-- The operator `|` on two bytes. -/
def bor (a b : Byte) : Byte := toByte (a.val ||| b.val)

/-- Reduction of an integer to the range of a 64-bit two's-complement `int`. -/
def wrapInt (x : Int) : Int := (x + 2 ^ 63) % 2 ^ 64 - 2 ^ 63

/-- ASN1Object represents an ASN.1 element (potentially constructed with sub-elements). -/
inductive ASN1Object where
  | mk (Class : Nat) (TagNumber : Nat) (IsConstructed : Bool) (Value : List Byte)
      (SubObjects : List ASN1Object) : ASN1Object

namespace ASN1Object

/-- Field `Class`: 0=Universal, 1=Application, 2=Context-specific, 3=Private. -/
def Class : ASN1Object → Nat
  | mk c _ _ _ _ => c

/-- Field `TagNumber`. -/
def TagNumber : ASN1Object → Nat
  | mk _ t _ _ _ => t

/-- Field `IsConstructed`. -/
def IsConstructed : ASN1Object → Bool
  | mk _ _ k _ _ => k

/-- Field `Value`: used if primitive (holds the content bytes). -/
def Value : ASN1Object → List Byte
  | mk _ _ _ v _ => v

/-- Field `SubObjects`: used if constructed (holds the parsed sub-elements). -/
def SubObjects : ASN1Object → List ASN1Object
  | mk _ _ _ _ s => s

end ASN1Object

/-- The outcomes of the program other than a normal return.  The constructors up to
`stringInvalidSub` are the `fmt.Errorf` values of `make-der.go`, with the values that are
formatted into the message. -/
inductive Err where
  /-- Message "empty input". -/
  | emptyInput
  /-- Message "unexpected end of data". -/
  | unexpectedEnd
  /-- Message "truncated tag bytes". -/
  | truncatedTag
  /-- Message "tag number is too large". -/
  | tagTooLarge
  /-- Message "unexpected end of data after tag". -/
  | unexpectedEndAfterTag
  /-- Message "length bytes exceed data size". -/
  | lengthBytesExceed
  /-- Message "indefinite length used for a primitive tag (tag class %d, number %d)". -/
  | indefinitePrimitive (tagClass tagNumber : Nat)
  /-- Message "specified length %d exceeds remaining data". -/
  | lengthExceeds (length : Int)
  /-- Message "length mismatch for constructed tag (expected end at %d, got %d)". -/
  | lengthMismatch (endPos : Int) (pos : Nat)
  /-- Message "extra data found after parsing ASN.1 structure". -/
  | extraData
  /-- Message "BIT STRING constructed with invalid sub-element at index %d". -/
  | bitStringInvalidSub (i : Nat)
  /-- Message "BIT STRING sub-element %d has no content". -/
  | bitStringNoContent (i : Nat)
  /-- Message "intermediate BIT STRING chunk %d has non-zero unused bits (%d)". -/
  | bitStringNonZeroUnused (i : Nat) (unused : Byte)
  /-- Message "OCTET STRING constructed with invalid sub-element at index %d". -/
  | octetStringInvalidSub (i : Nat)
  /-- Message "constructed string (tag %d) has invalid sub-element at index %d". -/
  | stringInvalidSub (tagNumber i : Nat)
  /-- Go run-time panic: index out of range. -/
  | indexPanic
  /-- Go run-time panic: slice bounds out of range. -/
  | slicePanic
  /-- The fuel of a loop of the embedding ran out. -/
  | fuelExhausted
  deriving DecidableEq, Repr

/-- The index expression `data[i]`. -/
def index (data : List Byte) (i : Nat) : Except Err Byte :=
  match data[i]? with
  | some b => .ok b
  | none => .error .indexPanic

/-- The slice expression `data[lo:hi]` for `lo` a position and `hi` an `int`
(the capacity of `data` is taken to be its length). -/
def slice (data : List Byte) (lo : Nat) (hi : Int) : Except Err (List Byte) :=
  if (lo : Int) ≤ hi ∧ hi ≤ (data.length : Int) then .ok ((data.drop lo).take (hi.toNat - lo))
  else .error .slicePanic

/-! ## Parser -/

/-- The `for` loop of `parseTag` over the long-form tag octets.  Returns the tag number
and the position after the last tag octet. -/
def parseTagLoop (data : List Byte) : Nat → Nat → Nat → Nat → Except Err (Nat × Nat)
  | 0, _, _, _ => .error .fuelExhausted
  | fuel + 1, pos, tagNumber, octetCount =>
    if pos ≥ data.length then .error .truncatedTag
    else do
      let octet ← index data pos
      let pos := pos + 1
      let octetCount := octetCount + 1
      let tagNumber := (tagNumber <<< 7) ||| (octet.val &&& 0x7F)
      if octet.val &&& 0x80 = 0 then .ok (tagNumber, pos)
      else if octetCount > 6 then .error .tagTooLarge
      else parseTagLoop data fuel pos tagNumber octetCount

/-- Function `parseTag`: returns `(tagClass, tagNumber, isConstructed, pos)`.  The loop
leaves after at most seven octets, which is the fuel given to it. -/
def parseTag (data : List Byte) (pos : Nat) : Except Err (Nat × Nat × Bool × Nat) :=
  if pos ≥ data.length then .error .unexpectedEnd
  else do
    let firstByte ← index data pos
    let pos := pos + 1
    let tagClass := (firstByte.val &&& 0xC0) >>> 6
    let isConstructed := decide ((firstByte.val &&& 0x20) ≠ 0)
    let tagNumber := firstByte.val &&& 0x1F
    if tagNumber = 0x1F then do
      let (tagNumber, pos) ← parseTagLoop data 7 pos 0 0
      .ok (tagClass, tagNumber, isConstructed, pos)
    else .ok (tagClass, tagNumber, isConstructed, pos)

/-- The `for i := 0; i < numLenBytes; i++` loop of `parseLength`; the first argument is
`numLenBytes - i`.  On a 64-bit `int`, `(length << 8) | int(b)` is `length * 256 + b`
reduced to 64 bits, because the low eight bits of `length << 8` are zero. -/
def parseLengthLoop (data : List Byte) (pos : Nat) : Nat → Nat → Int → Except Err Int
  | 0, _, length => .ok length
  | remaining + 1, i, length => do
    let b ← index data (pos + i)
    parseLengthLoop data pos remaining (i + 1) (wrapInt (length * 256 + (b.val : Int)))

/-- Function `parseLength`: returns `(length, pos)`; `length = -1` stands for the
indefinite form. -/
def parseLength (data : List Byte) (pos : Nat) : Except Err (Int × Nat) :=
  if pos ≥ data.length then .error .unexpectedEndAfterTag
  else do
    let lengthByte ← index data pos
    let pos := pos + 1
    if lengthByte.val &&& 0x80 = 0 then .ok ((lengthByte.val : Int), pos)
    else
      let numLenBytes := lengthByte.val &&& 0x7F
      if numLenBytes = 0 then .ok (-1, pos)
      else if pos + numLenBytes > data.length then .error .lengthBytesExceed
      else do
        let length ← parseLengthLoop data pos numLenBytes 0 0
        .ok (length, pos + numLenBytes)

/-- The test `pos+2 <= len(data) && data[pos] == 0x00 && data[pos+1] == 0x00`,
evaluated left to right. -/
def isEndOfContents (data : List Byte) (pos : Nat) : Except Err Bool :=
  if pos + 2 ≤ data.length then do
    let b0 ← index data pos
    if b0 = 0 then do
      let b1 ← index data (pos + 1)
      .ok (decide (b1 = 0))
    else .ok false
  else .ok false

/-- The `for` loop of `parseIndefiniteContent`; `parseElem` is the recursive call of
`parseElement`. -/
def parseIndefiniteLoop (parseElem : List Byte → Nat → Except Err (ASN1Object × Nat))
    (data : List Byte) : Nat → Nat → List ASN1Object → Except Err (List ASN1Object × Nat)
  | 0, _, _ => .error .fuelExhausted
  | fuel + 1, pos, subObjects => do
    let eoc ← isEndOfContents data pos
    if eoc then .ok (subObjects, pos + 2)
    else do
      let (subObj, newPos) ← parseElem data pos
      parseIndefiniteLoop parseElem data fuel newPos (subObjects ++ [subObj])

/-- Function `parseIndefiniteContent`: returns `(val, subObjects, pos)`. -/
def parseIndefiniteContent (parseElem : List Byte → Nat → Except Err (ASN1Object × Nat))
    (data : List Byte) (pos : Nat) (isConstructed : Bool) (tagClass tagNumber : Nat) :
    Except Err (List Byte × List ASN1Object × Nat) :=
  if ¬ isConstructed then .error (.indefinitePrimitive tagClass tagNumber)
  else do
    let (subObjects, pos) ← parseIndefiniteLoop parseElem data (data.length + 1) pos []
    .ok ([], subObjects, pos)

/-- The loop `for pos < endPos` of `parseDefiniteContent`. -/
def parseDefiniteLoop (parseElem : List Byte → Nat → Except Err (ASN1Object × Nat))
    (data : List Byte) (endPos : Int) :
    Nat → Nat → List ASN1Object → Except Err (List ASN1Object × Nat)
  | 0, _, _ => .error .fuelExhausted
  | fuel + 1, pos, subObjects =>
    if (pos : Int) < endPos then do
      let (subObj, newPos) ← parseElem data pos
      parseDefiniteLoop parseElem data endPos fuel newPos (subObjects ++ [subObj])
    else .ok (subObjects, pos)

/-- Function `parseDefiniteContent`: returns `(val, subObjects, pos)`.  The sum
`pos+length` is an `int` and wraps. -/
def parseDefiniteContent (parseElem : List Byte → Nat → Except Err (ASN1Object × Nat))
    (data : List Byte) (pos : Nat) (length : Int) (isConstructed : Bool) :
    Except Err (List Byte × List ASN1Object × Nat) :=
  if wrapInt ((pos : Int) + length) > (data.length : Int) then .error (.lengthExceeds length)
  else if isConstructed then do
    let endPos := wrapInt ((pos : Int) + length)
    let (subObjects, pos) ← parseDefiniteLoop parseElem data endPos (data.length + 1) pos []
    if (pos : Int) ≠ endPos then .error (.lengthMismatch endPos pos)
    else .ok ([], subObjects, pos)
  else do
    let val ← slice data pos (wrapInt ((pos : Int) + length))
    .ok (val, [], (wrapInt ((pos : Int) + length)).toNat)

/-- Function `parseElement` with a bound `fuel` on the nesting depth: returns the object
and the position after it. -/
def parseElementF : Nat → List Byte → Nat → Except Err (ASN1Object × Nat)
  | 0, _, _ => .error .fuelExhausted
  | fuel + 1, data, pos =>
    if pos ≥ data.length then .error .unexpectedEnd
    else do
      let (tagClass, tagNumber, isConstructed, pos) ← parseTag data pos
      let (length, pos) ← parseLength data pos
      let (val, subObjects, pos) ←
        if length = -1 then
          parseIndefiniteContent (parseElementF fuel) data pos isConstructed tagClass tagNumber
        else
          parseDefiniteContent (parseElementF fuel) data pos length isConstructed
      .ok (ASN1Object.mk tagClass tagNumber isConstructed val subObjects, pos)

/-- Function `parseElement`.  Every element has at least two octets, so the nesting
depth is below `len(data) + 1`. -/
def parseElement (data : List Byte) (pos : Nat) : Except Err (ASN1Object × Nat) :=
  parseElementF (data.length + 1) data pos

/-! ## Encoder -/

/-- The first loop of `encodeTag`: prepends the base-128 digits of `tagNum` to `tmp`. -/
def encodeTagLoop : Nat → Nat → List Byte → List Byte
  | 0, _, tmp => tmp
  | fuel + 1, tagNum, tmp =>
    let tmp := toByte (tagNum &&& 0x7F) :: tmp
    let tagNum := tagNum >>> 7
    if tagNum = 0 then tmp else encodeTagLoop fuel tagNum tmp

/-- The second loop of `encodeTag`: `tmp[i] |= 0x80` for every `i < len(tmp)-1`. -/
def setContinuationBits : List Byte → List Byte
  | [] => []
  | [b] => [b]
  | b :: c :: rest => bor b 0x80 :: setContinuationBits (c :: rest)

/-- Function `encodeTag`. -/
def encodeTag (obj : ASN1Object) : List Byte :=
  let firstOctet := toByte ((obj.Class &&& 0x3) <<< 6)
  let firstOctet := if obj.IsConstructed then bor firstOctet 0x20 else firstOctet
  if obj.TagNumber < 31 then
    [bor firstOctet (toByte (obj.TagNumber &&& 0x1F))]
  else
    let firstOctet := bor firstOctet 0x1F
    let tmp := encodeTagLoop obj.TagNumber obj.TagNumber []
    [firstOctet] ++ setContinuationBits tmp

/-- The loop `for temp > 0` of `encodeLength`. -/
def encodeLengthLoop : Nat → Nat → List Byte → List Byte
  | 0, _, lenOctets => lenOctets
  | fuel + 1, temp, lenOctets =>
    if temp > 0 then encodeLengthLoop fuel (temp >>> 8) (toByte (temp &&& 0xFF) :: lenOctets)
    else lenOctets

/-- Function `encodeLength`, on the non-negative lengths it is called with. -/
def encodeLength (length : Nat) : List Byte :=
  if length < 128 then [toByte length]
  else
    let lenOctets := encodeLengthLoop length length []
    let numLenBytes := lenOctets.length
    bor 0x80 (toByte numLenBytes) :: lenOctets

/-- The loop of `flattenBitString` over `obj.SubObjects`; `n` is `len(obj.SubObjects)`. -/
def flattenBitStringLoop (n : Nat) :
    List ASN1Object → Nat → List Byte → Byte → Except Err (List Byte × Byte)
  | [], _, bitData, finalUnusedBits => .ok (bitData, finalUnusedBits)
  | sub :: rest, i, bitData, finalUnusedBits =>
    if ¬ (sub.Class = 0 ∧ sub.TagNumber = 3 ∧ sub.IsConstructed = false) then
      .error (.bitStringInvalidSub i)
    else if sub.Value.length = 0 then .error (.bitStringNoContent i)
    else do
      let unused ← index sub.Value 0
      let dataBytes := sub.Value.drop 1
      if (i : Int) < (n : Int) - 1 then
        if unused ≠ 0 then .error (.bitStringNonZeroUnused i unused)
        else flattenBitStringLoop n rest (i + 1) (bitData ++ dataBytes) finalUnusedBits
      else
        flattenBitStringLoop n rest (i + 1) (bitData ++ dataBytes) unused

/-- Function `flattenBitString`; the object is returned instead of updated in place. -/
def flattenBitString (obj : ASN1Object) : Except Err ASN1Object := do
  let (bitData, finalUnusedBits) ←
    flattenBitStringLoop obj.SubObjects.length obj.SubObjects 0 [] 0
  .ok (ASN1Object.mk obj.Class obj.TagNumber false ([finalUnusedBits] ++ bitData) [])

/-- The loop of `flattenOctetString`. -/
def flattenOctetStringLoop : List ASN1Object → Nat → List Byte → Except Err (List Byte)
  | [], _, octets => .ok octets
  | sub :: rest, i, octets =>
    if ¬ (sub.Class = 0 ∧ sub.TagNumber = 4 ∧ sub.IsConstructed = false) then
      .error (.octetStringInvalidSub i)
    else flattenOctetStringLoop rest (i + 1) (octets ++ sub.Value)

/-- Function `flattenOctetString`. -/
def flattenOctetString (obj : ASN1Object) : Except Err ASN1Object := do
  let octets ← flattenOctetStringLoop obj.SubObjects 0 []
  .ok (ASN1Object.mk obj.Class obj.TagNumber false octets [])

/-- The loop of `flattenString`; `tag` is `obj.TagNumber`. -/
def flattenStringLoop (tag : Nat) : List ASN1Object → Nat → List Byte → Except Err (List Byte)
  | [], _, strContent => .ok strContent
  | sub :: rest, i, strContent =>
    if ¬ (sub.Class = 0 ∧ sub.TagNumber = tag ∧ sub.IsConstructed = false) then
      .error (.stringInvalidSub tag i)
    else flattenStringLoop tag rest (i + 1) (strContent ++ sub.Value)

/-- Function `flattenString`. -/
def flattenString (obj : ASN1Object) : Except Err ASN1Object := do
  let strContent ← flattenStringLoop obj.TagNumber obj.SubObjects 0 []
  .ok (ASN1Object.mk obj.Class obj.TagNumber false strContent [])

/-- The tag numbers of the third `case` of `flattenConstructedType`. -/
def stringTags : List Nat := [12, 18, 19, 20, 21, 22, 25, 26, 27, 28, 30]

/-- The tag numbers of the Universal types that `flattenConstructedType` turns into a
primitive: BIT STRING, OCTET STRING and the restricted character strings. -/
def IsFlattenTag (t : Nat) : Prop := t = 3 ∨ t = 4 ∨ t ∈ stringTags

instance : DecidablePred IsFlattenTag := fun t => by unfold IsFlattenTag; infer_instance

/-- Function `flattenConstructedType`. -/
def flattenConstructedType (obj : ASN1Object) : Except Err ASN1Object :=
  if obj.TagNumber = 3 then flattenBitString obj
  else if obj.TagNumber = 4 then flattenOctetString obj
  else if obj.TagNumber ∈ stringTags then flattenString obj
  else if obj.TagNumber = 17 then .ok obj
  else .ok obj

/-- Function `encodePrimitiveContent`; `[b]` is the case `len(contentBytes) == 1`. -/
def encodePrimitiveContent (obj : ASN1Object) : List Byte :=
  match obj.Value with
  | [b] =>
    if (obj.Class = 0 ∧ obj.TagNumber = 1) ∨ (obj.Class = 2 ∧ obj.TagNumber = 1) then
      if b ≠ 0 then [0xFF] else [0x00]
    else [b]
  | contentBytes => contentBytes

/-- Function `bytes.Compare` of the Go library: -1, 0 or 1 by unsigned lexicographic order. -/
def bytesCompare : List Byte → List Byte → Int
  | [], [] => 0
  | [], _ :: _ => -1
  | _ :: _, [] => 1
  | a :: as, b :: bs => if a < b then -1 else if b < a then 1 else bytesCompare as bs

/-- The `less` function given to `sort.Slice` in `encodeSetContent`. -/
def less (a b : List Byte) : Prop := bytesCompare a b < 0

instance : DecidableRel less := fun a b => by unfold less; infer_instance

/-- One element does not have to come after the other under `less`. -/
def notAfter (a b : List Byte) : Prop := ¬ less b a

instance : DecidableRel notAfter := fun a b => by unfold notAfter; infer_instance

/-- Function `sort.Slice` of the Go library with `less`.  Byte strings that `less` does
not separate are equal, so the sorted order is unique and any sorting algorithm returns it. -/
def sortSlice (encodedSubs : List (List Byte)) : List (List Byte) :=
  encodedSubs.insertionSort notAfter

/-- The first loop of `encodeSetContent`: the encodings of the sub-objects in order. -/
def encodeSubs (enc : ASN1Object → Except Err (List Byte)) :
    List ASN1Object → Except Err (List (List Byte))
  | [] => .ok []
  | sub :: rest => do
    let subEnc ← enc sub
    let restEnc ← encodeSubs enc rest
    .ok (subEnc :: restEnc)

/-- The second loop of `encodeSetContent`: concatenation. -/
def concatAll : List (List Byte) → List Byte → List Byte
  | [], contentBytes => contentBytes
  | e :: rest, contentBytes => concatAll rest (contentBytes ++ e)

/-- Function `encodeSetContent`; `enc` is the recursive call of `encodeDER`. -/
def encodeSetContent (enc : ASN1Object → Except Err (List Byte)) (obj : ASN1Object) :
    Except Err (List Byte) := do
  let encodedSubs ← encodeSubs enc obj.SubObjects
  .ok (concatAll (sortSlice encodedSubs) [])

/-- The loop of `encodeConstructedContent`. -/
def encodeConstructedLoop (enc : ASN1Object → Except Err (List Byte)) :
    List ASN1Object → List Byte → Except Err (List Byte)
  | [], contentBytes => .ok contentBytes
  | sub :: rest, contentBytes => do
    let subEnc ← enc sub
    encodeConstructedLoop enc rest (contentBytes ++ subEnc)

/-- Function `encodeConstructedContent`. -/
def encodeConstructedContent (enc : ASN1Object → Except Err (List Byte)) (obj : ASN1Object) :
    Except Err (List Byte) :=
  if obj.Class = 0 ∧ obj.TagNumber = 17 then encodeSetContent enc obj
  else encodeConstructedLoop enc obj.SubObjects []

/-- Function `encodeContent`. -/
def encodeContent (enc : ASN1Object → Except Err (List Byte)) (obj : ASN1Object) :
    Except Err (List Byte) :=
  if obj.IsConstructed then encodeConstructedContent enc obj
  else .ok (encodePrimitiveContent obj)

/-- The body of `encodeDER`, with `enc` for its recursive calls. -/
def encodeDERStep (enc : ASN1Object → Except Err (List Byte)) (obj : ASN1Object) :
    Except Err (List Byte) := do
  let obj ← if obj.IsConstructed ∧ obj.Class = 0 then flattenConstructedType obj else .ok obj
  let contentBytes ← encodeContent enc obj
  let tagBytes := encodeTag obj
  let lengthBytes := encodeLength contentBytes.length
  .ok (tagBytes ++ lengthBytes ++ contentBytes)

/-- Function `encodeDER` with a bound `fuel` on the nesting depth. -/
def encodeDERF : Nat → ASN1Object → Except Err (List Byte)
  | 0, _ => .error .fuelExhausted
  | fuel + 1, obj => encodeDERStep (encodeDERF fuel) obj

mutual
/-- Nesting depth of an object. -/
def height : ASN1Object → Nat
  | .mk _ _ _ _ subs => heightList subs + 1
/-- Largest nesting depth in a list of objects. -/
def heightList : List ASN1Object → Nat
  | [] => 0
  | s :: rest => max (height s) (heightList rest)
end

/-- Function `encodeDER`. -/
def encodeDER (obj : ASN1Object) : Except Err (List Byte) :=
  encodeDERF (height obj) obj

/-- Function `MakeDER`. -/
def MakeDER (data : List Byte) : Except Err (List Byte) :=
  if data.length = 0 then .error .emptyInput
  else do
    let (obj, pos) ← parseElement data 0
    if pos ≠ data.length then .error .extraData
    else encodeDER obj

/-! ## Vocabulary of the specification -/

/-- Big-endian unsigned value of a sequence of octets. -/
def beValue (octets : List Byte) : Nat := octets.foldl (fun acc b => acc * 256 + b.val) 0

/-- Base-128 big-endian value of the low seven bits of a sequence of octets. -/
def tagValue (octets : List Byte) : Nat := octets.foldl (fun acc b => acc * 128 + b.val % 128) 0

/-- The high bit is set on every octet except the last, and there is a last octet. -/
def ContinuationMarked : List Byte → Prop
  | [] => False
  | [b] => b.val < 128
  | b :: c :: rest => 128 ≤ b.val ∧ ContinuationMarked (c :: rest)

/-- The errors raised by the flatteners of constructed strings. -/
def Err.isFlattenError : Err → Prop
  | .bitStringInvalidSub _ => True
  | .bitStringNoContent _ => True
  | .bitStringNonZeroUnused _ _ => True
  | .octetStringInvalidSub _ => True
  | .stringInvalidSub _ _ => True
  | _ => False

/-- A primitive BIT STRING segment with unused-bits count `p.1` and data `p.2`. -/
def bitStringChunk (p : Byte × List Byte) : ASN1Object :=
  ASN1Object.mk 0 3 false (p.1 :: p.2) []

mutual
/-- The property holds at every node of the tree. -/
def AllNodes (P : ASN1Object → Prop) : ASN1Object → Prop
  | .mk c t k v subs => P (.mk c t k v subs) ∧ AllNodesList P subs
/-- The property holds at every node of every tree of the list. -/
def AllNodesList (P : ASN1Object → Prop) : List ASN1Object → Prop
  | [] => True
  | s :: rest => AllNodes P s ∧ AllNodesList P rest
end

/-- What the parser guarantees of a node: the class is one of the four classes, a
primitive node has no sub-objects and a constructed node has no value. -/
def WellFormedNode (obj : ASN1Object) : Prop :=
  obj.Class < 4 ∧ (obj.IsConstructed = false → obj.SubObjects = []) ∧
    (obj.IsConstructed = true → obj.Value = [])

/-- The tag number of the node is below the bound. -/
def TagBelow (bound : Nat) (obj : ASN1Object) : Prop := obj.TagNumber < bound

mutual
/-- The element written with minimal identifier octets and minimal definite lengths, and
without any canonicalisation: identifier, length, then the value of a primitive node or the
sub-elements of a constructed node in their order. -/
def writeMinimal : ASN1Object → List Byte
  | .mk c t k v subs =>
    encodeTag (.mk c t k v []) ++
      encodeLength (if k then writeMinimalList subs else v).length ++
      (if k then writeMinimalList subs else v)
/-- The elements of a list written one after the other. -/
def writeMinimalList : List ASN1Object → List Byte
  | [] => []
  | s :: rest => writeMinimal s ++ writeMinimalList rest
end

/-- The conditions under which a node needs no canonicalisation: it is not a Universal
constructed string, the members of a Universal constructed tag-17 node are in
non-decreasing order of their encodings, and a one-byte Universal or Context-specific
tag-1 primitive holds 0x00 or 0xFF. -/
def DERNode (obj : ASN1Object) : Prop :=
  ¬ (obj.Class = 0 ∧ obj.IsConstructed = true ∧ IsFlattenTag obj.TagNumber) ∧
  (obj.Class = 0 → obj.IsConstructed = true → obj.TagNumber = 17 →
      (obj.SubObjects.map writeMinimal).Pairwise (fun a b => bytesCompare a b ≤ 0)) ∧
  (obj.IsConstructed = false → (obj.Class = 0 ∨ obj.Class = 2) → obj.TagNumber = 1 →
      ∀ b, obj.Value = [b] → b = 0x00 ∨ b = 0xFF)

/-- The octets `L` are a definite-length field for the length `n`: the short form, or the
long form with any number (at most 127) of length octets, leading zero octets included. -/
def IsDefiniteLength (L : List Byte) (n : Nat) : Prop :=
  (n < 128 ∧ L = [toByte n]) ∨
    ∃ ds : List Byte, 1 ≤ ds.length ∧ ds.length ≤ 127 ∧ beValue ds = n ∧
      L = toByte (0x80 ||| ds.length) :: ds

/-- The content octets of a constructed object that is not flattened, from the encodings of
its sub-objects. -/
def constructedContent (obj : ASN1Object) (encs : List (List Byte)) : List Byte :=
  if obj.Class = 0 ∧ obj.TagNumber = 17 then (sortSlice encs).flatten else encs.flatten

/-- The parser `pe2` on the larger buffer repeats every success of `pe` on `d`, and the
successes of `pe` consume at least two octets inside `d` and return well-formed nodes with
tag numbers below `2 ^ 49`. -/
def FramesTo (pe pe2 : List Byte → Nat → Except Err (ASN1Object × Nat))
    (pre d post : List Byte) : Prop :=
  ∀ p o q, pe d p = .ok (o, q) →
    p + 2 ≤ q ∧ q ≤ d.length ∧ AllNodes (fun x => WellFormedNode x ∧ TagBelow (2 ^ 49) x) o ∧
      pe2 (pre ++ d ++ post) (pre.length + p) = .ok (o, pre.length + q)

/-- The Universal primitive element of tag `t` (below 31) with content `S`, written with a
minimal definite length. -/
def segmentElement (t : Nat) (S : List Byte) : List Byte :=
  toByte t :: (encodeLength S.length ++ S)

/-- The segments `segs` written one after the other as Universal primitive elements of
tag `t`. -/
def segmentsBody (t : Nat) (segs : List (List Byte)) : List Byte :=
  (segs.map (segmentElement t)).flatten

/-- Equality of results is decidable. -/
instance decEqResult : DecidableEq (Except Err (List Byte)) := fun a b =>
  match a, b with
  | .ok x, .ok y =>
    if h : x = y then isTrue (by rw [h]) else isFalse (fun h2 => by cases h2; exact h rfl)
  | .error x, .error y =>
    if h : x = y then isTrue (by rw [h]) else isFalse (fun h2 => by cases h2; exact h rfl)
  | .ok _, .error _ => isFalse (fun h2 => by cases h2)
  | .error _, .ok _ => isFalse (fun h2 => by cases h2)

/-- Function `flattenBitString` as a transformer of the object behind the pointer: the
object after the call and the returned error (`none` for `nil`).  Every `return` with an
error comes before the three assignments to the fields of the object. -/
def flattenBitStringInPlace (obj : ASN1Object) : ASN1Object × Option Err :=
  match flattenBitStringLoop obj.SubObjects.length obj.SubObjects 0 [] 0 with
  | .error e => (obj, some e)
  | .ok (bitData, finalUnusedBits) =>
    (ASN1Object.mk obj.Class obj.TagNumber false ([finalUnusedBits] ++ bitData) [], none)

/-- The sub-elements `subs` are parsed by `pe` one after the other from position `p`, each
of them starting before `endPos`, and the last one ends at `q`. -/
def ChildrenChain (pe : List Byte → Nat → Except Err (ASN1Object × Nat)) (data : List Byte)
    (endPos : Int) : Nat → List ASN1Object → Nat → Prop
  | p, [], q => p = q
  | p, o :: rest, q =>
    (p : Int) < endPos ∧ ∃ p2, pe data p = .ok (o, p2) ∧ ChildrenChain pe data endPos p2 rest q

/-- The content loop of a constructed element whose length field was read as `(len, p2)`
goes on to parse a sub-element at position `p`: in the indefinite form there is no
end-of-contents marker at `p`; in a definite form the length check has passed and `p` is
before the end of the content. -/
def LoopContinues (data : List Byte) (len : Int) (p2 p : Nat) : Prop :=
  if len = -1 then isEndOfContents data p = .ok false
  else ¬ (wrapInt ((p2 : Int) + len) > (data.length : Int)) ∧
    (p : Int) < wrapInt ((p2 : Int) + len)

/-- The content loop that stands at position `p`, with `parseElementF f` for the
sub-elements, calls `parseElementF f data` at position `q`, now or after some sub-elements
have been parsed. -/
inductive LoopReaches (data : List Byte) (f : Nat) (len : Int) (p2 : Nat) : Nat → Nat → Prop
  | here {p : Nat} : LoopContinues data len p2 p → LoopReaches data f len p2 p p
  | step {p p3 q : Nat} {o : ASN1Object} : LoopContinues data len p2 p →
      parseElementF f data p = .ok (o, p3) → LoopReaches data f len p2 p3 q →
      LoopReaches data f len p2 p q

/-- The run of `parseElement data 0` calls `parseElementF f data` at position `p`: at the
top level, or from the content loop of a constructed element that the run has reached. -/
inductive Reaches (data : List Byte) : Nat → Nat → Prop
  | root : Reaches data (data.length + 1) 0
  | child {f p c t p1 p2 q : Nat} {len : Int} : Reaches data (f + 1) p → p < data.length →
      parseTag data p = .ok (c, t, true, p1) → parseLength data p1 = .ok (len, p2) →
      LoopReaches data f len p2 p2 q → Reaches data f q

/-- The outcome is one of the error values that the program returns (`fmt.Errorf`): not a
run-time panic and not the exhaustion of the fuel of a loop of the embedding. -/
def Err.isErrorValue : Err → Prop
  | .indexPanic => False
  | .slicePanic => False
  | .fuelExhausted => False
  | _ => True

/-- The two octets at position `p` of `data` are `00 00`, the end-of-contents marker. -/
def MarkerAt (data : List Byte) (p : Nat) : Prop :=
  data[p]? = some 0x00 ∧ data[p + 1]? = some 0x00

instance (data : List Byte) (p : Nat) : Decidable (MarkerAt data p) := by
  unfold MarkerAt; infer_instance

/-- The sub-elements `subs` are parsed by `pe` one after the other from position `p`, each
of them starting at a position where no end-of-contents marker stands; after the last one
the marker stands, and `q` is the position after the marker. -/
def IndefiniteChain (pe : List Byte → Nat → Except Err (ASN1Object × Nat)) (data : List Byte) :
    Nat → List ASN1Object → Nat → Prop
  | p, [], q => MarkerAt data p ∧ q = p + 2
  | p, o :: rest, q =>
    ¬ MarkerAt data p ∧ ∃ p2, pe data p = .ok (o, p2) ∧ IndefiniteChain pe data p2 rest q

/-- An end-of-contents element: Universal, tag 0, primitive, zero-length content. -/
def IsEndOfContentsNode (x : ASN1Object) : Prop :=
  x.Class = 0 ∧ x.TagNumber = 0 ∧ x.IsConstructed = false ∧ x.Value = []

instance : DecidablePred IsEndOfContentsNode := fun x => by
  unfold IsEndOfContentsNode; infer_instance

mutual
/-- The tree `obj` is the element of `data` that stands at position `p` and ends at `q`:
the identifier octets at `p` decode to the class (one of the four), the tag number (a
non-negative `int`, below `2 ^ 49`) and the constructed flag of the node, and the length
field follows.  A primitive node has no sub-objects, its length is definite, and its `Value`
is exactly the `length` octets of `data` after the length field, which end at `q`.  A
constructed node has an empty `Value`, and its sub-objects are the elements that stand one
after the other from the end of the length field: up to the end-of-contents marker, which
ends at `q`, in the indefinite form; up to `q`, the end of the `length` content octets, in a
definite form. -/
def ElementAt (data : List Byte) : ASN1Object → Nat → Nat → Prop
  | .mk c t k v subs, p, q =>
    ∃ (p1 p2 : Nat) (len : Int),
      parseTag data p = .ok (c, t, k, p1) ∧ parseLength data p1 = .ok (len, p2) ∧
      c < 4 ∧ t < 2 ^ 49 ∧ q ≤ data.length ∧
      (k = false → subs = [] ∧ 0 ≤ len ∧ (q : Int) = (p2 : Int) + len ∧
        v = (data.drop p2).take (q - p2)) ∧
      (k = true → v = [] ∧
        if len = -1 then
          ∃ q2, ElementsAt data true subs p2 q2 ∧ MarkerAt data q2 ∧ q = q2 + 2
        else 0 ≤ len ∧ (q : Int) = (p2 : Int) + len ∧ ElementsAt data false subs p2 q)
/-- The trees of the list are the elements of `data` that stand one after the other from
position `p` to position `q`; inside an indefinite-length content (`indef`), none of them
starts where the end-of-contents marker stands. -/
def ElementsAt (data : List Byte) : Bool → List ASN1Object → Nat → Nat → Prop
  | _, [], p, q => p = q
  | indef, s :: rest, p, q =>
    (indef = true → ¬ MarkerAt data p) ∧
      ∃ p2, ElementAt data s p p2 ∧ ElementsAt data indef rest p2 q
end

/-! ## Arithmetic reading of the bit operations -/

theorem toByte_val (n : Nat) : (toByte n).val = n % 256 := rfl

theorem toByte_of_lt {n : Nat} (h : n < 256) : (toByte n).val = n := by
  simp [toByte_val, Nat.mod_eq_of_lt h]

theorem toByte_val_self (b : Byte) : toByte b.val = b := by
  apply Fin.ext
  simp [toByte_val, Nat.mod_eq_of_lt b.isLt]

theorem and_ff (x : Nat) : x &&& 0xFF = x % 256 := Nat.and_pow_two_sub_one_eq_mod x 8

theorem and_7f (x : Nat) : x &&& 0x7F = x % 128 := Nat.and_pow_two_sub_one_eq_mod x 7

theorem and_1f (x : Nat) : x &&& 0x1F = x % 32 := Nat.and_pow_two_sub_one_eq_mod x 5

theorem and_3 (x : Nat) : x &&& 0x3 = x % 4 := Nat.and_pow_two_sub_one_eq_mod x 2

theorem shr_8 (x : Nat) : x >>> 8 = x / 256 := Nat.shiftRight_eq_div_pow x 8

theorem shr_7 (x : Nat) : x >>> 7 = x / 128 := Nat.shiftRight_eq_div_pow x 7

theorem shl_7_or (x y : Nat) (hy : y < 128) : (x <<< 7) ||| y = x * 128 + y := by
  have h := Nat.mul_add_lt_is_or (i := 7) hy x
  rw [Nat.shiftLeft_eq, ← Nat.mul_comm (2 ^ 7) x]
  exact h.symm

set_option maxRecDepth 100000 in
/-- For a byte, `b & 0x80 == 0` says that `b` is below 128. -/
theorem byte_and_80 : ∀ b : Byte, (b.val &&& 0x80 = 0) ↔ b.val < 128 := by decide

set_option maxRecDepth 100000 in
theorem byte_bor_80 : ∀ b : Byte, b.val < 128 → (bor b 0x80).val = b.val + 128 := by decide

/-! ## Length emission -/

theorem beValue_append_single (ds : List Byte) (b : Byte) :
    beValue (ds ++ [b]) = beValue ds * 256 + b.val := by
  simp [beValue, List.foldl_append]

theorem encodeLengthLoop_spec (fuel : Nat) : ∀ (temp : Nat) (acc : List Byte), temp ≤ fuel →
    ∃ ds : List Byte, encodeLengthLoop fuel temp acc = ds ++ acc ∧ beValue ds = temp ∧
      (∀ k, temp < 256 ^ k → ds.length ≤ k) ∧
      (0 < temp → ∃ d r, ds = d :: r ∧ d ≠ 0) := by
  induction fuel with
  | zero =>
    intro temp acc h
    have : temp = 0 := by omega
    subst this
    exact ⟨[], by simp [encodeLengthLoop], rfl, by simp, by simp⟩
  | succ fuel ih =>
    intro temp acc h
    by_cases ht : temp = 0
    · subst ht
      exact ⟨[], by simp [encodeLengthLoop], rfl, by simp, by simp⟩
    · have hpos : 0 < temp := Nat.pos_of_ne_zero ht
      have hdiv : temp / 256 ≤ fuel := by
        have : temp / 256 < temp := Nat.div_lt_self hpos (by decide)
        omega
      obtain ⟨ds, hrun, hval, hlen, hhead⟩ := ih (temp / 256) (toByte (temp % 256) :: acc) hdiv
      refine ⟨ds ++ [toByte (temp % 256)], ?_, ?_, ?_, ?_⟩
      · simp [encodeLengthLoop, hpos, shr_8, and_ff, hrun]
      · rw [beValue_append_single, hval, toByte_val, Nat.mod_mod]
        exact Nat.div_add_mod' temp 256
      · intro k hk
        cases k with
        | zero => simp at hk; omega
        | succ k =>
          have : temp / 256 < 256 ^ k := by
            rw [Nat.div_lt_iff_lt_mul (by decide)]
            rw [pow_succ] at hk
            exact hk
          have := hlen k this
          simp
          omega
      · intro _
        by_cases hq : temp / 256 = 0
        · have hnil : ds = [] := by
            have := hlen 0 (by simp [hq])
            exact List.length_eq_zero.mp (by omega)
          subst hnil
          refine ⟨toByte (temp % 256), [], rfl, ?_⟩
          intro hz
          have := congrArg Fin.val hz
          rw [toByte_val, Nat.mod_mod] at this
          have h1 : temp < 256 := by
            by_contra hge
            have : 1 ≤ temp / 256 := Nat.div_pos (by omega) (by decide)
            omega
          simp [Nat.mod_eq_of_lt h1] at this
          exact ht this
        · obtain ⟨d, r, hd, hne⟩ := hhead (Nat.pos_of_ne_zero hq)
          exact ⟨d, r ++ [toByte (temp % 256)], by simp [hd], hne⟩

theorem encodeLength_short {n : Nat} (h : n < 128) : encodeLength n = [toByte n] := by
  simp [encodeLength, h]

/-- Shape of the long form: the count octet, then the minimal big-endian digits. -/
theorem encodeLength_long {n : Nat} (h : 128 ≤ n) (hn : n < 2 ^ 63) :
    ∃ ds : List Byte, encodeLength n = toByte (0x80 ||| ds.length) :: ds ∧
      1 ≤ ds.length ∧ ds.length ≤ 8 ∧ beValue ds = n ∧ (∃ d r, ds = d :: r ∧ d ≠ 0) := by
  obtain ⟨ds, hrun, hval, hlen, hhead⟩ := encodeLengthLoop_spec n n [] (Nat.le_refl n)
  have hl8 : ds.length ≤ 8 := hlen 8 (by
    have : (2 : Nat) ^ 63 < 256 ^ 8 := by norm_num
    omega)
  obtain ⟨d, r, hd, hne⟩ := hhead (by omega)
  refine ⟨ds, ?_, ?_, hl8, hval, ⟨d, r, hd, hne⟩⟩
  · have hnot : ¬ n < 128 := by omega
    simp only [encodeLength, hnot, if_false, hrun, List.append_nil]
    congr 1
    have key : ∀ m : Nat, m ≤ 8 → bor 0x80 (toByte m) = toByte (0x80 ||| m) := by decide
    exact key _ hl8
  · simp [hd]

theorem encodeLength_head_ne_80 {n : Nat} (hn : n < 2 ^ 63) :
    (encodeLength n).head? ≠ some 0x80 := by
  by_cases h : n < 128
  · rw [encodeLength_short h]
    simp only [List.head?_cons, ne_eq, Option.some.injEq]
    intro hz
    have := congrArg Fin.val hz
    rw [toByte_of_lt (by omega)] at this
    have h80 : ((0x80 : Byte)).val = 128 := rfl
    omega
  · obtain ⟨ds, he, h1, h8, -, -⟩ := encodeLength_long (by omega) hn
    rw [he]
    simp only [List.head?_cons, ne_eq, Option.some.injEq]
    have key : ∀ m : Nat, 1 ≤ m → m ≤ 8 → toByte (0x80 ||| m) ≠ 0x80 := by decide
    exact key _ h1 h8

/-! ## Tag emission -/

theorem tagValue_append_single (os : List Byte) (b : Byte) :
    tagValue (os ++ [b]) = tagValue os * 128 + b.val % 128 := by
  simp [tagValue, List.foldl_append]

theorem encodeTagLoop_spec (fuel : Nat) : ∀ (tagNum : Nat) (tmp : List Byte),
    tagNum ≤ fuel → 0 < fuel →
    ∃ ds : List Byte, encodeTagLoop fuel tagNum tmp = ds ++ tmp ∧ ds ≠ [] ∧
      (∀ d ∈ ds, d.val < 128) ∧ tagValue ds = tagNum ∧
      (∀ k, 0 < k → tagNum < 128 ^ k → ds.length ≤ k) ∧
      (128 ≤ tagNum → ∃ d r, ds = d :: r ∧ d ≠ 0) := by
  induction fuel with
  | zero => intro _ _ _ h; omega
  | succ fuel ih =>
    intro tagNum tmp hle _
    have hb : (toByte (tagNum % 128)).val = tagNum % 128 :=
      toByte_of_lt (by have := Nat.mod_lt tagNum (show 0 < 128 by decide); omega)
    by_cases hq : tagNum / 128 = 0
    · have hlt : tagNum < 128 := by
        by_contra hge
        have : 1 ≤ tagNum / 128 := Nat.div_pos (by omega) (by decide)
        omega
      refine ⟨[toByte (tagNum % 128)], ?_, by simp, ?_, ?_, ?_, ?_⟩
      · simp [encodeTagLoop, shr_7, and_7f, hq]
      · intro d hd
        simp only [List.mem_singleton] at hd
        rw [hd, hb]
        exact Nat.mod_lt _ (by decide)
      · have h2 : (toByte (tagNum % 128)).val % 128 = tagNum := by
          rw [hb, Nat.mod_mod, Nat.mod_eq_of_lt hlt]
        simp only [tagValue, List.foldl_cons, List.foldl_nil, Nat.zero_mul, Nat.zero_add]
        exact h2
      · intro k hk _
        simpa using hk
      · intro h; omega
    · have hqpos : 0 < tagNum / 128 := Nat.pos_of_ne_zero hq
      have hge : 128 ≤ tagNum := by
        by_contra hlt
        have : tagNum / 128 = 0 := Nat.div_eq_of_lt (by omega)
        omega
      have hdiv : tagNum / 128 ≤ fuel := by
        have : tagNum / 128 < tagNum := Nat.div_lt_self (by omega) (by decide)
        omega
      obtain ⟨ds, hrun, hne, hall, hval, hlen, hhead⟩ :=
        ih (tagNum / 128) (toByte (tagNum % 128) :: tmp) hdiv (by omega)
      refine ⟨ds ++ [toByte (tagNum % 128)], ?_, by simp, ?_, ?_, ?_, ?_⟩
      · simp [encodeTagLoop, shr_7, and_7f, hq, hrun]
      · intro d hd
        rcases List.mem_append.mp hd with h | h
        · exact hall d h
        · simp only [List.mem_singleton] at h
          rw [h, hb]
          exact Nat.mod_lt _ (by decide)
      · rw [tagValue_append_single, hval, hb, Nat.mod_mod]
        exact Nat.div_add_mod' tagNum 128
      · intro k hk hlt
        cases k with
        | zero => omega
        | succ k =>
          have hk0 : 0 < k := by
            rcases Nat.eq_zero_or_pos k with h0 | h0
            · subst h0; simp at hlt; omega
            · exact h0
          have : tagNum / 128 < 128 ^ k := by
            rw [Nat.div_lt_iff_lt_mul (by decide)]
            rw [pow_succ] at hlt
            exact hlt
          have := hlen k hk0 this
          simp
          omega
      · intro _
        by_cases h2 : 128 ≤ tagNum / 128
        · obtain ⟨d, r, hd, hdne⟩ := hhead h2
          exact ⟨d, r ++ [toByte (tagNum % 128)], by simp [hd], hdne⟩
        · have h1 : ds.length ≤ 1 := hlen 1 (by decide) (by simpa using h2)
          match ds, hne, h1, hval with
          | [d], _, _, hv =>
            refine ⟨d, [toByte (tagNum % 128)], rfl, ?_⟩
            intro hz
            subst hz
            simp [tagValue] at hv
            omega

theorem setContinuationBits_length : ∀ ds : List Byte,
    (setContinuationBits ds).length = ds.length
  | [] => rfl
  | [_] => rfl
  | _ :: c :: rest => by
    simp [setContinuationBits, setContinuationBits_length (c :: rest)]

theorem setContinuationBits_marked : ∀ ds : List Byte, ds ≠ [] → (∀ d ∈ ds, d.val < 128) →
    ContinuationMarked (setContinuationBits ds)
  | [], h, _ => absurd rfl h
  | [b], _, hall => by
    simpa [setContinuationBits, ContinuationMarked] using hall b (by simp)
  | b :: c :: rest, _, hall => by
    have ih := setContinuationBits_marked (c :: rest) (by simp)
      (fun d hd => hall d (List.mem_cons_of_mem _ hd))
    have hb := byte_bor_80 b (hall b (by simp))
    cases hr : setContinuationBits (c :: rest) with
    | nil =>
      have := setContinuationBits_length (c :: rest)
      rw [hr] at this
      simp at this
    | cons x xs =>
      rw [hr] at ih
      simp only [setContinuationBits, hr, ContinuationMarked]
      exact ⟨by omega, ih⟩

theorem tagValue_cons (b : Byte) (os : List Byte) :
    tagValue (b :: os) = (b.val % 128) * 128 ^ os.length + tagValue os := by
  induction os using List.reverseRecOn with
  | nil => simp [tagValue]
  | append_singleton os x ih =>
    rw [← List.cons_append, tagValue_append_single, tagValue_append_single, ih]
    simp [pow_succ]
    ring

theorem setContinuationBits_value : ∀ ds : List Byte, (∀ d ∈ ds, d.val < 128) →
    tagValue (setContinuationBits ds) = tagValue ds
  | [], _ => rfl
  | [_], _ => rfl
  | b :: c :: rest, hall => by
    have ih := setContinuationBits_value (c :: rest) (fun d hd => hall d (List.mem_cons_of_mem _ hd))
    have hb := byte_bor_80 b (hall b (by simp))
    simp only [setContinuationBits]
    rw [tagValue_cons, tagValue_cons b, ih, setContinuationBits_length, hb]
    simp

theorem setContinuationBits_head : ∀ ds : List Byte, (∀ d ∈ ds, d.val < 128) →
    ∀ d r, ds = d :: r → d ≠ 0 →
    ∃ e s, setContinuationBits ds = e :: s ∧ e.val % 128 ≠ 0
  | [b], hall, d, r, h, hne => by
    simp only [List.cons.injEq] at h
    obtain ⟨rfl, -⟩ := h
    refine ⟨b, [], rfl, ?_⟩
    have := hall b (by simp)
    rw [Nat.mod_eq_of_lt this]
    intro hz
    exact hne (Fin.ext hz)
  | b :: c :: rest, hall, d, r, h, hne => by
    simp only [List.cons.injEq] at h
    obtain ⟨rfl, -⟩ := h
    refine ⟨bor b 0x80, setContinuationBits (c :: rest), rfl, ?_⟩
    have hlt := hall b (by simp)
    rw [byte_bor_80 b hlt]
    simp only [Nat.add_mod_right, Nat.mod_eq_of_lt hlt]
    intro hz
    exact hne (Fin.ext hz)

/-- The identifier octet that `encodeTag` builds, read as one expression. -/
theorem firstOctet_short : ∀ c : Nat, c < 4 → ∀ k : Bool, ∀ n : Nat, n < 31 →
    bor (if k then bor (toByte ((c &&& 0x3) <<< 6)) 0x20 else toByte ((c &&& 0x3) <<< 6))
      (toByte (n &&& 0x1F)) = toByte ((c <<< 6) ||| (if k then 0x20 else 0) ||| n) := by
  decide

theorem firstOctet_long : ∀ c : Nat, c < 4 → ∀ k : Bool,
    bor (if k then bor (toByte ((c &&& 0x3) <<< 6)) 0x20 else toByte ((c &&& 0x3) <<< 6)) 0x1F
      = toByte ((c <<< 6) ||| (if k then 0x20 else 0) ||| 0x1F) := by
  decide

theorem encodeTag_short (c n : Nat) (k : Bool) (v : List Byte) (subs : List ASN1Object)
    (hc : c < 4) (hn : n < 31) :
    encodeTag (ASN1Object.mk c n k v subs)
      = [toByte ((c <<< 6) ||| (if k then 0x20 else 0) ||| n)] := by
  simp only [encodeTag, ASN1Object.Class, ASN1Object.TagNumber, ASN1Object.IsConstructed, hn,
    if_true]
  rw [← firstOctet_short c hc k n hn]

/-- Shape of the long form of an identifier: the leading octet, then the base-128 digits
of the tag number with continuation bits. -/
theorem encodeTag_long (c n : Nat) (k : Bool) (v : List Byte) (subs : List ASN1Object)
    (hc : c < 4) (hn : 31 ≤ n) :
    ∃ os : List Byte,
      encodeTag (ASN1Object.mk c n k v subs)
        = toByte ((c <<< 6) ||| (if k then 0x20 else 0) ||| 0x1F) :: os ∧
      ContinuationMarked os ∧ tagValue os = n ∧ (∃ e s, os = e :: s ∧ e.val % 128 ≠ 0) ∧
      (∀ j, 0 < j → n < 128 ^ j → os.length ≤ j) := by
  obtain ⟨ds, hrun, hne, hall, hval, hlen, hhead⟩ :=
    encodeTagLoop_spec n n [] (Nat.le_refl n) (by omega)
  refine ⟨setContinuationBits ds, ?_, setContinuationBits_marked ds hne hall, ?_, ?_, ?_⟩
  · have hnot : ¬ n < 31 := by omega
    simp only [encodeTag, ASN1Object.Class, ASN1Object.TagNumber, ASN1Object.IsConstructed,
      hnot, if_false, hrun, List.append_nil, List.singleton_append]
    rw [← firstOctet_long c hc k]
  · rw [setContinuationBits_value ds hall, hval]
  · by_cases h128 : 128 ≤ n
    · obtain ⟨d, r, hd, hdne⟩ := hhead h128
      exact setContinuationBits_head ds hall d r hd hdne
    · have h1 : ds.length ≤ 1 := hlen 1 (by decide) (by simpa using h128)
      match ds, hne, h1, hval, hall with
      | [d], _, _, hv, ha =>
        refine ⟨d, [], rfl, ?_⟩
        have hdl := ha d (by simp)
        simp only [tagValue, List.foldl_cons, List.foldl_nil, Nat.zero_mul, Nat.zero_add] at hv
        omega
  · intro j hj hlt
    rw [setContinuationBits_length]
    exact hlen j hj hlt

/-! ## Nesting depth and induction over objects -/

theorem height_mk (c t : Nat) (k : Bool) (v : List Byte) (subs : List ASN1Object) :
    height (ASN1Object.mk c t k v subs) = heightList subs + 1 := by
  simp [height]

theorem height_le_heightList {s : ASN1Object} : ∀ {subs : List ASN1Object},
    s ∈ subs → height s ≤ heightList subs
  | [], h => by simp at h
  | x :: rest, h => by
    simp only [heightList]
    rcases List.mem_cons.mp h with rfl | h
    · exact Nat.le_max_left _ _
    · exact Nat.le_trans (height_le_heightList h) (Nat.le_max_right _ _)

theorem height_pos (obj : ASN1Object) : 0 < height obj := by
  cases obj
  rw [height_mk]
  exact Nat.succ_pos _

theorem height_sub_lt {s obj : ASN1Object} (h : s ∈ obj.SubObjects) : height s < height obj := by
  cases obj with
  | mk c t k v subs =>
    rw [height_mk]
    exact Nat.lt_succ_of_le (height_le_heightList h)

/-- Induction over objects: a property that passes from the sub-objects to the object
holds of every object. -/
theorem ASN1Object.induct {P : ASN1Object → Prop}
    (step : ∀ c t k v subs, (∀ s ∈ subs, P s) → P (ASN1Object.mk c t k v subs)) :
    ∀ obj, P obj := by
  have main : ∀ n obj, height obj ≤ n → P obj := by
    intro n
    induction n with
    | zero =>
      intro obj h
      have := height_pos obj
      omega
    | succ n ih =>
      intro obj h
      cases obj with
      | mk c t k v subs =>
        apply step
        intro s hs
        apply ih
        have := @height_sub_lt s (ASN1Object.mk c t k v subs) hs
        omega
  intro obj
  exact main (height obj) obj (Nat.le_refl _)

/-! ## The flatteners keep or clear the sub-objects -/

theorem flattenBitString_shape {obj r : ASN1Object} (h : flattenBitString obj = .ok r) :
    r.Class = obj.Class ∧ r.TagNumber = obj.TagNumber ∧ r.IsConstructed = false ∧
      r.SubObjects = [] := by
  unfold flattenBitString at h
  cases hl : flattenBitStringLoop obj.SubObjects.length obj.SubObjects 0 [] 0 with
  | error e => rw [hl] at h; cases h
  | ok p =>
    rw [hl] at h
    cases h
    exact ⟨rfl, rfl, rfl, rfl⟩

theorem flattenOctetString_shape {obj r : ASN1Object} (h : flattenOctetString obj = .ok r) :
    r.Class = obj.Class ∧ r.TagNumber = obj.TagNumber ∧ r.IsConstructed = false ∧
      r.SubObjects = [] := by
  unfold flattenOctetString at h
  cases hl : flattenOctetStringLoop obj.SubObjects 0 [] with
  | error e => rw [hl] at h; cases h
  | ok p =>
    rw [hl] at h
    cases h
    exact ⟨rfl, rfl, rfl, rfl⟩

theorem flattenString_shape {obj r : ASN1Object} (h : flattenString obj = .ok r) :
    r.Class = obj.Class ∧ r.TagNumber = obj.TagNumber ∧ r.IsConstructed = false ∧
      r.SubObjects = [] := by
  unfold flattenString at h
  cases hl : flattenStringLoop obj.TagNumber obj.SubObjects 0 [] with
  | error e => rw [hl] at h; cases h
  | ok p =>
    rw [hl] at h
    cases h
    exact ⟨rfl, rfl, rfl, rfl⟩

/-- The tag numbers on which `flattenConstructedType` rewrites the object. -/
theorem flattenConstructedType_keep {obj : ASN1Object}
    (h3 : obj.TagNumber ≠ 3) (h4 : obj.TagNumber ≠ 4) (hs : obj.TagNumber ∉ stringTags) :
    flattenConstructedType obj = .ok obj := by
  simp [flattenConstructedType, h3, h4, hs]

theorem flattenConstructedType_shape {obj r : ASN1Object}
    (h : flattenConstructedType obj = .ok r) :
    r = obj ∨ (r.Class = obj.Class ∧ r.TagNumber = obj.TagNumber ∧ r.IsConstructed = false ∧
      r.SubObjects = []) := by
  unfold flattenConstructedType at h
  split at h
  · exact Or.inr (flattenBitString_shape h)
  · split at h
    · exact Or.inr (flattenOctetString_shape h)
    · split at h
      · exact Or.inr (flattenString_shape h)
      · split at h <;> (cases h; exact Or.inl rfl)

/-! ## The encoder does not depend on its fuel -/

theorem encodeSubs_congr {enc enc2 : ASN1Object → Except Err (List Byte)} :
    ∀ {subs : List ASN1Object}, (∀ s ∈ subs, enc s = enc2 s) →
      encodeSubs enc subs = encodeSubs enc2 subs
  | [], _ => rfl
  | x :: rest, h => by
    simp only [encodeSubs]
    rw [h x (by simp), encodeSubs_congr (fun s hs => h s (List.mem_cons_of_mem _ hs))]

theorem encodeConstructedLoop_congr {enc enc2 : ASN1Object → Except Err (List Byte)} :
    ∀ {subs : List ASN1Object} (acc : List Byte), (∀ s ∈ subs, enc s = enc2 s) →
      encodeConstructedLoop enc subs acc = encodeConstructedLoop enc2 subs acc
  | [], _, _ => rfl
  | x :: rest, acc, h => by
    simp only [encodeConstructedLoop]
    rw [h x (by simp)]
    cases enc2 x with
    | error e => rfl
    | ok b =>
      exact encodeConstructedLoop_congr _ (fun s hs => h s (List.mem_cons_of_mem _ hs))

theorem encodeContent_congr {enc enc2 : ASN1Object → Except Err (List Byte)} {obj : ASN1Object}
    (h : ∀ s ∈ obj.SubObjects, enc s = enc2 s) :
    encodeContent enc obj = encodeContent enc2 obj := by
  unfold encodeContent encodeConstructedContent encodeSetContent
  rw [encodeSubs_congr h, encodeConstructedLoop_congr [] h]

theorem encodeDERStep_congr {enc enc2 : ASN1Object → Except Err (List Byte)} {obj : ASN1Object}
    (h : ∀ s ∈ obj.SubObjects, enc s = enc2 s) :
    encodeDERStep enc obj = encodeDERStep enc2 obj := by
  unfold encodeDERStep
  split
  · cases hf : flattenConstructedType obj with
    | error e => rfl
    | ok r =>
      have hr : ∀ s ∈ r.SubObjects, enc s = enc2 s := by
        rcases flattenConstructedType_shape hf with rfl | ⟨-, -, -, hnil⟩
        · exact h
        · rw [hnil]; intro s hs; simp at hs
      simp only [bind, Except.bind]
      rw [encodeContent_congr hr]
  · simp only [bind, Except.bind]
    rw [encodeContent_congr h]

theorem encodeDERF_fuel : ∀ (fuel fuel2 : Nat) (obj : ASN1Object),
    height obj ≤ fuel → height obj ≤ fuel2 → encodeDERF fuel obj = encodeDERF fuel2 obj := by
  intro fuel
  induction fuel with
  | zero =>
    intro _ obj h
    have := height_pos obj
    omega
  | succ n ih =>
    intro fuel2 obj h1 h2
    cases fuel2 with
    | zero =>
      have := height_pos obj
      omega
    | succ m =>
      simp only [encodeDERF]
      apply encodeDERStep_congr
      intro s hs
      have := height_sub_lt hs
      exact ih m s (by omega) (by omega)

/-- Unfolding of `encodeDER`: its body with itself for the recursive calls. -/
theorem encodeDER_unfold (obj : ASN1Object) : encodeDER obj = encodeDERStep encodeDER obj := by
  unfold encodeDER
  have hp := height_pos obj
  obtain ⟨n, hn⟩ : ∃ n, height obj = n + 1 := ⟨height obj - 1, by omega⟩
  rw [hn]
  simp only [encodeDERF]
  apply encodeDERStep_congr
  intro s hs
  have := height_sub_lt hs
  exact encodeDERF_fuel n (height s) s (by omega) (Nat.le_refl _)

/-! ## The order of `bytes.Compare` -/

theorem bytesCompare_swap : ∀ a b : List Byte, bytesCompare b a = - bytesCompare a b
  | [], [] => rfl
  | [], _ :: _ => rfl
  | _ :: _, [] => rfl
  | x :: as, y :: bs => by
    simp only [bytesCompare]
    rcases lt_trichotomy x y with h | h | h
    · simp [h, not_lt_of_lt h]
    · subst h
      simp [bytesCompare_swap as bs]
    · simp [h, not_lt_of_lt h]

theorem bytesCompare_eq_zero : ∀ a b : List Byte, bytesCompare a b = 0 → a = b
  | [], [], _ => rfl
  | [], _ :: _, h => by simp [bytesCompare] at h
  | _ :: _, [], h => by simp [bytesCompare] at h
  | x :: as, y :: bs, h => by
    simp only [bytesCompare] at h
    rcases lt_trichotomy x y with hxy | hxy | hxy
    · simp [hxy] at h
    · subst hxy
      simp only [lt_self_iff_false, if_false] at h
      rw [bytesCompare_eq_zero as bs h]
    · simp [hxy, not_lt_of_lt hxy] at h

theorem bytesCompare_trans : ∀ a b c : List Byte,
    bytesCompare a b ≤ 0 → bytesCompare b c ≤ 0 → bytesCompare a c ≤ 0
  | [], _, [], _, _ => by simp [bytesCompare]
  | [], _, _ :: _, _, _ => by simp [bytesCompare]
  | _ :: _, [], _, h, _ => by simp [bytesCompare] at h
  | _ :: _, _ :: _, [], _, h => by simp [bytesCompare] at h
  | x :: as, y :: bs, z :: cs, h1, h2 => by
    simp only [bytesCompare] at h1 h2 ⊢
    rcases lt_trichotomy x y with hxy | hxy | hxy
    · rcases lt_trichotomy y z with hyz | hyz | hyz
      · simp [lt_trans hxy hyz]
      · subst hyz; simp [hxy]
      · simp [hyz, not_lt_of_lt hyz] at h2
    · subst hxy
      rcases lt_trichotomy x z with hyz | hyz | hyz
      · simp [hyz]
      · subst hyz
        simp only [lt_self_iff_false, if_false] at h1 h2 ⊢
        exact bytesCompare_trans as bs cs h1 h2
      · simp [hyz, not_lt_of_lt hyz] at h2
    · simp [hxy, not_lt_of_lt hxy] at h1

theorem notAfter_iff (a b : List Byte) : notAfter a b ↔ bytesCompare a b ≤ 0 := by
  unfold notAfter less
  rw [bytesCompare_swap a b]
  omega

instance : IsTotal (List Byte) notAfter where
  total a b := by
    rw [notAfter_iff, notAfter_iff, bytesCompare_swap a b]
    omega

instance : IsTrans (List Byte) notAfter where
  trans a b c := by
    rw [notAfter_iff, notAfter_iff, notAfter_iff]
    exact bytesCompare_trans a b c

instance : IsAntisymm (List Byte) notAfter where
  antisymm a b := by
    rw [notAfter_iff, notAfter_iff, bytesCompare_swap a b]
    intro h1 h2
    exact bytesCompare_eq_zero a b (by omega)

theorem sortSlice_perm (l : List (List Byte)) : (sortSlice l).Perm l :=
  List.perm_insertionSort notAfter l

theorem sortSlice_sorted (l : List (List Byte)) : (sortSlice l).Sorted notAfter :=
  List.sorted_insertionSort notAfter l

/-- The result of sorting depends only on the elements, not on their order. -/
theorem sortSlice_of_perm {l l2 : List (List Byte)} (h : l.Perm l2) :
    sortSlice l = sortSlice l2 :=
  List.eq_of_perm_of_sorted ((sortSlice_perm l).trans (h.trans (sortSlice_perm l2).symm))
    (sortSlice_sorted l) (sortSlice_sorted l2)

theorem sortSlice_of_sorted {l : List (List Byte)} (h : l.Sorted notAfter) : sortSlice l = l :=
  List.Sorted.insertionSort_eq h

theorem sortSlice_pairwise (l : List (List Byte)) :
    (sortSlice l).Pairwise (fun a b => bytesCompare a b ≤ 0) := by
  have h := sortSlice_sorted l
  unfold List.Sorted at h
  exact h.imp (fun {a b} hab => (notAfter_iff a b).mp hab)

/-! ## Content of constructed objects -/

theorem concatAll_eq : ∀ (l : List (List Byte)) (acc : List Byte),
    concatAll l acc = acc ++ l.flatten
  | [], acc => by simp [concatAll]
  | e :: rest, acc => by
    simp [concatAll, concatAll_eq rest]

theorem encodeSubs_ok {enc : ASN1Object → Except Err (List Byte)} :
    ∀ {subs : List ASN1Object} {encs : List (List Byte)},
      List.Forall₂ (fun s e => enc s = .ok e) subs encs → encodeSubs enc subs = .ok encs
  | _, _, .nil => rfl
  | _, _, .cons h rest => by
    simp only [encodeSubs]
    rw [h, encodeSubs_ok rest]
    rfl

theorem encodeSubs_ok_inv {enc : ASN1Object → Except Err (List Byte)} :
    ∀ {subs : List ASN1Object} {encs : List (List Byte)},
      encodeSubs enc subs = .ok encs → List.Forall₂ (fun s e => enc s = .ok e) subs encs
  | [], encs, h => by
    simp only [encodeSubs] at h
    cases h
    exact .nil
  | x :: rest, encs, h => by
    simp only [encodeSubs] at h
    cases hx : enc x with
    | error e => rw [hx] at h; cases h
    | ok b =>
      rw [hx] at h
      cases hr : encodeSubs enc rest with
      | error e => rw [hr] at h; cases h
      | ok bs =>
        rw [hr] at h
        cases h
        exact .cons hx (encodeSubs_ok_inv hr)

theorem encodeSubs_error_iff {enc : ASN1Object → Except Err (List Byte)} :
    ∀ {subs : List ASN1Object},
      (∃ e, encodeSubs enc subs = .error e) ↔ ∃ s ∈ subs, ∃ e, enc s = .error e
  | [] => by simp [encodeSubs]
  | x :: rest => by
    simp only [encodeSubs, List.mem_cons, exists_eq_or_imp]
    cases hx : enc x with
    | error e => simp [bind, Except.bind]
    | ok b =>
      have ih := @encodeSubs_error_iff enc rest
      cases hr : encodeSubs enc rest with
      | error e =>
        rw [hr] at ih
        simpa [bind, Except.bind] using ih.mp ⟨e, rfl⟩
      | ok bs =>
        rw [hr] at ih
        have hno : ¬ ∃ s ∈ rest, ∃ e, enc s = .error e := by
          intro hex
          obtain ⟨e, he⟩ := ih.mpr hex
          cases he
        simpa [bind, Except.bind] using hno

/-- The error of `encodeSubs` is the error of one of the sub-objects. -/
theorem encodeSubs_error {enc : ASN1Object → Except Err (List Byte)} :
    ∀ {subs : List ASN1Object} {e : Err}, encodeSubs enc subs = .error e →
      ∃ s ∈ subs, enc s = .error e
  | [], e, h => by simp [encodeSubs] at h
  | x :: rest, e, h => by
    simp only [encodeSubs] at h
    cases hx : enc x with
    | error e2 =>
      rw [hx] at h
      cases h
      exact ⟨x, by simp, hx⟩
    | ok b =>
      rw [hx] at h
      cases hr : encodeSubs enc rest with
      | error e2 =>
        rw [hr] at h
        cases h
        obtain ⟨s, hs, hse⟩ := encodeSubs_error hr
        exact ⟨s, List.mem_cons_of_mem _ hs, hse⟩
      | ok bs => rw [hr] at h; cases h

theorem encodeConstructedLoop_eq {enc : ASN1Object → Except Err (List Byte)} :
    ∀ (subs : List ASN1Object) (acc : List Byte),
      encodeConstructedLoop enc subs acc
        = (encodeSubs enc subs).map (fun encs => acc ++ encs.flatten)
  | [], acc => by simp [encodeConstructedLoop, encodeSubs, Except.map]
  | x :: rest, acc => by
    simp only [encodeConstructedLoop, encodeSubs]
    cases hx : enc x with
    | error e => rfl
    | ok b =>
      simp only [bind, Except.bind]
      rw [encodeConstructedLoop_eq rest]
      cases encodeSubs enc rest with
      | error e => rfl
      | ok bs => simp [Except.map]

theorem forall₂_perm {α β : Type} {R : α → β → Prop} {l : List α} {m : List β}
    (h : List.Forall₂ R l m) {l2 : List α} (hp : l.Perm l2) :
    ∃ m2, m.Perm m2 ∧ List.Forall₂ R l2 m2 := by
  induction hp generalizing m with
  | nil => exact ⟨m, List.Perm.refl _, h⟩
  | cons x _ ih =>
    cases h with
    | cons hx hrest =>
      obtain ⟨m2, hp2, hf2⟩ := ih hrest
      exact ⟨_ :: m2, hp2.cons _, .cons hx hf2⟩
  | swap x y l =>
    cases h with
    | cons hy hrest =>
      cases hrest with
      | cons hx hrest =>
        exact ⟨_, List.Perm.swap _ _ _, .cons hx (.cons hy hrest)⟩
  | trans _ _ ih1 ih2 =>
    obtain ⟨m2, hp2, hf2⟩ := ih1 h
    obtain ⟨m3, hp3, hf3⟩ := ih2 hf2
    exact ⟨m3, hp2.trans hp3, hf3⟩

/-! ## Errors of the encoder -/

theorem index_cons_zero (b : Byte) (l : List Byte) : index (b :: l) 0 = .ok b := by
  simp [index]

theorem index_of_length_ne_zero {l : List Byte} (h : l.length ≠ 0) :
    ∃ b, index l 0 = .ok b := by
  cases l with
  | nil => simp at h
  | cons b r => exact ⟨b, index_cons_zero b r⟩

theorem flattenBitStringLoop_error (n : Nat) : ∀ (subs : List ASN1Object) (i : Nat)
    (bitData : List Byte) (fin : Byte) (e : Err),
    flattenBitStringLoop n subs i bitData fin = .error e → e.isFlattenError
  | [], _, _, _, _, h => by simp [flattenBitStringLoop] at h
  | sub :: rest, i, bitData, fin, e, h => by
    simp only [flattenBitStringLoop] at h
    split at h
    · cases h; trivial
    · split at h
      · cases h; trivial
      · rename_i hlen
        obtain ⟨b, hb⟩ := index_of_length_ne_zero hlen
        rw [hb] at h
        simp only [bind, Except.bind] at h
        split at h
        · split at h
          · cases h; trivial
          · exact flattenBitStringLoop_error n rest _ _ _ e h
        · exact flattenBitStringLoop_error n rest _ _ _ e h

theorem flattenOctetStringLoop_error : ∀ (subs : List ASN1Object) (i : Nat)
    (octets : List Byte) (e : Err),
    flattenOctetStringLoop subs i octets = .error e → e.isFlattenError
  | [], _, _, _, h => by simp [flattenOctetStringLoop] at h
  | sub :: rest, i, octets, e, h => by
    simp only [flattenOctetStringLoop] at h
    split at h
    · cases h; trivial
    · exact flattenOctetStringLoop_error rest _ _ e h

theorem flattenStringLoop_error (tag : Nat) : ∀ (subs : List ASN1Object) (i : Nat)
    (content : List Byte) (e : Err),
    flattenStringLoop tag subs i content = .error e → e.isFlattenError
  | [], _, _, _, h => by simp [flattenStringLoop] at h
  | sub :: rest, i, content, e, h => by
    simp only [flattenStringLoop] at h
    split at h
    · cases h; trivial
    · exact flattenStringLoop_error tag rest _ _ e h

theorem flattenConstructedType_error {obj : ASN1Object} {e : Err}
    (h : flattenConstructedType obj = .error e) : e.isFlattenError := by
  unfold flattenConstructedType at h
  split at h
  · unfold flattenBitString at h
    cases hl : flattenBitStringLoop obj.SubObjects.length obj.SubObjects 0 [] 0 with
    | error e2 =>
      rw [hl] at h
      cases h
      exact flattenBitStringLoop_error _ _ _ _ _ _ hl
    | ok p => rw [hl] at h; cases h
  · split at h
    · unfold flattenOctetString at h
      cases hl : flattenOctetStringLoop obj.SubObjects 0 [] with
      | error e2 =>
        rw [hl] at h
        cases h
        exact flattenOctetStringLoop_error _ _ _ _ hl
      | ok p => rw [hl] at h; cases h
    · split at h
      · unfold flattenString at h
        cases hl : flattenStringLoop obj.TagNumber obj.SubObjects 0 [] with
        | error e2 =>
          rw [hl] at h
          cases h
          exact flattenStringLoop_error _ _ _ _ _ hl
        | ok p => rw [hl] at h; cases h
      · split at h <;> cases h

theorem encodeContent_error {enc : ASN1Object → Except Err (List Byte)} {obj : ASN1Object}
    {e : Err} (h : encodeContent enc obj = .error e) :
    ∃ s ∈ obj.SubObjects, enc s = .error e := by
  unfold encodeContent at h
  split at h
  · unfold encodeConstructedContent at h
    split at h
    · unfold encodeSetContent at h
      cases hs : encodeSubs enc obj.SubObjects with
      | error e2 =>
        rw [hs] at h
        cases h
        exact encodeSubs_error hs
      | ok encs => rw [hs] at h; cases h
    · rw [encodeConstructedLoop_eq] at h
      cases hs : encodeSubs enc obj.SubObjects with
      | error e2 =>
        rw [hs] at h
        cases h
        exact encodeSubs_error hs
      | ok encs => rw [hs] at h; cases h
  · cases h

/-- The two ways in which the body of `encodeDER` fails. -/
theorem encodeDERStep_error {enc : ASN1Object → Except Err (List Byte)} {obj : ASN1Object}
    {e : Err} (h : encodeDERStep enc obj = .error e) :
    e.isFlattenError ∨ ∃ s ∈ obj.SubObjects, enc s = .error e := by
  unfold encodeDERStep at h
  split at h
  · cases hf : flattenConstructedType obj with
    | error e2 =>
      rw [hf] at h
      cases h
      exact Or.inl (flattenConstructedType_error hf)
    | ok r =>
      rw [hf] at h
      simp only [bind, Except.bind] at h
      cases hc : encodeContent enc r with
      | error e2 =>
        rw [hc] at h
        cases h
        obtain ⟨s, hs, hse⟩ := encodeContent_error hc
        rcases flattenConstructedType_shape hf with rfl | ⟨-, -, -, hnil⟩
        · exact Or.inr ⟨s, hs, hse⟩
        · rw [hnil] at hs; simp at hs
      | ok b => rw [hc] at h; cases h
  · simp only [bind, Except.bind] at h
    cases hc : encodeContent enc obj with
    | error e2 =>
      rw [hc] at h
      cases h
      exact Or.inr (encodeContent_error hc)
    | ok b => rw [hc] at h; cases h

/-- An error returned by `encodeDER` is an error of a flattener: the encoder neither
panics nor runs out of fuel. -/
theorem encodeDER_error : ∀ (obj : ASN1Object) (e : Err),
    encodeDER obj = .error e → e.isFlattenError := by
  intro obj
  induction obj using ASN1Object.induct with
  | step c t k v subs ih =>
    intro e h
    rw [encodeDER_unfold] at h
    rcases encodeDERStep_error h with h1 | ⟨s, hs, hse⟩
    · exact h1
    · exact ih s hs e hse

/-! ## Flattening of a constructed BIT STRING -/

theorem flattenBitStringLoop_chunks (n : Nat) : ∀ (cs : List (Byte × List Byte)) (i : Nat)
    (bitData : List Byte) (fin : Byte),
    i + cs.length = n → (∀ p ∈ cs.dropLast, p.1 = 0) →
    flattenBitStringLoop n (cs.map bitStringChunk) i bitData fin
      = .ok (bitData ++ (cs.map Prod.snd).flatten, (cs.getLast?.map Prod.fst).getD fin)
  | [], _, _, _, _, _ => by simp [flattenBitStringLoop]
  | p :: rest, i, bitData, fin, hn, hz => by
    simp only [List.map_cons, flattenBitStringLoop, bitStringChunk, ASN1Object.Class,
      ASN1Object.TagNumber, ASN1Object.IsConstructed, ASN1Object.Value, and_self,
      not_true_eq_false, if_false, List.length_cons, Nat.succ_ne_zero, index_cons_zero,
      List.drop_succ_cons, List.drop_zero, bind, Except.bind]
    cases rest with
    | nil =>
      have hi : ¬ ((i : Int) < (n : Int) - 1) := by
        simp only [List.length_cons, List.length_nil] at hn
        omega
      simp [hi, flattenBitStringLoop]
    | cons q rest2 =>
      have hi : (i : Int) < (n : Int) - 1 := by
        simp only [List.length_cons] at hn
        omega
      have hp : p.1 = 0 := hz p (by simp [List.dropLast])
      have ih := flattenBitStringLoop_chunks n (q :: rest2) (i + 1) (bitData ++ p.2) fin
        (by simp only [List.length_cons] at hn ⊢; omega)
        (fun x hx => hz x (by simp [List.dropLast]; exact Or.inr (by simpa using hx)))
      simp only [hi, if_true, hp, ne_eq, not_true_eq_false, if_false]
      rw [ih]
      simp

/-! ## Reading octets in a larger buffer -/

theorem index_ok_of_lt {d : List Byte} {i : Nat} (h : i < d.length) :
    index d i = .ok (d.get ⟨i, h⟩) := by
  simp [index, List.getElem?_eq_getElem h]

theorem index_frame (pre post : List Byte) {d : List Byte} {i : Nat} (h : i < d.length) :
    index (pre ++ d ++ post) (pre.length + i) = index d i := by
  unfold index
  rw [List.append_assoc, List.getElem?_append_right (Nat.le_add_right _ _),
    Nat.add_sub_cancel_left, List.getElem?_append_left h]

theorem length_frame (pre d post : List Byte) :
    (pre ++ d ++ post).length = pre.length + d.length + post.length := by
  simp [Nat.add_assoc]

/-! ## parseTag -/

/-- Step of the tag-number accumulation. -/
theorem tag_step (acc : Nat) (b : Byte) :
    (acc <<< 7) ||| (b.val &&& 0x7F) = acc * 128 + b.val % 128 := by
  rw [and_7f]
  exact shl_7_or acc _ (Nat.mod_lt _ (by decide))

theorem parseTagLoop_frame (pre post d : List Byte) : ∀ (fuel pos acc oc t q : Nat),
    parseTagLoop d fuel pos acc oc = .ok (t, q) →
    pos < q ∧ q ≤ d.length ∧
      parseTagLoop (pre ++ d ++ post) fuel (pre.length + pos) acc oc = .ok (t, pre.length + q) := by
  intro fuel
  induction fuel with
  | zero => intro pos acc oc t q h; simp [parseTagLoop] at h
  | succ fuel ih =>
    intro pos acc oc t q h
    simp only [parseTagLoop] at h ⊢
    by_cases hp : pos ≥ d.length
    · simp [hp] at h
    · have hlt : pos < d.length := by omega
      have hp2 : ¬ (pre.length + pos ≥ (pre ++ d ++ post).length) := by
        rw [length_frame]; omega
      simp only [hp, hp2, if_false, index_frame pre post hlt, index_ok_of_lt hlt, bind,
        Except.bind] at h ⊢
      split at h
      · simp only [Except.ok.injEq, Prod.mk.injEq] at h
        obtain ⟨rfl, rfl⟩ := h
        rename_i h0
        simp only [h0, if_true]
        exact ⟨by omega, by omega, by rw [Nat.add_assoc]⟩
      · rename_i h0
        simp only [h0, if_false]
        split at h
        · cases h
        · rename_i h6
          simp only [h6, if_false]
          obtain ⟨h1, h2, h3⟩ := ih _ _ _ _ _ h
          exact ⟨by omega, h2, by rw [← Nat.add_assoc] at h3; exact h3⟩

theorem parseTagLoop_bound (d : List Byte) : ∀ (fuel pos acc oc t q : Nat),
    parseTagLoop d fuel pos acc oc = .ok (t, q) → oc ≤ 6 → acc < 128 ^ oc → t < 128 ^ 7 := by
  intro fuel
  induction fuel with
  | zero => intro pos acc oc t q h; simp [parseTagLoop] at h
  | succ fuel ih =>
    intro pos acc oc t q h hoc hacc
    simp only [parseTagLoop] at h
    by_cases hp : pos ≥ d.length
    · simp [hp] at h
    · have hlt : pos < d.length := by omega
      simp only [hp, if_false, index_ok_of_lt hlt, bind, Except.bind, tag_step] at h
      have hnew : acc * 128 + (d.get ⟨pos, hlt⟩).val % 128 < 128 ^ (oc + 1) := by
        have : (d.get ⟨pos, hlt⟩).val % 128 < 128 := Nat.mod_lt _ (by decide)
        rw [pow_succ]
        nlinarith
      split at h
      · simp only [Except.ok.injEq, Prod.mk.injEq] at h
        obtain ⟨rfl, -⟩ := h
        exact lt_of_lt_of_le hnew (Nat.pow_le_pow_right (by decide) (by omega))
      · split at h
        · cases h
        · rename_i h6
          exact ih _ _ _ _ _ h (by omega) hnew

set_option maxRecDepth 100000 in
theorem firstByte_class_lt : ∀ b : Byte, (b.val &&& 0xC0) >>> 6 < 4 := by decide

set_option maxRecDepth 100000 in
theorem firstByte_tag_lt : ∀ b : Byte, b.val &&& 0x1F < 32 := by decide

/-- A successful `parseTag` advances, stays inside the data, returns a class below 4 and
a tag number below `2 ^ 49`, and gives the same result inside a larger buffer. -/
theorem parseTag_frame (pre post : List Byte) {d : List Byte} {p c t q : Nat} {k : Bool}
    (h : parseTag d p = .ok (c, t, k, q)) :
    p < q ∧ q ≤ d.length ∧ c < 4 ∧ t < 2 ^ 49 ∧
      parseTag (pre ++ d ++ post) (pre.length + p) = .ok (c, t, k, pre.length + q) := by
  unfold parseTag at h ⊢
  by_cases hp : p ≥ d.length
  · simp [hp] at h
  · have hlt : p < d.length := by omega
    have hp2 : ¬ (pre.length + p ≥ (pre ++ d ++ post).length) := by
      rw [length_frame]; omega
    simp only [hp, hp2, if_false, index_frame pre post hlt, index_ok_of_lt hlt, bind,
      Except.bind] at h ⊢
    have hcl := firstByte_class_lt (d.get ⟨p, hlt⟩)
    have htl := firstByte_tag_lt (d.get ⟨p, hlt⟩)
    split at h
    · rename_i h1f
      simp only [h1f, if_true]
      cases hl : parseTagLoop d 7 (p + 1) 0 0 with
      | error e => rw [hl] at h; cases h
      | ok r =>
        obtain ⟨t2, q2⟩ := r
        rw [hl] at h
        simp only [Except.ok.injEq, Prod.mk.injEq] at h
        obtain ⟨rfl, rfl, rfl, rfl⟩ := h
        obtain ⟨h1, h2, h3⟩ := parseTagLoop_frame pre post d _ _ _ _ _ _ hl
        have hb := parseTagLoop_bound d _ _ _ _ _ _ hl (by decide) (by decide)
        rw [← Nat.add_assoc] at h3
        rw [h3]
        refine ⟨by omega, h2, hcl, ?_, rfl⟩
        have : (128 : Nat) ^ 7 = 2 ^ 49 := by norm_num
        omega
    · rename_i h1f
      simp only [h1f, if_false]
      simp only [Except.ok.injEq, Prod.mk.injEq] at h
      obtain ⟨rfl, rfl, rfl, rfl⟩ := h
      refine ⟨by omega, by omega, hcl, ?_, by rw [Nat.add_assoc]⟩
      have : (32 : Nat) < 2 ^ 49 := by norm_num
      omega

/-! ## parseLength -/

theorem parseLengthLoop_frame (pre post d : List Byte) (pos : Nat) :
    ∀ (remaining i : Nat) (acc : Int), pos + i + remaining ≤ d.length →
      parseLengthLoop (pre ++ d ++ post) (pre.length + pos) remaining i acc
        = parseLengthLoop d pos remaining i acc := by
  intro remaining
  induction remaining with
  | zero => intro i acc _; rfl
  | succ r ih =>
    intro i acc hle
    simp only [parseLengthLoop]
    have hlt : pos + i < d.length := by omega
    rw [Nat.add_assoc, index_frame pre post hlt]
    cases index d (pos + i) with
    | error e => rfl
    | ok b =>
      simp only [bind, Except.bind]
      exact ih (i + 1) _ (by omega)

/-- A successful `parseLength` advances, stays inside the data, and gives the same result
inside a larger buffer. -/
theorem parseLength_frame (pre post : List Byte) {d : List Byte} {p q : Nat} {len : Int}
    (h : parseLength d p = .ok (len, q)) :
    p < q ∧ q ≤ d.length ∧
      parseLength (pre ++ d ++ post) (pre.length + p) = .ok (len, pre.length + q) := by
  unfold parseLength at h ⊢
  by_cases hp : p ≥ d.length
  · simp [hp] at h
  · have hlt : p < d.length := by omega
    have hp2 : ¬ (pre.length + p ≥ (pre ++ d ++ post).length) := by
      rw [length_frame]; omega
    simp only [hp, hp2, if_false, index_frame pre post hlt, index_ok_of_lt hlt, bind,
      Except.bind] at h ⊢
    split at h
    · rename_i h80
      simp only [h80, if_true]
      simp only [Except.ok.injEq, Prod.mk.injEq] at h
      obtain ⟨rfl, rfl⟩ := h
      exact ⟨by omega, by omega, by rw [Nat.add_assoc]⟩
    · rename_i h80
      simp only [h80, if_false]
      split at h
      · rename_i hz
        simp only [hz, if_true]
        simp only [Except.ok.injEq, Prod.mk.injEq] at h
        obtain ⟨rfl, rfl⟩ := h
        exact ⟨by omega, by omega, by rw [Nat.add_assoc]⟩
      · rename_i hz
        simp only [hz, if_false]
        split at h
        · cases h
        · rename_i hex
          have hex2 : ¬ (pre.length + p + 1 + ((d.get ⟨p, hlt⟩).val &&& 0x7F)
              > (pre ++ d ++ post).length) := by
            rw [length_frame]; omega
          simp only [hex2, if_false]
          have hfr := parseLengthLoop_frame pre post d (p + 1)
            ((d.get ⟨p, hlt⟩).val &&& 0x7F) 0 0 (by omega)
          rw [← Nat.add_assoc] at hfr
          rw [hfr]
          cases hl : parseLengthLoop d (p + 1) ((d.get ⟨p, hlt⟩).val &&& 0x7F) 0 0 with
          | error e => rw [hl] at h; cases h
          | ok v =>
            rw [hl] at h
            simp only [Except.ok.injEq, Prod.mk.injEq] at h
            obtain ⟨rfl, rfl⟩ := h
            refine ⟨by omega, by omega, ?_⟩
            simp only [Nat.add_assoc]

/-! ## Properties at every node -/

theorem allNodesList_iff {P : ASN1Object → Prop} : ∀ {subs : List ASN1Object},
    AllNodesList P subs ↔ ∀ s ∈ subs, AllNodes P s
  | [] => by simp [AllNodesList]
  | x :: rest => by
    simp [AllNodesList, @allNodesList_iff P rest]

theorem allNodes_mk {P : ASN1Object → Prop} (c t : Nat) (k : Bool) (v : List Byte)
    (subs : List ASN1Object) :
    AllNodes P (ASN1Object.mk c t k v subs)
      ↔ P (ASN1Object.mk c t k v subs) ∧ ∀ s ∈ subs, AllNodes P s := by
  simp [AllNodes, allNodesList_iff]

theorem allNodes_imp {P Q : ASN1Object → Prop} (h : ∀ o, P o → Q o) :
    ∀ obj, AllNodes P obj → AllNodes Q obj := by
  intro obj
  induction obj using ASN1Object.induct with
  | step c t k v subs ih =>
    rw [allNodes_mk, allNodes_mk]
    rintro ⟨h1, h2⟩
    exact ⟨h _ h1, fun s hs => ih s hs (h2 s hs)⟩

theorem allNodes_and {P Q : ASN1Object → Prop} :
    ∀ obj, AllNodes (fun o => P o ∧ Q o) obj ↔ AllNodes P obj ∧ AllNodes Q obj := by
  intro obj
  induction obj using ASN1Object.induct with
  | step c t k v subs ih =>
    simp only [allNodes_mk]
    constructor
    · rintro ⟨⟨h1, h2⟩, h3⟩
      exact ⟨⟨h1, fun s hs => ((ih s hs).mp (h3 s hs)).1⟩,
        ⟨h2, fun s hs => ((ih s hs).mp (h3 s hs)).2⟩⟩
    · rintro ⟨⟨h1, h3⟩, ⟨h2, h4⟩⟩
      exact ⟨⟨h1, h2⟩, fun s hs => (ih s hs).mpr ⟨h3 s hs, h4 s hs⟩⟩

/-! ## 64-bit wrap-around -/

theorem wrapInt_of_range {x : Int} (h0 : 0 ≤ x) (h1 : x < 2 ^ 63) : wrapInt x = x := by
  unfold wrapInt
  norm_num at h1 ⊢
  omega

theorem wrapInt_shift {x n : Int} (h0 : 0 ≤ wrapInt x) (hn : 0 ≤ n)
    (h1 : n + wrapInt x < 2 ^ 63) : wrapInt (n + x) = n + wrapInt x := by
  unfold wrapInt at h0 h1 ⊢
  norm_num at h0 h1 ⊢
  omega

/-! ## parseElement inside a larger buffer -/

theorem isEndOfContents_ok (d : List Byte) (p : Nat) :
    ∃ b, isEndOfContents d p = .ok b ∧ (b = true → p + 2 ≤ d.length) := by
  unfold isEndOfContents
  by_cases h : p + 2 ≤ d.length
  · simp only [h, if_true, index_ok_of_lt (show p < d.length by omega),
      index_ok_of_lt (show p + 1 < d.length by omega), bind, Except.bind]
    split
    · exact ⟨_, rfl, fun _ => trivial⟩
    · exact ⟨_, rfl, fun _ => trivial⟩
  · simp only [h, if_false]
    exact ⟨false, rfl, by simp⟩

theorem isEndOfContents_frame (pre post : List Byte) {d : List Byte} {p : Nat}
    (h : p + 2 ≤ d.length) :
    isEndOfContents (pre ++ d ++ post) (pre.length + p) = isEndOfContents d p := by
  unfold isEndOfContents
  have h2 : pre.length + p + 2 ≤ (pre ++ d ++ post).length := by
    rw [length_frame]; omega
  simp only [h, h2, if_true]
  rw [index_frame pre post (show p < d.length by omega), Nat.add_assoc,
    index_frame pre post (show p + 1 < d.length by omega)]

theorem parseIndefiniteLoop_frame {pe pe2 : List Byte → Nat → Except Err (ASN1Object × Nat)}
    {pre d post : List Byte} (hfr : FramesTo pe pe2 pre d post) :
    ∀ (lf p : Nat) (subs r : List ASN1Object) (q : Nat),
      parseIndefiniteLoop pe d lf p subs = .ok (r, q) →
      (∀ s ∈ subs, AllNodes (fun x => WellFormedNode x ∧ TagBelow (2 ^ 49) x) s) →
      p + 2 ≤ q ∧ q ≤ d.length ∧
        (∀ s ∈ r, AllNodes (fun x => WellFormedNode x ∧ TagBelow (2 ^ 49) x) s) ∧
        ∀ lf2, lf ≤ lf2 →
          parseIndefiniteLoop pe2 (pre ++ d ++ post) lf2 (pre.length + p) subs
            = .ok (r, pre.length + q) := by
  intro lf
  induction lf with
  | zero => intro p subs r q h; simp [parseIndefiniteLoop] at h
  | succ lf ih =>
    intro p subs r q h hsubs
    simp only [parseIndefiniteLoop] at h
    obtain ⟨b, hb, hbound⟩ := isEndOfContents_ok d p
    rw [hb] at h
    simp only [bind, Except.bind] at h
    cases b with
    | true =>
      simp only [if_true, Except.ok.injEq, Prod.mk.injEq] at h
      obtain ⟨rfl, rfl⟩ := h
      have hle := hbound rfl
      refine ⟨Nat.le_refl _, hle, hsubs, ?_⟩
      intro lf2 hlf
      obtain ⟨m, rfl⟩ : ∃ m, lf2 = m + 1 := ⟨lf2 - 1, by omega⟩
      simp only [parseIndefiniteLoop, isEndOfContents_frame pre post hle, hb, bind, Except.bind,
        if_true, Nat.add_assoc]
    | false =>
      simp only [Bool.false_eq_true, if_false] at h
      cases hpe : pe d p with
      | error e => rw [hpe] at h; cases h
      | ok res =>
        obtain ⟨o, np⟩ := res
        rw [hpe] at h
        simp only at h
        obtain ⟨h1, h2, h3, h4⟩ := hfr p o np hpe
        have hsubs2 : ∀ s ∈ subs ++ [o],
            AllNodes (fun x => WellFormedNode x ∧ TagBelow (2 ^ 49) x) s := by
          intro s hs
          rcases List.mem_append.mp hs with hs | hs
          · exact hsubs s hs
          · simp only [List.mem_singleton] at hs
            rw [hs]; exact h3
        obtain ⟨i1, i2, i3, i4⟩ := ih np (subs ++ [o]) r q h hsubs2
        refine ⟨by omega, i2, i3, ?_⟩
        intro lf2 hlf
        obtain ⟨m, rfl⟩ : ∃ m, lf2 = m + 1 := ⟨lf2 - 1, by omega⟩
        simp only [parseIndefiniteLoop, isEndOfContents_frame pre post (show p + 2 ≤ d.length by omega),
          hb, bind, Except.bind, Bool.false_eq_true, if_false, h4]
        exact i4 m (by omega)

theorem parseDefiniteLoop_frame {pe pe2 : List Byte → Nat → Except Err (ASN1Object × Nat)}
    {pre d post : List Byte} (hfr : FramesTo pe pe2 pre d post) (endPos : Int) :
    ∀ (lf p : Nat) (subs r : List ASN1Object) (q : Nat),
      parseDefiniteLoop pe d endPos lf p subs = .ok (r, q) → p ≤ d.length →
      (∀ s ∈ subs, AllNodes (fun x => WellFormedNode x ∧ TagBelow (2 ^ 49) x) s) →
      p ≤ q ∧ q ≤ d.length ∧
        (∀ s ∈ r, AllNodes (fun x => WellFormedNode x ∧ TagBelow (2 ^ 49) x) s) ∧
        (r = subs → q = p) ∧ subs.length ≤ r.length ∧
        ∀ lf2, lf ≤ lf2 →
          parseDefiniteLoop pe2 (pre ++ d ++ post) ((pre.length : Int) + endPos) lf2
            (pre.length + p) subs = .ok (r, pre.length + q) := by
  intro lf
  induction lf with
  | zero => intro p subs r q h; simp [parseDefiniteLoop] at h
  | succ lf ih =>
    intro p subs r q h hp hsubs
    simp only [parseDefiniteLoop] at h
    by_cases hlt : (p : Int) < endPos
    · simp only [hlt, if_true] at h
      cases hpe : pe d p with
      | error e => rw [hpe] at h; cases h
      | ok res =>
        obtain ⟨o, np⟩ := res
        rw [hpe] at h
        simp only [bind, Except.bind] at h
        obtain ⟨h1, h2, h3, h4⟩ := hfr p o np hpe
        have hsubs2 : ∀ s ∈ subs ++ [o],
            AllNodes (fun x => WellFormedNode x ∧ TagBelow (2 ^ 49) x) s := by
          intro s hs
          rcases List.mem_append.mp hs with hs | hs
          · exact hsubs s hs
          · simp only [List.mem_singleton] at hs
            rw [hs]; exact h3
        obtain ⟨i1, i2, i3, i5, i6, i4⟩ := ih np (subs ++ [o]) r q h h2 hsubs2
        simp only [List.length_append, List.length_singleton] at i6
        refine ⟨by omega, i2, i3, ?_, by omega, ?_⟩
        · intro hr
          rw [hr] at i6
          omega
        · intro lf2 hlf
          obtain ⟨m, rfl⟩ : ∃ m, lf2 = m + 1 := ⟨lf2 - 1, by omega⟩
          have hlt2 : ((pre.length + p : Nat) : Int) < (pre.length : Int) + endPos := by
            push_cast; omega
          simp only [parseDefiniteLoop, hlt2, if_true, h4, bind, Except.bind]
          exact i4 m (by omega)
    · simp only [hlt, if_false, Except.ok.injEq, Prod.mk.injEq] at h
      obtain ⟨rfl, rfl⟩ := h
      refine ⟨Nat.le_refl _, hp, hsubs, fun _ => rfl, Nat.le_refl _, ?_⟩
      intro lf2 hlf
      obtain ⟨m, rfl⟩ : ∃ m, lf2 = m + 1 := ⟨lf2 - 1, by omega⟩
      have hlt2 : ¬ (((pre.length + p : Nat) : Int) < (pre.length : Int) + endPos) := by
        push_cast; omega
      simp only [parseDefiniteLoop, hlt2, if_false]

theorem slice_ok {d : List Byte} {lo : Nat} {hi : Int} {val : List Byte}
    (h : slice d lo hi = .ok val) :
    (lo : Int) ≤ hi ∧ hi ≤ (d.length : Int) ∧ val = (d.drop lo).take (hi.toNat - lo) := by
  unfold slice at h
  split at h
  · rename_i hc
    simp only [Except.ok.injEq] at h
    exact ⟨hc.1, hc.2, h.symm⟩
  · cases h

theorem slice_frame (pre post : List Byte) {d : List Byte} {lo : Nat} {hi : Int}
    (h1 : (lo : Int) ≤ hi) (h2 : hi ≤ (d.length : Int)) :
    slice (pre ++ d ++ post) (pre.length + lo) ((pre.length : Int) + hi)
      = .ok ((d.drop lo).take (hi.toNat - lo)) := by
  unfold slice
  have hc : ((pre.length + lo : Nat) : Int) ≤ (pre.length : Int) + hi ∧
      (pre.length : Int) + hi ≤ ((pre ++ d ++ post).length : Int) := by
    rw [length_frame]
    push_cast
    omega
  simp only [hc, and_self, if_true, Except.ok.injEq]
  obtain ⟨n, rfl⟩ := Int.eq_ofNat_of_zero_le (show (0 : Int) ≤ hi by omega)
  have hlo : lo ≤ d.length := by omega
  have hn : n ≤ d.length := by omega
  have e1 : ((pre.length : Int) + (n : Int)).toNat - (pre.length + lo) = n - lo := by omega
  have e2 : (n : Int).toNat - lo = n - lo := by omega
  rw [e1, e2, List.append_assoc, List.drop_append, List.drop_append_of_le_length hlo,
    List.take_append_of_le_length (by rw [List.length_drop]; omega)]

/-- Function `parseDefiniteContent` inside a larger buffer. -/
theorem parseDefiniteContent_frame {pe pe2 : List Byte → Nat → Except Err (ASN1Object × Nat)}
    {pre d post : List Byte} (hfr : FramesTo pe pe2 pre d post)
    {p q : Nat} {len : Int} {k : Bool} {v : List Byte} {subs : List ASN1Object}
    (h : parseDefiniteContent pe d p len k = .ok (v, subs, q)) (hp : p ≤ d.length) :
    p ≤ q ∧ q ≤ d.length ∧ (k = false → subs = []) ∧ (k = true → v = []) ∧
      (∀ s ∈ subs, AllNodes (fun x => WellFormedNode x ∧ TagBelow (2 ^ 49) x) s) ∧
      ((pre ++ d ++ post).length < 2 ^ 63 →
        parseDefiniteContent pe2 (pre ++ d ++ post) (pre.length + p) len k
          = .ok (v, subs, pre.length + q)) := by
  unfold parseDefiniteContent at h
  by_cases hchk : wrapInt ((p : Int) + len) > (d.length : Int)
  · simp [hchk] at h
  · simp only [hchk, if_false] at h
    have hshift : (0 : Int) ≤ wrapInt ((p : Int) + len) → (pre ++ d ++ post).length < 2 ^ 63 →
        wrapInt (((pre.length + p : Nat) : Int) + len)
          = (pre.length : Int) + wrapInt ((p : Int) + len) := by
      intro h0 hD
      have hcast : ((pre.length + p : Nat) : Int) + len = (pre.length : Int) + ((p : Int) + len) := by
        push_cast; ring
      rw [hcast]
      apply wrapInt_shift h0 (Int.natCast_nonneg _)
      have hl := length_frame pre d post
      have : (((pre ++ d ++ post).length : Nat) : Int) < 2 ^ 63 := by exact_mod_cast hD
      rw [hl] at this
      push_cast at this
      omega
    cases k with
    | true =>
      simp only [if_true] at h
      cases hl : parseDefiniteLoop pe d (wrapInt ((p : Int) + len)) (d.length + 1) p [] with
      | error e => rw [hl] at h; cases h
      | ok res =>
        obtain ⟨r, q2⟩ := res
        rw [hl] at h
        simp only [bind, Except.bind] at h
        split at h
        · cases h
        · rename_i hne
          simp only [ne_eq, Decidable.not_not] at hne
          simp only [Except.ok.injEq, Prod.mk.injEq] at h
          obtain ⟨rfl, rfl, rfl⟩ := h
          obtain ⟨i1, i2, i3, -, -, i4⟩ :=
            parseDefiniteLoop_frame hfr _ _ _ _ _ _ hl hp (by simp)
          refine ⟨i1, i2, by simp, fun _ => rfl, i3, ?_⟩
          intro hD
          have h0 : (0 : Int) ≤ wrapInt ((p : Int) + len) := by omega
          have hE := hshift h0 hD
          unfold parseDefiniteContent
          have hchk2 : ¬ (wrapInt (((pre.length + p : Nat) : Int) + len)
              > ((pre ++ d ++ post).length : Int)) := by
            rw [hE, length_frame]; push_cast; omega
          rw [hE] at hchk2
          simp only [hE, hchk2, if_false, if_true]
          rw [i4 ((pre ++ d ++ post).length + 1) (by rw [length_frame]; omega)]
          simp only [bind, Except.bind]
          have : ¬ (((pre.length + q2 : Nat) : Int) ≠ (pre.length : Int) + wrapInt ((p : Int) + len)) := by
            push_cast; omega
          simp only [this, if_false]
    | false =>
      simp only [Bool.false_eq_true, if_false] at h
      cases hs : slice d p (wrapInt ((p : Int) + len)) with
      | error e => rw [hs] at h; cases h
      | ok val =>
        rw [hs] at h
        simp only [bind, Except.bind, Except.ok.injEq, Prod.mk.injEq] at h
        obtain ⟨rfl, rfl, rfl⟩ := h
        obtain ⟨s1, s2, s3⟩ := slice_ok hs
        refine ⟨by omega, by omega, fun _ => rfl, by simp, by simp, ?_⟩
        intro hD
        have h0 : (0 : Int) ≤ wrapInt ((p : Int) + len) := by omega
        have hE := hshift h0 hD
        unfold parseDefiniteContent
        have hchk2 : ¬ (wrapInt (((pre.length + p : Nat) : Int) + len)
            > ((pre ++ d ++ post).length : Int)) := by
          rw [hE, length_frame]; push_cast; omega
        rw [hE] at hchk2
        simp only [hE, hchk2, if_false, Bool.false_eq_true, slice_frame pre post s1 s2, bind,
          Except.bind, Except.ok.injEq, Prod.mk.injEq]
        refine ⟨s3.symm, trivial, ?_⟩
        omega

/-- Function `parseIndefiniteContent` inside a larger buffer. -/
theorem parseIndefiniteContent_frame {pe pe2 : List Byte → Nat → Except Err (ASN1Object × Nat)}
    {pre d post : List Byte} (hfr : FramesTo pe pe2 pre d post)
    {p q c t : Nat} {k : Bool} {v : List Byte} {subs : List ASN1Object}
    (h : parseIndefiniteContent pe d p k c t = .ok (v, subs, q)) :
    p + 2 ≤ q ∧ q ≤ d.length ∧ k = true ∧ v = [] ∧
      (∀ s ∈ subs, AllNodes (fun x => WellFormedNode x ∧ TagBelow (2 ^ 49) x) s) ∧
      parseIndefiniteContent pe2 (pre ++ d ++ post) (pre.length + p) k c t
        = .ok (v, subs, pre.length + q) := by
  unfold parseIndefiniteContent at h
  cases k with
  | false => simp at h
  | true =>
    simp only [not_true_eq_false, if_false] at h
    cases hl : parseIndefiniteLoop pe d (d.length + 1) p [] with
    | error e => rw [hl] at h; cases h
    | ok res =>
      obtain ⟨r, q2⟩ := res
      rw [hl] at h
      simp only [bind, Except.bind, Except.ok.injEq, Prod.mk.injEq] at h
      obtain ⟨rfl, rfl, rfl⟩ := h
      obtain ⟨i1, i2, i3, i4⟩ := parseIndefiniteLoop_frame hfr _ _ _ _ _ hl (by simp)
      refine ⟨i1, i2, rfl, rfl, i3, ?_⟩
      unfold parseIndefiniteContent
      simp only [not_true_eq_false, if_false]
      rw [i4 ((pre ++ d ++ post).length + 1) (by rw [length_frame]; omega)]
      rfl

theorem framesTo_self {pe : List Byte → Nat → Except Err (ASN1Object × Nat)} {d : List Byte}
    (h : ∀ p o q, pe d p = .ok (o, q) →
      p + 2 ≤ q ∧ q ≤ d.length ∧ AllNodes (fun x => WellFormedNode x ∧ TagBelow (2 ^ 49) x) o) :
    FramesTo pe pe [] d [] := by
  intro p o q hpe
  obtain ⟨h1, h2, h3⟩ := h p o q hpe
  refine ⟨h1, h2, h3, ?_⟩
  simpa using hpe

/-- One step of `parseElementF`, for a recursive call that satisfies `FramesTo`. -/
theorem parseElementF_step {f f2 : Nat} {pre d post : List Byte}
    (hfr : FramesTo (parseElementF f) (parseElementF f2) pre d post)
    {p q : Nat} {o : ASN1Object} (h : parseElementF (f + 1) d p = .ok (o, q)) :
    p + 2 ≤ q ∧ q ≤ d.length ∧ AllNodes (fun x => WellFormedNode x ∧ TagBelow (2 ^ 49) x) o ∧
      ((pre ++ d ++ post).length < 2 ^ 63 →
        parseElementF (f2 + 1) (pre ++ d ++ post) (pre.length + p) = .ok (o, pre.length + q)) := by
  simp only [parseElementF] at h
  by_cases hp : p ≥ d.length
  · simp [hp] at h
  · simp only [hp, if_false] at h
    cases hT : parseTag d p with
    | error e => rw [hT] at h; cases h
    | ok rT =>
      obtain ⟨c, t, k, p1⟩ := rT
      rw [hT] at h
      simp only [bind, Except.bind] at h
      obtain ⟨t1, t2, t3, t4, t5⟩ := parseTag_frame pre post hT
      cases hL : parseLength d p1 with
      | error e => rw [hL] at h; cases h
      | ok rL =>
        obtain ⟨len, p2⟩ := rL
        rw [hL] at h
        simp only at h
        obtain ⟨l1, l2, l3⟩ := parseLength_frame pre post hL
        have hp2 : ¬ (pre.length + p ≥ (pre ++ d ++ post).length) := by
          rw [length_frame]; omega
        by_cases hlen : len = -1
        · simp only [hlen, if_true] at h
          cases hC : parseIndefiniteContent (parseElementF f) d p2 k c t with
          | error e => rw [hC] at h; cases h
          | ok rC =>
            obtain ⟨v, subs, p3⟩ := rC
            rw [hC] at h
            simp only [Except.ok.injEq, Prod.mk.injEq] at h
            obtain ⟨rfl, rfl⟩ := h
            obtain ⟨c1, c2, c3, c4, c5, c6⟩ := parseIndefiniteContent_frame hfr hC
            refine ⟨by omega, c2, ?_, ?_⟩
            · rw [allNodes_mk]
              refine ⟨⟨⟨t3, ?_, fun _ => c4⟩, t4⟩, c5⟩
              intro hk
              simp only [ASN1Object.IsConstructed] at hk
              rw [c3] at hk
              cases hk
            · intro _
              simp only [parseElementF, hp2, if_false, t5, l3, bind, Except.bind, hlen, if_true,
                c6]
        · simp only [hlen, if_false] at h
          cases hC : parseDefiniteContent (parseElementF f) d p2 len k with
          | error e => rw [hC] at h; cases h
          | ok rC =>
            obtain ⟨v, subs, p3⟩ := rC
            rw [hC] at h
            simp only [Except.ok.injEq, Prod.mk.injEq] at h
            obtain ⟨rfl, rfl⟩ := h
            obtain ⟨c1, c2, c3, c4, c5, c6⟩ := parseDefiniteContent_frame hfr hC l2
            refine ⟨by omega, c2, ?_, ?_⟩
            · rw [allNodes_mk]
              exact ⟨⟨⟨t3, c3, c4⟩, t4⟩, c5⟩
            · intro hD
              simp only [parseElementF, hp2, if_false, t5, l3, bind, Except.bind, hlen, c6 hD]

/-- A successful `parseElement` consumes at least two octets inside the data, returns
well-formed nodes with tag numbers below `2 ^ 49`, and is repeated with any larger fuel
inside any larger buffer of fewer than `2 ^ 63` octets. -/
theorem parseElementF_frame : ∀ (f : Nat) (d : List Byte) (p : Nat) (o : ASN1Object) (q : Nat),
    parseElementF f d p = .ok (o, q) →
    p + 2 ≤ q ∧ q ≤ d.length ∧ AllNodes (fun x => WellFormedNode x ∧ TagBelow (2 ^ 49) x) o ∧
      ∀ (pre post : List Byte) (f2 : Nat), f ≤ f2 → (pre ++ d ++ post).length < 2 ^ 63 →
        parseElementF f2 (pre ++ d ++ post) (pre.length + p) = .ok (o, pre.length + q) := by
  intro f
  induction f with
  | zero => intro d p o q h; simp [parseElementF] at h
  | succ f ih =>
    intro d p o q h
    have hself : FramesTo (parseElementF f) (parseElementF f) [] d [] :=
      framesTo_self (fun p o q hpe =>
        ⟨(ih d p o q hpe).1, (ih d p o q hpe).2.1, (ih d p o q hpe).2.2.1⟩)
    obtain ⟨b1, b2, b3, -⟩ := parseElementF_step hself h
    refine ⟨b1, b2, b3, ?_⟩
    intro pre post f2 hf hD
    obtain ⟨m, rfl⟩ : ∃ m, f2 = m + 1 := ⟨f2 - 1, by omega⟩
    have hfr : FramesTo (parseElementF f) (parseElementF m) pre d post := by
      intro p o q hpe
      obtain ⟨i1, i2, i3, i4⟩ := ih d p o q hpe
      exact ⟨i1, i2, i3, i4 pre post m (by omega) hD⟩
    exact (parseElementF_step hfr h).2.2.2 hD

/-! ## Reading back an emitted identifier -/

theorem index_append_head (pre : List Byte) (b : Byte) (rest : List Byte) :
    index (pre ++ b :: rest) pre.length = .ok b := by
  unfold index
  rw [List.getElem?_append_right (Nat.le_refl _)]
  simp

theorem parseTagLoop_marked : ∀ (os pre : List Byte) (acc oc fuel : Nat),
    ContinuationMarked os → oc + os.length ≤ 7 → os.length ≤ fuel →
    parseTagLoop (pre ++ os) fuel pre.length acc oc
      = .ok (os.foldl (fun a b => a * 128 + b.val % 128) acc, pre.length + os.length)
  | [], _, _, _, _, h, _, _ => by simp [ContinuationMarked] at h
  | [b], pre, acc, oc, fuel, h, _, hf => by
    obtain ⟨m, rfl⟩ : ∃ m, fuel = m + 1 := ⟨fuel - 1, by simp at hf; omega⟩
    simp only [ContinuationMarked] at h
    have hp : ¬ (pre.length ≥ (pre ++ [b]).length) := by simp
    simp only [parseTagLoop, hp, if_false, index_append_head, bind, Except.bind, tag_step,
      (byte_and_80 b).mpr h, if_true, List.foldl_cons, List.foldl_nil, List.length_singleton]
  | b :: c :: rest, pre, acc, oc, fuel, h, hoc, hf => by
    obtain ⟨m, rfl⟩ : ∃ m, fuel = m + 1 := ⟨fuel - 1, by simp at hf; omega⟩
    simp only [ContinuationMarked] at h
    have hp : ¬ (pre.length ≥ (pre ++ b :: c :: rest).length) := by simp
    have hb : ¬ (b.val &&& 0x80 = 0) := by
      rw [byte_and_80]; omega
    have h6 : ¬ (oc + 1 > 6) := by
      simp only [List.length_cons] at hoc; omega
    simp only [parseTagLoop, hp, if_false, index_append_head, bind, Except.bind, tag_step, hb, h6]
    have ih := parseTagLoop_marked (c :: rest) (pre ++ [b]) (acc * 128 + b.val % 128) (oc + 1) m
      h.2 (by simp only [List.length_cons] at hoc ⊢; omega)
      (by simp only [List.length_cons] at hf ⊢; omega)
    simp only [List.append_assoc, List.singleton_append, List.length_append,
      List.length_singleton] at ih
    rw [ih]
    simp only [List.foldl_cons, List.length_cons]
    congr 2
    omega

set_option maxRecDepth 100000 in
theorem firstOctet_read_short : ∀ c : Nat, c < 4 → ∀ k : Bool, ∀ n : Nat, n < 31 →
    ((toByte ((c <<< 6) ||| (if k then 0x20 else 0) ||| n)).val &&& 0xC0) >>> 6 = c ∧
    decide ((toByte ((c <<< 6) ||| (if k then 0x20 else 0) ||| n)).val &&& 0x20 ≠ 0) = k ∧
    (toByte ((c <<< 6) ||| (if k then 0x20 else 0) ||| n)).val &&& 0x1F = n := by
  decide

set_option maxRecDepth 100000 in
theorem firstOctet_read_long : ∀ c : Nat, c < 4 → ∀ k : Bool,
    ((toByte ((c <<< 6) ||| (if k then 0x20 else 0) ||| 0x1F)).val &&& 0xC0) >>> 6 = c ∧
    decide ((toByte ((c <<< 6) ||| (if k then 0x20 else 0) ||| 0x1F)).val &&& 0x20 ≠ 0) = k ∧
    (toByte ((c <<< 6) ||| (if k then 0x20 else 0) ||| 0x1F)).val &&& 0x1F = 0x1F := by
  decide

/-- Function `parseTag` reads back what `encodeTag` wrote, for a class below 4 and a tag number
below `2 ^ 49`. -/
theorem parseTag_encodeTag (c t : Nat) (k : Bool) (v : List Byte) (subs : List ASN1Object)
    (hc : c < 4) (ht : t < 2 ^ 49) :
    parseTag (encodeTag (ASN1Object.mk c t k v subs)) 0
      = .ok (c, t, k, (encodeTag (ASN1Object.mk c t k v subs)).length) := by
  by_cases hs : t < 31
  · rw [encodeTag_short c t k v subs hc hs]
    obtain ⟨r1, r2, r3⟩ := firstOctet_read_short c hc k t hs
    have hne : ¬ (t = 0x1F) := by omega
    unfold parseTag
    simp only [List.length_singleton, ge_iff_le, Nat.le_zero_eq, Nat.succ_ne_zero, if_false,
      index_cons_zero, bind, Except.bind, r1, r2, r3, hne, Nat.zero_add]
  · obtain ⟨os, he, hm, hv, -, hlen⟩ := encodeTag_long c t k v subs hc (by omega)
    rw [he]
    obtain ⟨r1, r2, r3⟩ := firstOctet_read_long c hc k
    have hl7 : os.length ≤ 7 := hlen 7 (by decide) (by
      have : (128 : Nat) ^ 7 = 2 ^ 49 := by norm_num
      omega)
    have hloop := parseTagLoop_marked os
      [toByte ((c <<< 6) ||| (if k then 0x20 else 0) ||| 0x1F)] 0 0 7 hm (by omega) hl7
    simp only [List.singleton_append, List.length_singleton] at hloop
    unfold parseTag
    simp only [List.length_cons, ge_iff_le, Nat.le_zero_eq, Nat.succ_ne_zero, if_false,
      index_cons_zero, bind, Except.bind, r1, r2, r3, if_true, Nat.zero_add, hloop]
    have : tagValue os = os.foldl (fun a b => a * 128 + b.val % 128) 0 := rfl
    rw [← this, hv, Nat.add_comm]

/-! ## Reading back a definite length -/

theorem foldl_be_ge (ds : List Byte) : ∀ acc : Nat,
    acc ≤ ds.foldl (fun a b => a * 256 + b.val) acc := by
  induction ds with
  | nil => intro acc; exact Nat.le_refl _
  | cons b rest ih =>
    intro acc
    simp only [List.foldl_cons]
    exact Nat.le_trans (by omega) (ih _)

theorem parseLengthLoop_value (hd : List Byte) : ∀ (ds2 ds1 : List Byte) (acc : Nat),
    ds2.foldl (fun a b => a * 256 + b.val) acc < 2 ^ 63 →
    parseLengthLoop (hd ++ ds1 ++ ds2) hd.length ds2.length ds1.length (acc : Int)
      = .ok ((ds2.foldl (fun a b => a * 256 + b.val) acc : Nat) : Int) := by
  intro ds2
  induction ds2 with
  | nil => intro ds1 acc _; rfl
  | cons b rest ih =>
    intro ds1 acc hlt
    simp only [List.foldl_cons] at hlt ⊢
    have hidx : index (hd ++ ds1 ++ b :: rest) (hd.length + ds1.length) = .ok b := by
      have := index_append_head (hd ++ ds1) b rest
      simpa using this
    have hge := foldl_be_ge rest (acc * 256 + b.val)
    have hw : wrapInt ((acc : Int) * 256 + (b.val : Int)) = ((acc * 256 + b.val : Nat) : Int) := by
      push_cast
      apply wrapInt_of_range
      · positivity
      · have : ((acc * 256 + b.val : Nat) : Int) < 2 ^ 63 := by
          have h2 : acc * 256 + b.val < 2 ^ 63 := by omega
          exact_mod_cast h2
        push_cast at this
        exact this
    simp only [List.length_cons, parseLengthLoop, hidx, bind, Except.bind, hw]
    have := ih (ds1 ++ [b]) (acc * 256 + b.val) hlt
    simp only [List.append_assoc, List.singleton_append, List.length_append,
      List.length_singleton] at this
    rw [List.append_assoc]
    exact this

set_option maxRecDepth 100000 in
theorem lengthOctet_read : ∀ n : Nat, n < 128 → 1 ≤ n →
    ¬ ((toByte (0x80 ||| n)).val &&& 0x80 = 0) ∧ (toByte (0x80 ||| n)).val &&& 0x7F = n := by
  decide

set_option maxRecDepth 100000 in
theorem shortLength_read : ∀ n : Nat, n < 128 →
    (toByte n).val &&& 0x80 = 0 ∧ (toByte n).val = n := by
  decide

/-- Function `parseLength` reads a definite-length field for a length below `2 ^ 63`. -/
theorem parseLength_definite {L : List Byte} {n : Nat} (h : IsDefiniteLength L n)
    (hn : n < 2 ^ 63) : parseLength L 0 = .ok ((n : Int), L.length) := by
  rcases h with ⟨hs, rfl⟩ | ⟨ds, h1, h127, hv, rfl⟩
  · obtain ⟨r1, r2⟩ := shortLength_read n hs
    rw [r2] at r1
    unfold parseLength
    simp only [List.length_singleton, ge_iff_le, Nat.le_zero_eq, Nat.succ_ne_zero, if_false,
      index_cons_zero, bind, Except.bind, r1, if_true, r2, Nat.zero_add]
  · obtain ⟨r1, r2⟩ := lengthOctet_read ds.length (by omega) h1
    have hz : ¬ (ds.length = 0) := by omega
    have hex : ¬ (0 + 1 + ds.length > (toByte (0x80 ||| ds.length) :: ds).length) := by
      simp only [List.length_cons]; omega
    have hloop := parseLengthLoop_value [toByte (0x80 ||| ds.length)] ds [] 0 (by
      have : beValue ds = ds.foldl (fun a b => a * 256 + b.val) 0 := rfl
      rw [← this, hv]; exact hn)
    simp only [List.append_nil, List.singleton_append, List.length_singleton, List.length_nil,
      Nat.cast_zero] at hloop
    unfold parseLength
    simp only [List.length_cons, ge_iff_le, Nat.le_zero_eq, Nat.succ_ne_zero, if_false,
      index_cons_zero, bind, Except.bind, r1, r2, hz]
    simp only [List.length_cons] at hex
    simp only [hex, if_false, Nat.zero_add, hloop]
    have : beValue ds = ds.foldl (fun a b => a * 256 + b.val) 0 := rfl
    rw [← this, hv, Nat.add_comm]

theorem encodeLength_isDefinite {n : Nat} (hn : n < 2 ^ 63) :
    IsDefiniteLength (encodeLength n) n := by
  by_cases h : n < 128
  · exact Or.inl ⟨h, encodeLength_short h⟩
  · obtain ⟨ds, he, h1, h8, hv, -⟩ := encodeLength_long (by omega) hn
    exact Or.inr ⟨ds, h1, by omega, hv, he⟩

theorem parseLength_encodeLength {n : Nat} (hn : n < 2 ^ 63) :
    parseLength (encodeLength n) 0 = .ok ((n : Int), (encodeLength n).length) :=
  parseLength_definite (encodeLength_isDefinite hn) hn

/-! ## Loops over a concatenation of elements -/

theorem parseDefiniteLoop_elems {pe : List Byte → Nat → Except Err (ASN1Object × Nat)}
    {data : List Byte} : ∀ (items : List (List Byte × ASN1Object)) (pre post : List Byte)
    (subs : List ASN1Object) (lf : Nat),
    data = pre ++ (items.map Prod.fst).flatten ++ post →
    (∀ it ∈ items, it.1 ≠ [] ∧ ∀ pre2 post2, data = pre2 ++ it.1 ++ post2 →
      pe data pre2.length = .ok (it.2, pre2.length + it.1.length)) →
    items.length < lf →
    parseDefiniteLoop pe data ((pre.length + (items.map Prod.fst).flatten.length : Nat) : Int)
        lf pre.length subs
      = .ok (subs ++ items.map Prod.snd, pre.length + (items.map Prod.fst).flatten.length) := by
  intro items
  induction items with
  | nil =>
    intro pre post subs lf _ _ hlf
    obtain ⟨m, rfl⟩ : ∃ m, lf = m + 1 := ⟨lf - 1, by simp at hlf; omega⟩
    simp [parseDefiniteLoop]
  | cons it rest ih =>
    intro pre post subs lf hdata hit hlf
    obtain ⟨m, rfl⟩ : ∃ m, lf = m + 1 := ⟨lf - 1, by simp at hlf; omega⟩
    obtain ⟨hne, hpe⟩ := hit it (by simp)
    have hpos : 0 < it.1.length := List.length_pos.mpr hne
    have hlt : (pre.length : Int)
        < ((pre.length + ((it :: rest).map Prod.fst).flatten.length : Nat) : Int) := by
      simp only [List.map_cons, List.flatten_cons, List.length_append]
      push_cast
      omega
    have h1 := hpe pre ((rest.map Prod.fst).flatten ++ post) (by
      rw [hdata]; simp [List.append_assoc])
    have hend : pre.length + ((it :: rest).map Prod.fst).flatten.length
        = (pre ++ it.1).length + (rest.map Prod.fst).flatten.length := by
      simp only [List.map_cons, List.flatten_cons, List.length_append]
      omega
    have ih2 := ih (pre ++ it.1) post (subs ++ [it.2]) m
      (by rw [hdata]; simp [List.append_assoc])
      (fun x hx => hit x (List.mem_cons_of_mem _ hx))
      (by simp only [List.length_cons] at hlf; omega)
    simp only [parseDefiniteLoop, hlt, if_true, h1, bind, Except.bind]
    rw [hend]
    have hl : pre.length + it.1.length = (pre ++ it.1).length := by simp
    rw [hl, ih2]
    simp

theorem isEndOfContents_at (pre : List Byte) (b0 b1 : Byte) (tl : List Byte) :
    isEndOfContents (pre ++ b0 :: b1 :: tl) pre.length
      = .ok (decide (b0 = 0) && decide (b1 = 0)) := by
  unfold isEndOfContents
  have h2 : pre.length + 2 ≤ (pre ++ b0 :: b1 :: tl).length := by simp
  have i0 : index (pre ++ b0 :: b1 :: tl) pre.length = .ok b0 := index_append_head pre b0 _
  have i1 : index (pre ++ b0 :: b1 :: tl) (pre.length + 1) = .ok b1 := by
    have := index_append_head (pre ++ [b0]) b1 tl
    simpa using this
  simp only [h2, if_true, i0, i1, bind, Except.bind]
  by_cases hb : b0 = 0 <;> simp [hb]

theorem parseIndefiniteLoop_elems {pe : List Byte → Nat → Except Err (ASN1Object × Nat)}
    {data : List Byte} : ∀ (items : List (List Byte × ASN1Object)) (pre post : List Byte)
    (subs : List ASN1Object) (lf : Nat),
    data = pre ++ (items.map Prod.fst).flatten ++ (0 :: 0 :: post) →
    (∀ it ∈ items, 2 ≤ it.1.length ∧ (∀ tl, it.1 ≠ 0 :: 0 :: tl) ∧
      ∀ pre2 post2, data = pre2 ++ it.1 ++ post2 →
        pe data pre2.length = .ok (it.2, pre2.length + it.1.length)) →
    items.length < lf →
    parseIndefiniteLoop pe data lf pre.length subs
      = .ok (subs ++ items.map Prod.snd,
          pre.length + (items.map Prod.fst).flatten.length + 2) := by
  intro items
  induction items with
  | nil =>
    intro pre post subs lf hdata _ hlf
    obtain ⟨m, rfl⟩ : ∃ m, lf = m + 1 := ⟨lf - 1, by simp at hlf; omega⟩
    have he : isEndOfContents data pre.length = .ok true := by
      rw [hdata]
      simpa using isEndOfContents_at pre 0 0 post
    simp [parseIndefiniteLoop, he, bind, Except.bind]
  | cons it rest ih =>
    intro pre post subs lf hdata hit hlf
    obtain ⟨m, rfl⟩ : ∃ m, lf = m + 1 := ⟨lf - 1, by simp at hlf; omega⟩
    obtain ⟨h2, hnz, hpe⟩ := hit it (by simp)
    have he : isEndOfContents data pre.length = .ok false := by
      obtain ⟨e, o⟩ := it
      match e, h2, hnz with
      | b0 :: b1 :: tl, _, hnz =>
        have := isEndOfContents_at pre b0 b1 (tl ++ ((rest.map Prod.fst).flatten ++ 0 :: 0 :: post))
        have hd : data = pre ++ b0 :: b1 :: (tl ++ ((rest.map Prod.fst).flatten ++ 0 :: 0 :: post)) := by
          rw [hdata]; simp [List.append_assoc]
        rw [hd, this]
        have : ¬ (b0 = 0 ∧ b1 = 0) := by
          rintro ⟨rfl, rfl⟩
          exact hnz tl rfl
        by_cases hb0 : b0 = 0
        · have hb1 : b1 ≠ 0 := fun hb1 => this ⟨hb0, hb1⟩
          simp [hb0, hb1]
        · simp [hb0]
    have h1 := hpe pre ((rest.map Prod.fst).flatten ++ (0 :: 0 :: post)) (by
      rw [hdata]; simp [List.append_assoc])
    have ih2 := ih (pre ++ it.1) post (subs ++ [it.2]) m
      (by rw [hdata]; simp [List.append_assoc])
      (fun x hx => hit x (List.mem_cons_of_mem _ hx))
      (by simp only [List.length_cons] at hlf; omega)
    have hl : pre.length + it.1.length = (pre ++ it.1).length := by simp
    simp only [parseIndefiniteLoop, he, bind, Except.bind, Bool.false_eq_true, if_false, h1]
    rw [hl, ih2]
    simp only [List.append_assoc, List.singleton_append, List.map_cons, List.flatten_cons,
      List.length_append, Except.ok.injEq, Prod.mk.injEq, true_and]
    omega

/-! ## The minimal writing of a tree -/

theorem writeMinimalList_eq : ∀ subs : List ASN1Object,
    writeMinimalList subs = (subs.map writeMinimal).flatten
  | [] => by simp [writeMinimalList]
  | s :: rest => by simp [writeMinimalList, writeMinimalList_eq rest]

theorem encodeTag_congr (c t : Nat) (k : Bool) (v v2 : List Byte) (subs subs2 : List ASN1Object) :
    encodeTag (ASN1Object.mk c t k v subs) = encodeTag (ASN1Object.mk c t k v2 subs2) := rfl

theorem encodeTag_length_pos (obj : ASN1Object) : 1 ≤ (encodeTag obj).length := by
  unfold encodeTag
  by_cases h : obj.TagNumber < 31 <;> simp [h]

theorem encodeLength_length_pos (n : Nat) : 1 ≤ (encodeLength n).length := by
  unfold encodeLength
  split <;> simp

theorem writeMinimal_mk (c t : Nat) (k : Bool) (v : List Byte) (subs : List ASN1Object) :
    writeMinimal (ASN1Object.mk c t k v subs)
      = encodeTag (ASN1Object.mk c t k v subs)
        ++ encodeLength (if k then writeMinimalList subs else v).length
        ++ (if k then writeMinimalList subs else v) := by
  rw [writeMinimal, encodeTag_congr c t k v v [] subs]

theorem writeMinimal_length_ge (obj : ASN1Object) : 2 ≤ (writeMinimal obj).length := by
  cases obj with
  | mk c t k v subs =>
    rw [writeMinimal_mk]
    have h1 := encodeTag_length_pos (ASN1Object.mk c t k v subs)
    have h2 := encodeLength_length_pos (if k then writeMinimalList subs else v).length
    simp only [List.length_append]
    omega

theorem length_le_flatten_of_mem {e : List Byte} : ∀ {l : List (List Byte)},
    e ∈ l → e.length ≤ l.flatten.length
  | [], h => by simp at h
  | x :: rest, h => by
    simp only [List.flatten_cons, List.length_append]
    rcases List.mem_cons.mp h with rfl | h
    · omega
    · have := length_le_flatten_of_mem h
      omega

theorem length_le_writeMinimalList : ∀ subs : List ASN1Object,
    subs.length ≤ (writeMinimalList subs).length
  | [] => by simp [writeMinimalList]
  | s :: rest => by
    have h1 := writeMinimal_length_ge s
    have h2 := length_le_writeMinimalList rest
    simp only [writeMinimalList, List.length_cons, List.length_append]
    omega

theorem heightList_le {n : Nat} : ∀ {subs : List ASN1Object},
    (∀ s ∈ subs, height s ≤ n) → heightList subs ≤ n
  | [], _ => by simp [heightList]
  | x :: rest, h => by
    simp only [heightList]
    exact Nat.max_le.mpr ⟨h x (by simp),
      heightList_le (fun s hs => h s (List.mem_cons_of_mem _ hs))⟩

theorem height_le_length : ∀ obj : ASN1Object, AllNodes WellFormedNode obj →
    height obj + 1 ≤ (writeMinimal obj).length := by
  intro obj
  induction obj using ASN1Object.induct with
  | step c t k v subs ih =>
    intro h
    rw [allNodes_mk] at h
    obtain ⟨⟨-, hprim, -⟩, hsubs⟩ := h
    rw [height_mk, writeMinimal_mk]
    have h1 := encodeTag_length_pos (ASN1Object.mk c t k v subs)
    have h2 := encodeLength_length_pos (if k then writeMinimalList subs else v).length
    simp only [List.length_append]
    cases k with
    | false =>
      have : subs = [] := hprim rfl
      subst this
      simp only [heightList]
      omega
    | true =>
      simp only [if_true] at h2 ⊢
      have : heightList subs ≤ (writeMinimalList subs).length := by
        apply heightList_le
        intro s hs
        have := ih s hs (hsubs s hs)
        have hm : (writeMinimal s).length ≤ (writeMinimalList subs).length := by
          rw [writeMinimalList_eq]
          exact length_le_flatten_of_mem (List.mem_map_of_mem _ hs)
        omega
      omega

/-! ## Parsing the minimal writing of a tree -/

/-- The header of a minimal writing is read back by `parseTag` and `parseLength`. -/
theorem parse_header (c t : Nat) (k : Bool) (v : List Byte) (subs : List ASN1Object)
    (content : List Byte) (hc : c < 4) (ht : t < 2 ^ 49) (hn : content.length < 2 ^ 63) :
    parseTag (encodeTag (ASN1Object.mk c t k v subs) ++ encodeLength content.length ++ content) 0
      = .ok (c, t, k, (encodeTag (ASN1Object.mk c t k v subs)).length) ∧
    parseLength (encodeTag (ASN1Object.mk c t k v subs) ++ encodeLength content.length ++ content)
        (encodeTag (ASN1Object.mk c t k v subs)).length
      = .ok ((content.length : Int),
          (encodeTag (ASN1Object.mk c t k v subs) ++ encodeLength content.length).length) := by
  constructor
  · have h := (parseTag_frame [] (encodeLength content.length ++ content)
      (parseTag_encodeTag c t k v subs hc ht)).2.2.2.2
    simpa [List.append_assoc] using h
  · have h := (parseLength_frame (encodeTag (ASN1Object.mk c t k v subs)) content
      (parseLength_encodeLength hn)).2.2
    simpa using h

/-- One step of `parseElementF` on an element with a definite length. -/
theorem parseElementF_of_definite {f : Nat} {d : List Byte} {p c t p1 p2 : Nat} {k : Bool}
    {len : Int} (hp : p < d.length) (hT : parseTag d p = .ok (c, t, k, p1))
    (hL : parseLength d p1 = .ok (len, p2)) (hneg : ¬ (len = -1)) :
    parseElementF (f + 1) d p
      = (parseDefiniteContent (parseElementF f) d p2 len k).map
          (fun r => (ASN1Object.mk c t k r.1 r.2.1, r.2.2)) := by
  have hp2 : ¬ (p ≥ d.length) := by omega
  rw [parseElementF]
  simp only [hp2, if_false, hT, bind, Except.bind, hL, hneg]
  cases parseDefiniteContent (parseElementF f) d p2 len k <;> rfl

/-- One step of `parseElementF` on an element with the indefinite length. -/
theorem parseElementF_of_indefinite {f : Nat} {d : List Byte} {p c t p1 p2 : Nat} {k : Bool}
    (hp : p < d.length) (hT : parseTag d p = .ok (c, t, k, p1))
    (hL : parseLength d p1 = .ok (-1, p2)) :
    parseElementF (f + 1) d p
      = (parseIndefiniteContent (parseElementF f) d p2 k c t).map
          (fun r => (ASN1Object.mk c t k r.1 r.2.1, r.2.2)) := by
  have hp2 : ¬ (p ≥ d.length) := by omega
  rw [parseElementF]
  simp only [hp2, if_false, hT, bind, Except.bind, hL, if_true]
  cases parseIndefiniteContent (parseElementF f) d p2 k c t <;> rfl

/-- Function `parseElement` reads the minimal writing of a well-formed tree back as that tree. -/
theorem parseElementF_writeMinimal : ∀ obj : ASN1Object,
    AllNodes (fun x => WellFormedNode x ∧ TagBelow (2 ^ 49) x) obj →
    (writeMinimal obj).length < 2 ^ 63 →
    parseElementF (height obj) (writeMinimal obj) 0 = .ok (obj, (writeMinimal obj).length) := by
  intro obj
  induction obj using ASN1Object.induct with
  | step c t k v subs ih =>
    intro hall hlen
    rw [allNodes_mk] at hall
    obtain ⟨⟨⟨hc, hprim, hcons⟩, ht⟩, hsubs⟩ := hall
    simp only [ASN1Object.IsConstructed, ASN1Object.SubObjects, ASN1Object.Value] at hprim hcons
    simp only [TagBelow, ASN1Object.TagNumber] at ht
    simp only [ASN1Object.Class] at hc
    rw [height_mk, writeMinimal_mk] at *
    generalize hcontent : (if k then writeMinimalList subs else v) = content at *
    have hn : content.length < 2 ^ 63 := by
      simp only [List.length_append] at hlen; omega
    obtain ⟨hT, hL⟩ := parse_header c t k v subs content hc ht hn
    generalize htag : encodeTag (ASN1Object.mk c t k v subs) = tag at *
    generalize hlb : encodeLength content.length = lenb at *
    have htpos : 1 ≤ tag.length := by rw [← htag]; exact encodeTag_length_pos _
    have hp : 0 < (tag ++ lenb ++ content).length := by
      simp only [List.length_append]; omega
    have hneg : ¬ ((content.length : Int) = -1) := by omega
    have hw : wrapInt ((((tag ++ lenb).length : Nat) : Int) + (content.length : Int))
        = ((tag ++ lenb ++ content).length : Int) := by
      rw [wrapInt_of_range]
      · simp only [List.length_append]; push_cast; ring
      · positivity
      · have : (((tag ++ lenb ++ content).length : Nat) : Int) < 2 ^ 63 := by exact_mod_cast hlen
        simp only [List.length_append] at this ⊢
        push_cast at this ⊢
        omega
    have hchk : ¬ (((tag ++ lenb ++ content).length : Int)
        > ((tag ++ lenb ++ content).length : Int)) := by omega
    have hge : ∀ s ∈ subs, height s ≤ heightList subs := fun s hs => height_le_heightList hs
    generalize heightList subs = hgt at hge ⊢
    rw [parseElementF_of_definite hp hT hL hneg]
    unfold parseDefiniteContent
    rw [hw]
    simp only [hchk, if_false]
    cases k with
    | false =>
      simp only [Bool.false_eq_true, if_false] at hcontent ⊢
      have hs : slice (tag ++ lenb ++ content) (tag ++ lenb).length
          ((tag ++ lenb ++ content).length : Int) = .ok content := by
        unfold slice
        have hcnd : (((tag ++ lenb).length : Nat) : Int) ≤ ((tag ++ lenb ++ content).length : Int) ∧
            ((tag ++ lenb ++ content).length : Int) ≤ ((tag ++ lenb ++ content).length : Int) := by
          simp only [List.length_append]; push_cast; omega
        simp only [hcnd, and_self, if_true, Except.ok.injEq, Int.toNat_ofNat]
        rw [List.drop_left]
        have : (tag ++ lenb ++ content).length - (tag ++ lenb).length = content.length := by
          simp only [List.length_append]; omega
        rw [this, List.take_length]
      rw [hs]
      subst hcontent
      rw [hprim rfl]
      rfl
    | true =>
      simp only [if_true] at hcontent ⊢
      have hv : v = [] := hcons rfl
      have hitems := @parseDefiniteLoop_elems (parseElementF hgt) (tag ++ lenb ++ content)
        (subs.map (fun s => (writeMinimal s, s))) (tag ++ lenb) [] []
        ((tag ++ lenb ++ content).length + 1)
        (by
          simp only [List.map_map, List.append_nil]
          rw [← hcontent, writeMinimalList_eq]
          rfl)
        (by
          intro it hit
          obtain ⟨s, hs, rfl⟩ := List.mem_map.mp hit
          refine ⟨?_, ?_⟩
          · intro hnil
            have hnil2 : writeMinimal s = [] := hnil
            have := writeMinimal_length_ge s
            rw [hnil2] at this
            simp only [List.length_nil] at this
            omega
          · intro pre2 post2 hd
            have hslen : (writeMinimal s).length < 2 ^ 63 := by
              have : (tag ++ lenb ++ content).length
                  = (pre2 ++ writeMinimal s ++ post2).length := by rw [hd]
              simp only [List.length_append] at this hlen ⊢
              omega
            have hfr := (parseElementF_frame _ _ _ _ _ (ih s hs (hsubs s hs) hslen)).2.2.2
              pre2 post2 hgt (hge s hs) (by rw [← hd]; exact hlen)
            rw [hd]
            simpa using hfr)
        (by
          have := length_le_writeMinimalList subs
          rw [hcontent] at this
          simp only [List.length_map, List.length_append]
          omega)
      have hfl : ((subs.map (fun s => (writeMinimal s, s))).map Prod.fst).flatten = content := by
        rw [← hcontent, writeMinimalList_eq, List.map_map]
        rfl
      have hsnd : (subs.map (fun s => (writeMinimal s, s))).map Prod.snd = subs := by
        rw [List.map_map]
        simp [Function.comp_def]
      rw [hfl, hsnd] at hitems
      have hend : (((tag ++ lenb ++ content).length : Nat) : Int)
          = (((tag ++ lenb).length + content.length : Nat) : Int) := by
        simp only [List.length_append]
      rw [hend, hitems]
      simp only [List.nil_append, ne_eq, not_true_eq_false, if_false, hv, bind, Except.bind,
        Except.map, List.length_append]

/-! ## The encoder on a tree that needs no canonicalisation -/

theorem encodePrimitiveContent_of_normal {obj : ASN1Object}
    (h : (obj.Class = 0 ∨ obj.Class = 2) → obj.TagNumber = 1 →
      ∀ b, obj.Value = [b] → b = 0x00 ∨ b = 0xFF) :
    encodePrimitiveContent obj = obj.Value := by
  unfold encodePrimitiveContent
  split
  · rename_i b hb
    split
    · rename_i hbool
      have hct : (obj.Class = 0 ∨ obj.Class = 2) ∧ obj.TagNumber = 1 := by
        rcases hbool with ⟨h1, h2⟩ | ⟨h1, h2⟩
        · exact ⟨Or.inl h1, h2⟩
        · exact ⟨Or.inr h1, h2⟩
      rcases h hct.1 hct.2 b hb with rfl | rfl
      · simp [hb]
      · simp [hb]
    · exact hb.symm
  · rfl

/-- What `encodePrimitiveContent` returns is normalised. -/
theorem encodePrimitiveContent_normal (obj : ASN1Object) (b : Byte)
    (h : encodePrimitiveContent obj = [b]) (hc : obj.Class = 0 ∨ obj.Class = 2)
    (ht : obj.TagNumber = 1) : b = 0x00 ∨ b = 0xFF := by
  unfold encodePrimitiveContent at h
  split at h
  · rename_i x hx
    have hbool : (obj.Class = 0 ∧ obj.TagNumber = 1) ∨ (obj.Class = 2 ∧ obj.TagNumber = 1) := by
      rcases hc with hc | hc
      · exact Or.inl ⟨hc, ht⟩
      · exact Or.inr ⟨hc, ht⟩
    simp only [hbool, if_true] at h
    split at h
    · simp only [List.cons.injEq, and_true] at h
      exact Or.inr h.symm
    · simp only [List.cons.injEq, and_true] at h
      exact Or.inl h.symm
  · rename_i hne
    exact absurd h (hne b)

theorem encodePrimitiveContent_congr (c t : Nat) (k k2 : Bool) (v : List Byte)
    (subs subs2 : List ASN1Object) :
    encodePrimitiveContent (ASN1Object.mk c t k v subs)
      = encodePrimitiveContent (ASN1Object.mk c t k2 v subs2) := rfl

theorem pairwise_sorted {l : List (List Byte)}
    (h : l.Pairwise (fun a b => bytesCompare a b ≤ 0)) : l.Sorted notAfter := by
  unfold List.Sorted
  exact h.imp (fun {a b} hab => (notAfter_iff a b).mpr hab)

theorem forall₂_map_left {α β : Type} (f : α → β) : ∀ l : List α,
    List.Forall₂ (fun a b => f a = b) l (l.map f)
  | [] => .nil
  | _ :: rest => .cons rfl (forall₂_map_left f rest)

theorem forall₂_eq_map {α β : Type} {f : α → β} : ∀ {l : List α} {m : List β},
    List.Forall₂ (fun a b => f a = b) l m → l.map f = m
  | _, _, .nil => rfl
  | _, _, .cons h rest => by
    rw [List.map_cons, h, forall₂_eq_map rest]

/-! ## The three ways through the body of `encodeDER` -/

theorem flattenConstructedType_cases {obj r : ASN1Object}
    (h : flattenConstructedType obj = .ok r) :
    (IsFlattenTag obj.TagNumber ∧ r.Class = obj.Class ∧ r.TagNumber = obj.TagNumber ∧
        r.IsConstructed = false ∧ r.SubObjects = []) ∨
      (¬ IsFlattenTag obj.TagNumber ∧ r = obj) := by
  unfold flattenConstructedType at h
  unfold IsFlattenTag
  split at h
  · rename_i h3
    exact Or.inl ⟨Or.inl h3, flattenBitString_shape h⟩
  · rename_i h3
    split at h
    · rename_i h4
      exact Or.inl ⟨Or.inr (Or.inl h4), flattenOctetString_shape h⟩
    · rename_i h4
      split at h
      · rename_i hs
        exact Or.inl ⟨Or.inr (Or.inr hs), flattenString_shape h⟩
      · rename_i hs
        refine Or.inr ⟨?_, ?_⟩
        · rintro (h | h | h)
          · exact h3 h
          · exact h4 h
          · exact hs h
        · split at h <;> (cases h; rfl)

theorem encodeDERStep_primitive (enc : ASN1Object → Except Err (List Byte)) (obj : ASN1Object)
    (hk : obj.IsConstructed = false) :
    encodeDERStep enc obj
      = .ok (encodeTag obj ++ encodeLength (encodePrimitiveContent obj).length
          ++ encodePrimitiveContent obj) := by
  unfold encodeDERStep encodeContent
  simp [hk, bind, Except.bind]

theorem encodeDERStep_flatten (enc : ASN1Object → Except Err (List Byte)) (obj : ASN1Object)
    {r : ASN1Object}
    (hk : obj.IsConstructed = true) (hc : obj.Class = 0)
    (hf : flattenConstructedType obj = .ok r) (hr : r.IsConstructed = false) :
    encodeDERStep enc obj
      = .ok (encodeTag r ++ encodeLength (encodePrimitiveContent r).length
          ++ encodePrimitiveContent r) := by
  unfold encodeDERStep encodeContent
  simp [hk, hc, hf, hr, bind, Except.bind]

theorem encodeDERStep_flatten_error (enc : ASN1Object → Except Err (List Byte))
    (obj : ASN1Object) {e : Err}
    (hk : obj.IsConstructed = true) (hc : obj.Class = 0)
    (hf : flattenConstructedType obj = .error e) :
    encodeDERStep enc obj = .error e := by
  unfold encodeDERStep
  simp [hk, hc, hf, bind, Except.bind]

theorem encodeDERStep_keep (enc : ASN1Object → Except Err (List Byte)) (obj : ASN1Object)
    (hk : obj.IsConstructed = true) (hkeep : ¬ (obj.Class = 0 ∧ IsFlattenTag obj.TagNumber)) :
    encodeDERStep enc obj
      = (encodeSubs enc obj.SubObjects).map (fun encs =>
          encodeTag obj ++ encodeLength (constructedContent obj encs).length
            ++ constructedContent obj encs) := by
  have hflat : obj.Class = 0 → flattenConstructedType obj = .ok obj := by
    intro hc
    have hnf : ¬ IsFlattenTag obj.TagNumber := fun h => hkeep ⟨hc, h⟩
    unfold IsFlattenTag at hnf
    exact flattenConstructedType_keep (fun h => hnf (Or.inl h))
      (fun h => hnf (Or.inr (Or.inl h))) (fun h => hnf (Or.inr (Or.inr h)))
  have hcontent : encodeContent enc obj
      = (encodeSubs enc obj.SubObjects).map (fun encs => constructedContent obj encs) := by
    simp only [encodeContent, hk, if_true, encodeConstructedContent, encodeSetContent,
      encodeConstructedLoop_eq, constructedContent, concatAll_eq, List.nil_append]
    by_cases hset : obj.Class = 0 ∧ obj.TagNumber = 17
    · simp only [hset, and_self, if_true]
      cases encodeSubs enc obj.SubObjects <;> rfl
    · simp only [hset, if_false]
  unfold encodeDERStep
  by_cases hc : obj.Class = 0
  · simp only [hk, hc, and_self, if_true, hflat hc, bind, Except.bind, hcontent]
    cases encodeSubs enc obj.SubObjects <;> rfl
  · simp only [hc, and_false, if_false, bind, Except.bind, hcontent]
    cases encodeSubs enc obj.SubObjects <;> rfl

/-! ## The encoder on a tree that needs no canonicalisation -/

/-- On a tree that needs no canonicalisation, `encodeDER` is the minimal writing. -/
theorem encodeDER_writeMinimal : ∀ obj : ASN1Object,
    AllNodes (fun x => WellFormedNode x ∧ DERNode x) obj →
    encodeDER obj = .ok (writeMinimal obj) := by
  intro obj
  induction obj using ASN1Object.induct with
  | step c t k v subs ih =>
    intro hall
    rw [allNodes_mk] at hall
    obtain ⟨⟨-, hflat, hset, hbool⟩, hsubs⟩ := hall
    simp only [ASN1Object.IsConstructed, ASN1Object.SubObjects, ASN1Object.Value,
      ASN1Object.Class, ASN1Object.TagNumber] at hflat hset hbool
    rw [encodeDER_unfold, writeMinimal_mk]
    cases k with
    | false =>
      rw [encodeDERStep_primitive encodeDER (ASN1Object.mk c t false v subs) rfl,
        @encodePrimitiveContent_of_normal (ASN1Object.mk c t false v subs)
          (fun h1 h2 => hbool rfl h1 h2)]
      rfl
    | true =>
      have hsubsEnc : encodeSubs encodeDER subs = .ok (subs.map writeMinimal) := by
        apply encodeSubs_ok
        have hmap := forall₂_map_left writeMinimal subs
        have hmem : ∀ {l : List ASN1Object} {m : List (List Byte)},
            List.Forall₂ (fun a b => writeMinimal a = b) l m → (∀ s ∈ l, s ∈ subs) →
            List.Forall₂ (fun s e => encodeDER s = .ok e) l m := by
          intro l m hf
          induction hf with
          | nil => intro _; exact .nil
          | cons hab _ ih2 =>
            intro hin
            refine .cons ?_ (ih2 (fun s hs => hin s (List.mem_cons_of_mem _ hs)))
            rw [← hab]
            exact ih _ (hin _ (by simp)) (hsubs _ (hin _ (by simp)))
        exact hmem hmap (fun s hs => hs)
      rw [encodeDERStep_keep encodeDER (ASN1Object.mk c t true v subs) rfl
        (fun h => hflat ⟨h.1, rfl, h.2⟩)]
      simp only [ASN1Object.SubObjects, hsubsEnc, Except.map, if_true]
      have hcc : constructedContent (ASN1Object.mk c t true v subs) (subs.map writeMinimal)
          = writeMinimalList subs := by
        unfold constructedContent
        rw [writeMinimalList_eq]
        by_cases hs : c = 0 ∧ t = 17
        · simp only [ASN1Object.Class, ASN1Object.TagNumber, hs, and_self, if_true]
          rw [sortSlice_of_sorted (pairwise_sorted (hset hs.1 rfl hs.2))]
        · simp only [ASN1Object.Class, ASN1Object.TagNumber, hs, if_false]
      rw [hcc]

/-! ## What the encoder returns is a minimal writing -/

theorem exists_list_of_forall₂ {Q : List Byte → ASN1Object → Prop}
    {enc : ASN1Object → Except Err (List Byte)} :
    ∀ {subs : List ASN1Object} {encs : List (List Byte)},
      List.Forall₂ (fun s e => enc s = .ok e) subs encs →
      (∀ s ∈ subs, ∀ e, enc s = .ok e → ∃ t, Q e t) →
      ∃ ts, List.Forall₂ Q encs ts
  | _, _, .nil, _ => ⟨[], .nil⟩
  | _, _, .cons hx hrest, h => by
    obtain ⟨t, ht⟩ := h _ (by simp) _ hx
    obtain ⟨ts, hts⟩ := exists_list_of_forall₂ hrest
      (fun s hs e he => h s (List.mem_cons_of_mem _ hs) e he)
    exact ⟨t :: ts, .cons ht hts⟩

theorem forall₂_right_props {P : ASN1Object → Prop} :
    ∀ {es : List (List Byte)} {ts : List ASN1Object},
      List.Forall₂ (fun e t => writeMinimal t = e ∧ P t) es ts →
      ts.map writeMinimal = es ∧ ∀ t ∈ ts, P t
  | _, _, .nil => ⟨rfl, by simp⟩
  | _, _, .cons hx hrest => by
    obtain ⟨h1, h2⟩ := forall₂_right_props hrest
    refine ⟨by rw [List.map_cons, hx.1, h1], ?_⟩
    intro t ht
    rcases List.mem_cons.mp ht with rfl | ht
    · exact hx.2
    · exact h2 t ht

/-- Whatever `encodeDER` returns is the minimal writing of a tree that needs no
canonicalisation, with the tag numbers of the encoded tree. -/
theorem encodeDER_canonical (bound : Nat) : ∀ obj : ASN1Object,
    AllNodes (fun x => x.Class < 4 ∧ TagBelow bound x) obj →
    ∀ out, encodeDER obj = .ok out →
    ∃ obj2, writeMinimal obj2 = out ∧
      AllNodes (fun x => (WellFormedNode x ∧ DERNode x) ∧ TagBelow bound x) obj2 := by
  intro obj
  induction obj using ASN1Object.induct with
  | step c t k v subs ih =>
    intro hall out h
    rw [allNodes_mk] at hall
    obtain ⟨⟨hc, ht⟩, hsubs⟩ := hall
    simp only [ASN1Object.Class] at hc
    simp only [TagBelow, ASN1Object.TagNumber] at ht
    rw [encodeDER_unfold] at h
    -- the primitive object that is written when the node is or becomes primitive
    have hprimCase : ∀ content : List Byte,
        (∀ b, content = [b] → (c = 0 ∨ c = 2) → t = 1 → b = 0x00 ∨ b = 0xFF) →
        out = encodeTag (ASN1Object.mk c t false content []) ++ encodeLength content.length
          ++ content →
        ∃ obj2, writeMinimal obj2 = out ∧
          AllNodes (fun x => (WellFormedNode x ∧ DERNode x) ∧ TagBelow bound x) obj2 := by
      intro content hnorm hout
      refine ⟨ASN1Object.mk c t false content [], ?_, ?_⟩
      · rw [writeMinimal_mk, hout]
        rfl
      · rw [allNodes_mk]
        refine ⟨⟨⟨⟨hc, fun _ => rfl, fun hk => by cases hk⟩, ?_, ?_, ?_⟩, ht⟩, by simp⟩
        · rintro ⟨-, hk, -⟩
          cases hk
        · intro _ hk
          cases hk
        · intro _ hcl htag b hb
          exact hnorm b hb hcl htag
    cases k with
    | false =>
      rw [encodeDERStep_primitive encodeDER (ASN1Object.mk c t false v subs) rfl] at h
      simp only [Except.ok.injEq] at h
      apply hprimCase (encodePrimitiveContent (ASN1Object.mk c t false v subs))
      · intro b hb hcl htag
        exact encodePrimitiveContent_normal _ b hb hcl htag
      · rw [← h]
        rfl
    | true =>
      by_cases hfl : c = 0 ∧ IsFlattenTag t
      · cases hf : flattenConstructedType (ASN1Object.mk c t true v subs) with
        | error e =>
          rw [encodeDERStep_flatten_error encodeDER (ASN1Object.mk c t true v subs) rfl hfl.1 hf] at h
          cases h
        | ok r =>
          rcases flattenConstructedType_cases hf with ⟨-, r1, r2, r3, -⟩ | ⟨hnot, -⟩
          · rw [encodeDERStep_flatten encodeDER (ASN1Object.mk c t true v subs) rfl hfl.1 hf r3] at h
            simp only [Except.ok.injEq] at h
            cases r with
            | mk rc rt rk rv rs =>
              simp only [ASN1Object.Class, ASN1Object.TagNumber, ASN1Object.IsConstructed]
                at r1 r2 r3
              subst r1 r2 r3
              apply hprimCase (encodePrimitiveContent (ASN1Object.mk rc rt false rv rs))
              · intro b hb hcl htag
                exact encodePrimitiveContent_normal _ b hb hcl htag
              · rw [← h]
                rfl
          · exact absurd hfl.2 hnot
      · rw [encodeDERStep_keep encodeDER (ASN1Object.mk c t true v subs) rfl hfl] at h
        simp only [ASN1Object.SubObjects] at h
        cases hs : encodeSubs encodeDER subs with
        | error e => rw [hs] at h; cases h
        | ok encs =>
          rw [hs] at h
          simp only [Except.map, Except.ok.injEq] at h
          have hF := encodeSubs_ok_inv hs
          obtain ⟨ts, hts⟩ := @exists_list_of_forall₂ (fun e t2 => writeMinimal t2 = e ∧
              AllNodes (fun x => (WellFormedNode x ∧ DERNode x) ∧ TagBelow bound x) t2)
            encodeDER subs encs hF (fun s hs2 e he => ih s hs2 (hsubs s hs2) e he)
          -- the sub-objects in the order in which their encodings are written
          have hOrder : ∃ es ts2, constructedContent (ASN1Object.mk c t true v subs) encs
              = es.flatten ∧
              (c = 0 → t = 17 → es.Pairwise (fun a b => bytesCompare a b ≤ 0)) ∧
              List.Forall₂ (fun e t2 => writeMinimal t2 = e ∧
                AllNodes (fun x => (WellFormedNode x ∧ DERNode x) ∧ TagBelow bound x) t2)
                es ts2 := by
            unfold constructedContent
            by_cases hset : c = 0 ∧ t = 17
            · obtain ⟨ts2, -, hts2⟩ := forall₂_perm hts (sortSlice_perm encs).symm
              refine ⟨sortSlice encs, ts2, ?_, fun _ _ => sortSlice_pairwise encs, hts2⟩
              simp only [ASN1Object.Class, ASN1Object.TagNumber, hset, and_self, if_true]
            · refine ⟨encs, ts, ?_, fun h1 h2 => absurd ⟨h1, h2⟩ hset, hts⟩
              simp only [ASN1Object.Class, ASN1Object.TagNumber, hset, if_false]
          obtain ⟨es, ts2, hcc, hpair, hF2⟩ := hOrder
          obtain ⟨hmap, hnodes⟩ := forall₂_right_props hF2
          refine ⟨ASN1Object.mk c t true [] ts2, ?_, ?_⟩
          · rw [writeMinimal_mk, ← h, hcc]
            simp only [if_true, writeMinimalList_eq, hmap]
            rfl
          · rw [allNodes_mk]
            refine ⟨⟨⟨⟨hc, fun hk => by simp [ASN1Object.IsConstructed] at hk, fun _ => rfl⟩,
              ?_, ?_, ?_⟩, ht⟩, hnodes⟩
            · rintro ⟨h0, -, hft⟩
              exact hfl ⟨h0, hft⟩
            · intro h0 _ h17
              simp only [ASN1Object.SubObjects, hmap]
              exact hpair h0 h17
            · intro hk
              cases hk

/-! ## MakeDER on a minimal writing -/

theorem parseElement_writeMinimal (obj : ASN1Object)
    (h : AllNodes (fun x => WellFormedNode x ∧ TagBelow (2 ^ 49) x) obj)
    (hlen : (writeMinimal obj).length < 2 ^ 63) :
    parseElement (writeMinimal obj) 0 = .ok (obj, (writeMinimal obj).length) := by
  have h1 := parseElementF_writeMinimal obj h hlen
  have hwf : AllNodes WellFormedNode obj := allNodes_imp (fun _ hx => hx.1) obj h
  have h2 := (parseElementF_frame _ _ _ _ _ h1).2.2.2 [] []
    ((writeMinimal obj).length + 1) (by have := height_le_length obj hwf; omega)
    (by simpa using hlen)
  unfold parseElement
  simpa using h2

/-- Function `MakeDER` returns the minimal writing of a tree that needs no canonicalisation and whose
tag numbers are below `2 ^ 49`. -/
theorem MakeDER_writeMinimal (obj : ASN1Object)
    (h : AllNodes (fun x => (WellFormedNode x ∧ DERNode x) ∧ TagBelow (2 ^ 49) x) obj)
    (hlen : (writeMinimal obj).length < 2 ^ 63) :
    MakeDER (writeMinimal obj) = .ok (writeMinimal obj) := by
  have hp : AllNodes (fun x => WellFormedNode x ∧ TagBelow (2 ^ 49) x) obj :=
    allNodes_imp (fun _ hx => ⟨hx.1.1, hx.2⟩) obj h
  have hd : AllNodes (fun x => WellFormedNode x ∧ DERNode x) obj :=
    allNodes_imp (fun _ hx => hx.1) obj h
  have hne : ¬ ((writeMinimal obj).length = 0) := by
    have := writeMinimal_length_ge obj
    omega
  unfold MakeDER
  simp only [hne, if_false, parseElement_writeMinimal obj hp hlen, bind, Except.bind, ne_eq,
    not_true_eq_false]
  exact encodeDER_writeMinimal obj hd

/-- The parse and the encoding behind a successful `MakeDER`. -/
theorem MakeDER_ok {data out : List Byte} (h : MakeDER data = .ok out) :
    ∃ obj, parseElement data 0 = .ok (obj, data.length) ∧ encodeDER obj = .ok out := by
  unfold MakeDER at h
  split at h
  · cases h
  · cases hp : parseElement data 0 with
    | error e => rw [hp] at h; cases h
    | ok r =>
      obtain ⟨obj, pos⟩ := r
      rw [hp] at h
      simp only [bind, Except.bind] at h
      split at h
      · cases h
      · rename_i hpos
        simp only [ne_eq, Decidable.not_not] at hpos
        subst hpos
        exact ⟨obj, rfl, h⟩

theorem MakeDER_of_parse {data : List Byte} {obj : ASN1Object}
    (h : parseElement data 0 = .ok (obj, data.length)) : MakeDER data = encodeDER obj := by
  have hb := (parseElementF_frame _ _ _ _ _ h).1
  have hne : ¬ (data.length = 0) := by omega
  unfold MakeDER
  simp only [hne, if_false, h, bind, Except.bind, ne_eq, not_true_eq_false]

/-- What a successful parse returns: well-formed nodes with tag numbers below `2 ^ 49`. -/
theorem parseElement_nodes {data : List Byte} {p q : Nat} {obj : ASN1Object}
    (h : parseElement data p = .ok (obj, q)) :
    AllNodes (fun x => WellFormedNode x ∧ TagBelow (2 ^ 49) x) obj :=
  (parseElementF_frame _ _ _ _ _ h).2.2.1

/-- Idempotence: the output of `MakeDER` is returned unchanged by `MakeDER`. -/
theorem MakeDER_output_fixed {data out : List Byte} (h : MakeDER data = .ok out)
    (hlen : out.length < 2 ^ 63) : MakeDER out = .ok out := by
  obtain ⟨obj, hp, he⟩ := MakeDER_ok h
  have hn := parseElement_nodes hp
  have hn2 : AllNodes (fun x => x.Class < 4 ∧ TagBelow (2 ^ 49) x) obj :=
    allNodes_imp (fun _ hx => ⟨hx.1.1, hx.2⟩) obj hn
  obtain ⟨obj2, hw, hc⟩ := encodeDER_canonical (2 ^ 49) obj hn2 out he
  subst hw
  exact MakeDER_writeMinimal obj2 hc hlen

/-- Shape of every output of `encodeDER`: identifier, minimal definite length, content. -/
theorem encodeDER_shape (obj : ASN1Object) {out : List Byte} (h : encodeDER obj = .ok out) :
    ∃ (r : ASN1Object) (content : List Byte),
      out = encodeTag r ++ encodeLength content.length ++ content ∧
      r.Class = obj.Class ∧ r.TagNumber = obj.TagNumber := by
  rw [encodeDER_unfold] at h
  by_cases hk : obj.IsConstructed = true
  · by_cases hfl : obj.Class = 0 ∧ IsFlattenTag obj.TagNumber
    · cases hf : flattenConstructedType obj with
      | error e =>
        rw [encodeDERStep_flatten_error encodeDER obj hk hfl.1 hf] at h
        cases h
      | ok r =>
        rcases flattenConstructedType_cases hf with ⟨-, r1, r2, r3, -⟩ | ⟨hnot, -⟩
        · rw [encodeDERStep_flatten encodeDER obj hk hfl.1 hf r3] at h
          simp only [Except.ok.injEq] at h
          exact ⟨r, encodePrimitiveContent r, h.symm, r1, r2⟩
        · exact absurd hfl.2 hnot
    · rw [encodeDERStep_keep encodeDER obj hk hfl] at h
      cases hs : encodeSubs encodeDER obj.SubObjects with
      | error e => rw [hs] at h; cases h
      | ok encs =>
        rw [hs] at h
        simp only [Except.map, Except.ok.injEq] at h
        exact ⟨obj, constructedContent obj encs, h.symm, rfl, rfl⟩
  · have hk2 : obj.IsConstructed = false := by
      cases hb : obj.IsConstructed with
      | true => exact absurd hb hk
      | false => rfl
    rw [encodeDERStep_primitive encodeDER obj hk2] at h
    simp only [Except.ok.injEq] at h
    exact ⟨obj, encodePrimitiveContent obj, h.symm, rfl, rfl⟩

/-! ## Indefinite and definite forms of a constructed element -/

theorem parseLength_indefinite (pre rest : List Byte) :
    parseLength (pre ++ 0x80 :: rest) pre.length = .ok (-1, pre.length + 1) := by
  have hp : ¬ (pre.length ≥ (pre ++ 0x80 :: rest).length) := by simp
  unfold parseLength
  simp only [hp, if_false, index_append_head, bind, Except.bind]
  rfl

theorem exists_items {P : List Byte → ASN1Object → Prop} : ∀ {cs : List (List Byte)},
    (∀ ci ∈ cs, ∃ o, P ci o) →
    ∃ items : List (List Byte × ASN1Object),
      items.map Prod.fst = cs ∧ ∀ it ∈ items, P it.1 it.2
  | [], _ => ⟨[], rfl, by simp⟩
  | ci :: rest, h => by
    obtain ⟨o, ho⟩ := h ci (by simp)
    obtain ⟨items, h1, h2⟩ := exists_items (fun x hx => h x (List.mem_cons_of_mem _ hx))
    refine ⟨(ci, o) :: items, by simp [h1], ?_⟩
    intro it hit
    rcases List.mem_cons.mp hit with rfl | hit
    · exact ho
    · exact h2 it hit

theorem length_le_flatten {l : List (List Byte)} (h : ∀ e ∈ l, 1 ≤ e.length) :
    l.length ≤ l.flatten.length := by
  induction l with
  | nil => simp
  | cons e rest ih =>
    have h1 := h e (by simp)
    have h2 := ih (fun x hx => h x (List.mem_cons_of_mem _ hx))
    simp only [List.length_cons, List.flatten_cons, List.length_append]
    omega

/-- An element inside a buffer, from its parse on its own. -/
theorem parseElementF_inside {e : List Byte} {o : ASN1Object}
    (h : parseElement e 0 = .ok (o, e.length)) {data pre post : List Byte} {f : Nat}
    (hd : data = pre ++ e ++ post) (hf : e.length + 1 ≤ f) (hlen : data.length < 2 ^ 63) :
    parseElementF f data pre.length = .ok (o, pre.length + e.length) := by
  have h2 := (parseElementF_frame _ _ _ _ _ h).2.2.2 pre post f hf (by rw [← hd]; exact hlen)
  rw [hd]
  simpa using h2

/-- The indefinite form: identifier, `0x80`, the sub-elements, two zero octets. -/
theorem parseElement_indefinite_form {T : List Byte} {c t : Nat}
    (hT : parseTag T 0 = .ok (c, t, true, T.length))
    (items : List (List Byte × ASN1Object))
    (hitems : ∀ it ∈ items, parseElement it.1 0 = .ok (it.2, it.1.length) ∧
      ∀ tl, it.1 ≠ 0 :: 0 :: tl)
    (hlen : (T ++ [0x80] ++ (items.map Prod.fst).flatten ++ [0x00, 0x00]).length < 2 ^ 63) :
    parseElement (T ++ [0x80] ++ (items.map Prod.fst).flatten ++ [0x00, 0x00]) 0
      = .ok (ASN1Object.mk c t true [] (items.map Prod.snd),
          (T ++ [0x80] ++ (items.map Prod.fst).flatten ++ [0x00, 0x00]).length) := by
  generalize hdata : T ++ [0x80] ++ (items.map Prod.fst).flatten ++ [0x00, 0x00] = data at *
  have hTb := parseTag_frame [] [] hT
  have hTpos : 1 ≤ T.length := by omega
  have hdl : data.length = T.length + 1 + (items.map Prod.fst).flatten.length + 2 := by
    rw [← hdata]
    simp only [List.length_append, List.length_singleton, List.length_cons, List.length_nil]
  have hT1 : parseTag data 0 = .ok (c, t, true, T.length) := by
    have := (parseTag_frame [] ([0x80] ++ (items.map Prod.fst).flatten ++ [0x00, 0x00]) hT).2.2.2.2
    rw [← hdata]
    simpa [List.append_assoc] using this
  have hL1 : parseLength data T.length = .ok (-1, T.length + 1) := by
    have := parseLength_indefinite T ((items.map Prod.fst).flatten ++ [0x00, 0x00])
    rw [← hdata]
    simpa [List.append_assoc] using this
  have hloop := @parseIndefiniteLoop_elems (parseElementF data.length) data items
    (T ++ [0x80]) [] [] (data.length + 1)
    (by rw [← hdata])
    (by
      intro it hit
      obtain ⟨hp, hz⟩ := hitems it hit
      have hb := (parseElementF_frame _ _ _ _ _ hp).1
      refine ⟨by omega, hz, ?_⟩
      intro pre2 post2 hd
      apply parseElementF_inside hp hd _ hlen
      have : data.length = (pre2 ++ it.1 ++ post2).length := by rw [← hd]
      have hm : it.1.length ≤ (items.map Prod.fst).flatten.length :=
        length_le_flatten_of_mem (List.mem_map_of_mem _ hit)
      omega)
    (by
      have := length_le_flatten (l := items.map Prod.fst) (by
        intro e he
        obtain ⟨it, hit, rfl⟩ := List.mem_map.mp he
        have hb := (parseElementF_frame _ _ _ _ _ (hitems it hit).1).1
        omega)
      simp only [List.length_map] at this
      omega)
  unfold parseElement
  rw [parseElementF_of_indefinite (by omega) hT1 hL1]
  unfold parseIndefiniteContent
  simp only [List.length_append, List.length_singleton] at hloop
  simp only [not_true_eq_false, if_false]
  rw [hloop]
  simp only [bind, Except.bind, Except.map, List.nil_append, hdl]

/-- The definite form: identifier, a definite-length field, the sub-elements. -/
theorem parseElement_definite_form {T L : List Byte} {c t : Nat}
    (hT : parseTag T 0 = .ok (c, t, true, T.length))
    (items : List (List Byte × ASN1Object))
    (hitems : ∀ it ∈ items, parseElement it.1 0 = .ok (it.2, it.1.length))
    (hL : IsDefiniteLength L (items.map Prod.fst).flatten.length)
    (hlen : (T ++ L ++ (items.map Prod.fst).flatten).length < 2 ^ 63) :
    parseElement (T ++ L ++ (items.map Prod.fst).flatten) 0
      = .ok (ASN1Object.mk c t true [] (items.map Prod.snd),
          (T ++ L ++ (items.map Prod.fst).flatten).length) := by
  generalize hbody : (items.map Prod.fst).flatten = body at *
  generalize hdata : T ++ L ++ body = data at *
  have hTb := parseTag_frame [] [] hT
  have hTpos : 1 ≤ T.length := by omega
  have hdl : data.length = T.length + L.length + body.length := by
    rw [← hdata]
    simp only [List.length_append]
  have hn : body.length < 2 ^ 63 := by omega
  have hT1 : parseTag data 0 = .ok (c, t, true, T.length) := by
    have := (parseTag_frame [] (L ++ body) hT).2.2.2.2
    rw [← hdata]
    simpa [List.append_assoc] using this
  have hL1 : parseLength data T.length = .ok ((body.length : Int), (T ++ L).length) := by
    have := (parseLength_frame T body (parseLength_definite hL hn)).2.2
    rw [← hdata]
    simpa using this
  have hneg : ¬ ((body.length : Int) = -1) := by omega
  have hloop := @parseDefiniteLoop_elems (parseElementF data.length) data items
    (T ++ L) [] [] (data.length + 1)
    (by rw [← hdata, hbody]; simp)
    (by
      intro it hit
      have hp := hitems it hit
      have hb := (parseElementF_frame _ _ _ _ _ hp).1
      refine ⟨?_, ?_⟩
      · intro hnil
        rw [hnil] at hb
        simp at hb
      · intro pre2 post2 hd
        apply parseElementF_inside hp hd _ hlen
        have hm : it.1.length ≤ (items.map Prod.fst).flatten.length :=
          length_le_flatten_of_mem (List.mem_map_of_mem _ hit)
        rw [hbody] at hm
        omega)
    (by
      have := length_le_flatten (l := items.map Prod.fst) (by
        intro e he
        obtain ⟨it, hit, rfl⟩ := List.mem_map.mp he
        have hb := (parseElementF_frame _ _ _ _ _ (hitems it hit)).1
        omega)
      simp only [List.length_map, hbody] at this
      omega)
  rw [hbody] at hloop
  have hw : wrapInt ((((T ++ L).length : Nat) : Int) + (body.length : Int))
      = (((T ++ L).length + body.length : Nat) : Int) := by
    rw [wrapInt_of_range]
    · push_cast; ring
    · positivity
    · have : ((data.length : Nat) : Int) < 2 ^ 63 := by exact_mod_cast hlen
      rw [hdl] at this
      simp only [List.length_append]
      push_cast at this ⊢
      omega
  have hchk : ¬ ((((T ++ L).length + body.length : Nat) : Int) > (data.length : Int)) := by
    simp only [List.length_append, hdl]
    push_cast
    omega
  unfold parseElement
  rw [parseElementF_of_definite (by omega) hT1 hL1 hneg]
  unfold parseDefiniteContent
  rw [hw]
  simp only [hchk, if_false, if_true]
  rw [hloop]
  simp only [bind, Except.bind, Except.map, List.nil_append, ne_eq, not_true_eq_false,
    if_false, hdl, List.length_append]

/-! ## Flattening of constructed OCTET STRING and character strings -/

theorem flattenOctetStringLoop_segments : ∀ (segs : List (List Byte)) (i : Nat)
    (octets : List Byte),
    flattenOctetStringLoop (segs.map (fun S => ASN1Object.mk 0 4 false S [])) i octets
      = .ok (octets ++ segs.flatten)
  | [], _, _ => by simp [flattenOctetStringLoop]
  | S :: rest, i, octets => by
    simp only [List.map_cons, flattenOctetStringLoop, ASN1Object.Class, ASN1Object.TagNumber,
      ASN1Object.IsConstructed, ASN1Object.Value, and_self, not_true_eq_false, if_false]
    rw [flattenOctetStringLoop_segments rest]
    simp

theorem flattenStringLoop_segments (t : Nat) : ∀ (segs : List (List Byte)) (i : Nat)
    (content : List Byte),
    flattenStringLoop t (segs.map (fun S => ASN1Object.mk 0 t false S [])) i content
      = .ok (content ++ segs.flatten)
  | [], _, _ => by simp [flattenStringLoop]
  | S :: rest, i, content => by
    simp only [List.map_cons, flattenStringLoop, ASN1Object.Class, ASN1Object.TagNumber,
      ASN1Object.IsConstructed, ASN1Object.Value, and_self, not_true_eq_false, if_false]
    rw [flattenStringLoop_segments t rest]
    simp

/-- The flattener on a constructed string (not BIT STRING) whose sub-objects are primitive
segments of the same type. -/
theorem flattenConstructedType_segments {t : Nat} (ht : t = 4 ∨ t ∈ stringTags)
    (v : List Byte) (segs : List (List Byte)) :
    flattenConstructedType
        (ASN1Object.mk 0 t true v (segs.map (fun S => ASN1Object.mk 0 t false S [])))
      = .ok (ASN1Object.mk 0 t false segs.flatten []) := by
  have h3 : ¬ (t = 3) := by
    rcases ht with rfl | h
    · decide
    · intro h3; subst h3; simp [stringTags] at h
  unfold flattenConstructedType
  simp only [ASN1Object.TagNumber, h3, if_false]
  by_cases h4 : t = 4
  · subst h4
    simp only [if_true, flattenOctetString, ASN1Object.SubObjects,
      flattenOctetStringLoop_segments, bind, Except.bind, List.nil_append, ASN1Object.Class,
      ASN1Object.TagNumber]
  · have hs : t ∈ stringTags := by
      rcases ht with h | h
      · exact absurd h h4
      · exact h
    simp only [h4, if_false, hs, if_true, flattenString, ASN1Object.SubObjects,
      ASN1Object.TagNumber, flattenStringLoop_segments, bind, Except.bind, List.nil_append,
      ASN1Object.Class]

/-! ## Helpers for the statements about whole inputs -/

theorem encodeLength_length_le {n : Nat} (hn : n < 2 ^ 63) : (encodeLength n).length ≤ 9 := by
  by_cases h : n < 128
  · rw [encodeLength_short h]
    simp
  · obtain ⟨ds, he, -, h8, -, -⟩ := encodeLength_long (by omega) hn
    rw [he]
    simp only [List.length_cons]
    omega

theorem encodeTag_universal_short {t : Nat} (ht : t < 31) (k : Bool) (v : List Byte)
    (subs : List ASN1Object) :
    encodeTag (ASN1Object.mk 0 t k v subs) = [toByte ((if k then 0x20 else 0) ||| t)] := by
  rw [encodeTag_short 0 t k v subs (by decide) ht]
  simp

theorem flattenTag_lt {t : Nat} (ht : t = 4 ∨ t ∈ stringTags) : t < 31 ∧ t ≠ 1 ∧ t ≠ 0 := by
  rcases ht with rfl | h
  · decide
  · simp only [stringTags, List.mem_cons, List.mem_singleton, List.not_mem_nil, or_false] at h
    omega

/-- The segment `S` as a Universal primitive element of tag `t`. -/
theorem writeMinimal_segment {t : Nat} (ht : t < 31) (S : List Byte) :
    writeMinimal (ASN1Object.mk 0 t false S []) = toByte t :: (encodeLength S.length ++ S) := by
  rw [writeMinimal_mk, encodeTag_universal_short ht]
  simp

theorem segments_length_le (t : Nat) : ∀ segs : List (List Byte),
    segs.flatten.length
      ≤ (segs.map (fun S => toByte t :: (encodeLength S.length ++ S))).flatten.length
  | [] => by simp
  | S :: rest => by
    have := segments_length_le t rest
    simp only [List.flatten_cons, List.map_cons, List.length_append, List.length_cons]
    omega

/-- Both `MakeDER` results of the flatten equivalence, from the parse of the constructed
input. -/
theorem segments_flatten_aux {t : Nat} (ht : t = 4 ∨ t ∈ stringTags)
    (segs : List (List Byte)) (hsz : segs.flatten.length + 16 < 2 ^ 63) :
    encodeDER (ASN1Object.mk 0 t true [] (segs.map (fun S => ASN1Object.mk 0 t false S [])))
        = .ok (toByte t :: (encodeLength segs.flatten.length ++ segs.flatten)) ∧
      MakeDER (toByte t :: (encodeLength segs.flatten.length ++ segs.flatten))
        = .ok (toByte t :: (encodeLength segs.flatten.length ++ segs.flatten)) := by
  obtain ⟨h31, h1, h0⟩ := flattenTag_lt ht
  have hprimNorm : encodePrimitiveContent (ASN1Object.mk 0 t false segs.flatten [])
      = segs.flatten :=
    @encodePrimitiveContent_of_normal (ASN1Object.mk 0 t false segs.flatten [])
      (fun _ h => absurd h h1)
  constructor
  · rw [encodeDER_unfold, encodeDERStep_flatten encodeDER
      (ASN1Object.mk 0 t true [] (segs.map (fun S => ASN1Object.mk 0 t false S []))) rfl rfl
      (flattenConstructedType_segments ht [] segs) rfl, hprimNorm,
      encodeTag_universal_short h31]
    simp
  · have hw := writeMinimal_segment h31 segs.flatten
    rw [← hw]
    apply MakeDER_writeMinimal
    · rw [allNodes_mk]
      refine ⟨⟨⟨⟨show (0 : Nat) < 4 by decide, fun _ => rfl,
        fun hk => by simp [ASN1Object.IsConstructed] at hk⟩, ?_, ?_, ?_⟩, ?_⟩, by simp⟩
      · rintro ⟨-, hk, -⟩
        simp [ASN1Object.IsConstructed] at hk
      · intro _ hk
        simp [ASN1Object.IsConstructed] at hk
      · intro _ _ htag
        exact absurd htag h1
      · have : (31 : Nat) < 2 ^ 49 := by norm_num
        simp only [TagBelow, ASN1Object.TagNumber]
        omega
    · rw [hw]
      have := encodeLength_length_le (n := segs.flatten.length) (by omega)
      simp only [List.length_cons, List.length_append]
      omega

theorem segment_nodes {t : Nat} (h31 : t < 31) (S : List Byte) :
    AllNodes (fun x => WellFormedNode x ∧ TagBelow (2 ^ 49) x) (ASN1Object.mk 0 t false S []) := by
  rw [allNodes_mk]
  refine ⟨⟨⟨show (0 : Nat) < 4 by decide, fun _ => rfl,
    fun hk => by simp [ASN1Object.IsConstructed] at hk⟩, ?_⟩, by simp⟩
  have : (31 : Nat) < 2 ^ 49 := by norm_num
  simp only [TagBelow, ASN1Object.TagNumber]
  omega

/-! ## Claims C1 to C10 -/

/-- C1. Idempotence of MakeDER: whenever MakeDER succeeds on an input `I` with output `O`
(a byte slice, so shorter than `2 ^ 63`), MakeDER on `O` also succeeds and returns exactly
`O`. -/
theorem MakeDER_idempotent (I O : List Byte) (h : MakeDER I = .ok O)
    (hlen : O.length < 2 ^ 63) : MakeDER O = .ok O :=
  MakeDER_output_fixed h hlen

/-- Witness of C1 on the indefinite-length SEQUENCE `30 80 02 01 01 02 01 02 00 00`. -/
theorem MakeDER_idempotent_witness :
    MakeDER [0x30, 0x80, 0x02, 0x01, 0x01, 0x02, 0x01, 0x02, 0x00, 0x00]
        = .ok [0x30, 0x06, 0x02, 0x01, 0x01, 0x02, 0x01, 0x02] ∧
      MakeDER [0x30, 0x06, 0x02, 0x01, 0x01, 0x02, 0x01, 0x02]
        = .ok [0x30, 0x06, 0x02, 0x01, 0x01, 0x02, 0x01, 0x02] :=
  ⟨by rfl,
    MakeDER_idempotent [0x30, 0x80, 0x02, 0x01, 0x01, 0x02, 0x01, 0x02, 0x00, 0x00]
      [0x30, 0x06, 0x02, 0x01, 0x01, 0x02, 0x01, 0x02] (by rfl) (by decide)⟩

/-- C2 as stated fails: the Universal primitive element with tag number `2 ^ 49` and empty
content, written with minimal identifier octets and a minimal definite length, satisfies
every condition of the claim, and MakeDER rejects it with "tag number is too large". -/
theorem DER_fixed_point_counterexample :
    AllNodes (fun x => WellFormedNode x ∧ DERNode x) (ASN1Object.mk 0 (2 ^ 49) false [] []) ∧
      writeMinimal (ASN1Object.mk 0 (2 ^ 49) false [] [])
        = [0x1F, 0x81, 0x80, 0x80, 0x80, 0x80, 0x80, 0x80, 0x00, 0x00] ∧
      MakeDER [0x1F, 0x81, 0x80, 0x80, 0x80, 0x80, 0x80, 0x80, 0x00, 0x00]
        = .error .tagTooLarge ∧
      ¬ (∀ obj : ASN1Object, AllNodes (fun x => WellFormedNode x ∧ DERNode x) obj →
          (writeMinimal obj).length < 2 ^ 63 →
          MakeDER (writeMinimal obj) = .ok (writeMinimal obj)) := by
  have hnodes : AllNodes (fun x => WellFormedNode x ∧ DERNode x)
      (ASN1Object.mk 0 (2 ^ 49) false [] []) := by
    simp [AllNodes, AllNodesList, WellFormedNode, DERNode, ASN1Object.Class,
      ASN1Object.IsConstructed, ASN1Object.SubObjects, ASN1Object.Value,
      ASN1Object.TagNumber]
  have hw : writeMinimal (ASN1Object.mk 0 (2 ^ 49) false [] [])
      = [0x1F, 0x81, 0x80, 0x80, 0x80, 0x80, 0x80, 0x80, 0x00, 0x00] := by rfl
  have hm : MakeDER [0x1F, 0x81, 0x80, 0x80, 0x80, 0x80, 0x80, 0x80, 0x00, 0x00]
      = .error .tagTooLarge := by rfl
  refine ⟨hnodes, hw, hm, ?_⟩
  intro hall
  have h := hall (ASN1Object.mk 0 (2 ^ 49) false [] []) hnodes (by rw [hw]; decide)
  rw [hw, hm] at h
  cases h

/-- C2, amended. DER fixed point: the minimal writing (minimal identifier octets, minimal
definite lengths) of a tree in which every tag number is below `2 ^ 42`, no Universal
constructed element has tag 3, 4, 12, 18, 19, 20, 21, 22, 25, 26, 27, 28 or 30, the members
of every Universal constructed tag-17 element are in non-decreasing unsigned lexicographic
order of their encodings, and every one-byte primitive with (Universal, tag 1) or
(Context-specific, tag 1) holds 0x00 or 0xFF, is returned by MakeDER byte for byte. -/
theorem DER_fixed_point (obj : ASN1Object)
    (h : AllNodes (fun x => (WellFormedNode x ∧ DERNode x) ∧ TagBelow (2 ^ 42) x) obj)
    (hlen : (writeMinimal obj).length < 2 ^ 63) :
    MakeDER (writeMinimal obj) = .ok (writeMinimal obj) := by
  apply MakeDER_writeMinimal obj _ hlen
  apply allNodes_imp _ obj h
  intro o ho
  refine ⟨ho.1, ?_⟩
  have h2 := ho.2
  have : (2 : Nat) ^ 42 < 2 ^ 49 := by norm_num
  unfold TagBelow at h2 ⊢
  omega

/-- Witness of the amended C2 on `30 06 02 01 01 01 01 ff`, a SEQUENCE of an INTEGER and
a BOOLEAN. -/
theorem DER_fixed_point_witness :
    MakeDER (writeMinimal (ASN1Object.mk 0 16 true []
        [ASN1Object.mk 0 2 false [0x01] [], ASN1Object.mk 0 1 false [0xFF] []]))
      = .ok [0x30, 0x06, 0x02, 0x01, 0x01, 0x01, 0x01, 0xFF] :=
  DER_fixed_point (ASN1Object.mk 0 16 true []
      [ASN1Object.mk 0 2 false [0x01] [], ASN1Object.mk 0 1 false [0xFF] []])
    (by
      simp [AllNodes, AllNodesList, WellFormedNode, DERNode, TagBelow, IsFlattenTag, stringTags,
        ASN1Object.Class, ASN1Object.IsConstructed, ASN1Object.SubObjects, ASN1Object.Value,
        ASN1Object.TagNumber])
    (by decide)

/-- C3. Indefinite-length removal: for an identifier `T` with the constructed bit set and
child encodings `cs`, each accepted in full by parseElement and none beginning with two zero
octets, MakeDER of `T ‖ 0x80 ‖ cs ‖ 00 00` returns the same result as MakeDER of
`T ‖ L ‖ cs` for every definite-length field `L` of the total byte count of `cs`; a
successful output is an identifier, a minimal definite length (never the octet 0x80) and
exactly that many content octets, so it carries no end-of-contents octets. -/
theorem indefinite_length_removal (T : List Byte) (c t : Nat) (cs : List (List Byte))
    (L : List Byte)
    (hT : parseTag T 0 = .ok (c, t, true, T.length))
    (hcs : ∀ ci ∈ cs, (∃ o, parseElement ci 0 = .ok (o, ci.length)) ∧
      ∀ tl, ci ≠ 0x00 :: 0x00 :: tl)
    (hL : IsDefiniteLength L cs.flatten.length)
    (h1 : (T ++ [0x80] ++ cs.flatten ++ [0x00, 0x00]).length < 2 ^ 63)
    (h2 : (T ++ L ++ cs.flatten).length < 2 ^ 63) :
    MakeDER (T ++ [0x80] ++ cs.flatten ++ [0x00, 0x00]) = MakeDER (T ++ L ++ cs.flatten) ∧
      ∀ out, MakeDER (T ++ [0x80] ++ cs.flatten ++ [0x00, 0x00]) = .ok out →
        out.length < 2 ^ 63 →
        ∃ (r : ASN1Object) (content : List Byte),
          out = encodeTag r ++ encodeLength content.length ++ content ∧
          r.Class = c ∧ r.TagNumber = t ∧
          (encodeLength content.length).head? ≠ some 0x80 := by
  obtain ⟨items, hfst, hitems⟩ := @exists_items
    (fun ci o => parseElement ci 0 = .ok (o, ci.length) ∧ ∀ tl, ci ≠ 0x00 :: 0x00 :: tl) cs
    (fun ci hci => by
      obtain ⟨⟨o, ho⟩, hz⟩ := hcs ci hci
      exact ⟨o, ho, hz⟩)
  rw [← hfst] at hL h1 h2 ⊢
  have hp1 := parseElement_indefinite_form hT items hitems h1
  have hp2 := parseElement_definite_form hT items (fun it hit => (hitems it hit).1) hL h2
  rw [MakeDER_of_parse hp1, MakeDER_of_parse hp2]
  refine ⟨rfl, ?_⟩
  intro out hout hlen
  obtain ⟨r, content, hshape, hc, ht⟩ := encodeDER_shape _ hout
  refine ⟨r, content, hshape, hc, ht, ?_⟩
  apply encodeLength_head_ne_80
  have : content.length ≤ out.length := by
    rw [hshape]
    simp only [List.length_append]
    omega
  omega

/-- Witness of C3 on the SEQUENCE of the INTEGERs 1 and 2: `30 80 ... 00 00` against
`30 06 ...`. -/
theorem indefinite_length_removal_witness :
    MakeDER ([0x30] ++ [0x80] ++ [[0x02, 0x01, 0x01], [0x02, 0x01, 0x02]].flatten
        ++ [0x00, 0x00])
      = MakeDER ([0x30] ++ [0x06] ++ [[0x02, 0x01, 0x01], [0x02, 0x01, 0x02]].flatten) :=
  (indefinite_length_removal [0x30] 0 16 [[0x02, 0x01, 0x01], [0x02, 0x01, 0x02]] [0x06]
    (by rfl)
    (by
      intro ci hci
      simp only [List.mem_cons, List.mem_singleton, List.not_mem_nil, or_false] at hci
      rcases hci with rfl | rfl
      · exact ⟨⟨ASN1Object.mk 0 2 false [0x01] [], by rfl⟩, by intro tl h; cases h⟩
      · exact ⟨⟨ASN1Object.mk 0 2 false [0x02] [], by rfl⟩, by intro tl h; cases h⟩)
    (Or.inl ⟨by decide, by rfl⟩)
    (by decide) (by decide)).1

/-- The two encodings of a SET with permuted members, from the encodings of the members. -/
theorem encodeDER_set_perm_aux (v : List Byte) {subs subs2 : List ASN1Object}
    (hp : subs.Perm subs2) :
    (∃ out, encodeDER (ASN1Object.mk 0 17 true v subs) = .ok out ∧
        encodeDER (ASN1Object.mk 0 17 true v subs2) = .ok out) ∨
      (∃ e e2, encodeDER (ASN1Object.mk 0 17 true v subs) = .error e ∧
        encodeDER (ASN1Object.mk 0 17 true v subs2) = .error e2) := by
  have hkeep : ∀ l : List ASN1Object, encodeDER (ASN1Object.mk 0 17 true v l)
      = (encodeSubs encodeDER l).map (fun encs =>
          encodeTag (ASN1Object.mk 0 17 true v l)
            ++ encodeLength (sortSlice encs).flatten.length ++ (sortSlice encs).flatten) := by
    intro l
    rw [encodeDER_unfold, encodeDERStep_keep encodeDER (ASN1Object.mk 0 17 true v l) rfl
      (by
        rintro ⟨-, h⟩
        simp [IsFlattenTag, stringTags, ASN1Object.TagNumber] at h)]
    simp [constructedContent, ASN1Object.Class, ASN1Object.TagNumber, ASN1Object.SubObjects]
  rw [hkeep subs, hkeep subs2]
  cases hs : encodeSubs encodeDER subs with
  | ok encs =>
    obtain ⟨encs2, hperm, hF2⟩ := forall₂_perm (encodeSubs_ok_inv hs) hp
    rw [encodeSubs_ok hF2]
    refine Or.inl ⟨_, rfl, ?_⟩
    simp only [Except.map]
    rw [sortSlice_of_perm hperm.symm]
    rfl
  | error e =>
    obtain ⟨s, hsm, hse⟩ := encodeSubs_error hs
    obtain ⟨e2, he2⟩ := (encodeSubs_error_iff).mpr ⟨s, hp.subset hsm, e, hse⟩
    rw [he2]
    exact Or.inr ⟨e, e2, rfl, rfl⟩

/-- C4. SET determinism: for a Universal constructed tag-17 node and any permutation of its
list of children, encodeDER of the node with the permuted children returns exactly the same
bytes as with the original children, or it fails in both cases, each time with an error of
a flattener. -/
theorem encodeDER_set_permutation (v : List Byte) (subs subs2 : List ASN1Object)
    (hp : subs.Perm subs2) :
    (∃ out, encodeDER (ASN1Object.mk 0 17 true v subs) = .ok out ∧
        encodeDER (ASN1Object.mk 0 17 true v subs2) = .ok out) ∨
      (∃ e e2, encodeDER (ASN1Object.mk 0 17 true v subs) = .error e ∧
        encodeDER (ASN1Object.mk 0 17 true v subs2) = .error e2 ∧
        e.isFlattenError ∧ e2.isFlattenError) := by
  rcases encodeDER_set_perm_aux v hp with h | ⟨e, e2, h1, h2⟩
  · exact Or.inl h
  · exact Or.inr ⟨e, e2, h1, h2, encodeDER_error _ e h1, encodeDER_error _ e2 h2⟩

/-- Witness of C4 on the SET of INTEGER 5 and BOOLEAN TRUE in both orders. -/
theorem encodeDER_set_permutation_witness :
    (∃ out, encodeDER (ASN1Object.mk 0 17 true []
          [ASN1Object.mk 0 2 false [0x05] [], ASN1Object.mk 0 1 false [0x01] []]) = .ok out ∧
        encodeDER (ASN1Object.mk 0 17 true []
          [ASN1Object.mk 0 1 false [0x01] [], ASN1Object.mk 0 2 false [0x05] []]) = .ok out) ∨
      (∃ e e2, encodeDER (ASN1Object.mk 0 17 true []
          [ASN1Object.mk 0 2 false [0x05] [], ASN1Object.mk 0 1 false [0x01] []]) = .error e ∧
        encodeDER (ASN1Object.mk 0 17 true []
          [ASN1Object.mk 0 1 false [0x01] [], ASN1Object.mk 0 2 false [0x05] []]) = .error e2 ∧
        e.isFlattenError ∧ e2.isFlattenError) :=
  encodeDER_set_permutation []
    [ASN1Object.mk 0 2 false [0x05] [], ASN1Object.mk 0 1 false [0x01] []]
    [ASN1Object.mk 0 1 false [0x01] [], ASN1Object.mk 0 2 false [0x05] []]
    (List.Perm.swap _ _ _)

/-- C5. SET ordering: when the children of a node all encode successfully, the content
produced by encodeSetContent is the concatenation of a permutation of the children's own
DER encodings (the outputs of encodeDER, so already canonicalised) arranged in
non-decreasing unsigned lexicographic byte order; for a Universal constructed tag-17 node
this is the content that encodeDER writes after the identifier and the length. -/
theorem encodeSetContent_sorted (obj : ASN1Object) (encs : List (List Byte))
    (h : List.Forall₂ (fun s e => encodeDER s = .ok e) obj.SubObjects encs) :
    ∃ sorted : List (List Byte),
      encodeSetContent encodeDER obj = .ok sorted.flatten ∧
      sorted.Perm encs ∧
      sorted.Pairwise (fun a b => bytesCompare a b ≤ 0) ∧
      (obj.Class = 0 → obj.TagNumber = 17 → obj.IsConstructed = true →
        encodeDER obj
          = .ok (encodeTag obj ++ encodeLength sorted.flatten.length ++ sorted.flatten)) := by
  refine ⟨sortSlice encs, ?_, sortSlice_perm encs, sortSlice_pairwise encs, ?_⟩
  · unfold encodeSetContent
    rw [encodeSubs_ok h]
    simp [bind, Except.bind, concatAll_eq]
  · intro hc ht hk
    rw [encodeDER_unfold, encodeDERStep_keep encodeDER obj hk (by
      rintro ⟨-, hf⟩
      rw [ht] at hf
      simp [IsFlattenTag, stringTags] at hf), encodeSubs_ok h]
    simp [Except.map, constructedContent, hc, ht]

/-- Witness of C5 on the SET of INTEGER 5, BOOLEAN 0x01 and INTEGER 1, whose encodings
are `02 01 05`, `01 01 ff` and `02 01 01`. -/
theorem encodeSetContent_sorted_witness :
    ∃ sorted : List (List Byte),
      encodeSetContent encodeDER (ASN1Object.mk 0 17 true []
          [ASN1Object.mk 0 2 false [0x05] [], ASN1Object.mk 0 1 false [0x01] [],
            ASN1Object.mk 0 2 false [0x01] []]) = .ok sorted.flatten ∧
      sorted.Perm [[0x02, 0x01, 0x05], [0x01, 0x01, 0xFF], [0x02, 0x01, 0x01]] ∧
      sorted.Pairwise (fun a b => bytesCompare a b ≤ 0) ∧
      ((0 : Nat) = 0 → (17 : Nat) = 17 → true = true →
        encodeDER (ASN1Object.mk 0 17 true []
          [ASN1Object.mk 0 2 false [0x05] [], ASN1Object.mk 0 1 false [0x01] [],
            ASN1Object.mk 0 2 false [0x01] []])
          = .ok (encodeTag (ASN1Object.mk 0 17 true []
              [ASN1Object.mk 0 2 false [0x05] [], ASN1Object.mk 0 1 false [0x01] [],
                ASN1Object.mk 0 2 false [0x01] []])
            ++ encodeLength sorted.flatten.length ++ sorted.flatten)) :=
  encodeSetContent_sorted (ASN1Object.mk 0 17 true []
      [ASN1Object.mk 0 2 false [0x05] [], ASN1Object.mk 0 1 false [0x01] [],
        ASN1Object.mk 0 2 false [0x01] []])
    [[0x02, 0x01, 0x05], [0x01, 0x01, 0xFF], [0x02, 0x01, 0x01]]
    (.cons (by rfl) (.cons (by rfl) (.cons (by rfl) .nil)))

theorem toByte_ne_zero {t : Nat} (h0 : t ≠ 0) (h : t < 256) : toByte t ≠ 0 := by
  intro hz
  have := congrArg Fin.val hz
  rw [toByte_of_lt h] at this
  exact h0 this

theorem segmentsBody_eq_writeMinimalList {t : Nat} (h31 : t < 31) (segs : List (List Byte)) :
    writeMinimalList (segs.map (fun S => ASN1Object.mk 0 t false S [])) = segmentsBody t segs := by
  rw [writeMinimalList_eq, segmentsBody, List.map_map]
  congr 1
  apply List.map_congr_left
  intro S _
  exact writeMinimal_segment h31 S

/-- The three `MakeDER` results of the flatten equivalence. -/
theorem segments_flatten_main {t : Nat} (ht : t = 4 ∨ t ∈ stringTags)
    (segs : List (List Byte)) (hsz : (segmentsBody t segs).length + 16 < 2 ^ 63) :
    MakeDER (toByte (0x20 ||| t)
        :: (encodeLength (segmentsBody t segs).length ++ segmentsBody t segs))
      = .ok (segmentElement t segs.flatten) ∧
    MakeDER (toByte (0x20 ||| t) :: 0x80 :: (segmentsBody t segs ++ [0x00, 0x00]))
      = .ok (segmentElement t segs.flatten) ∧
    MakeDER (segmentElement t segs.flatten) = .ok (segmentElement t segs.flatten) := by
  obtain ⟨h31, h1, h0⟩ := flattenTag_lt ht
  have hle : segs.flatten.length ≤ (segmentsBody t segs).length := segments_length_le t segs
  obtain ⟨henc, hprim⟩ := segments_flatten_aux ht segs (by omega)
  have hbl := encodeLength_length_le (n := (segmentsBody t segs).length) (by omega)
  have h249 : (31 : Nat) < 2 ^ 49 := by norm_num
  refine ⟨?_, ?_, hprim⟩
  · -- the definite form is the minimal writing of the constructed tree
    have hw : writeMinimal
        (ASN1Object.mk 0 t true [] (segs.map (fun S => ASN1Object.mk 0 t false S [])))
        = toByte (0x20 ||| t)
          :: (encodeLength (segmentsBody t segs).length ++ segmentsBody t segs) := by
      rw [writeMinimal_mk, encodeTag_universal_short h31]
      simp [segmentsBody_eq_writeMinimalList h31]
    have hnodes : AllNodes (fun x => WellFormedNode x ∧ TagBelow (2 ^ 49) x)
        (ASN1Object.mk 0 t true [] (segs.map (fun S => ASN1Object.mk 0 t false S []))) := by
      rw [allNodes_mk]
      refine ⟨⟨⟨show (0 : Nat) < 4 by decide,
        fun hk => by simp [ASN1Object.IsConstructed] at hk, fun _ => rfl⟩, ?_⟩, ?_⟩
      · simp only [TagBelow, ASN1Object.TagNumber]
        omega
      · intro s hs
        obtain ⟨S, -, rfl⟩ := List.mem_map.mp hs
        exact segment_nodes h31 S
    have hlen : (writeMinimal
        (ASN1Object.mk 0 t true [] (segs.map (fun S => ASN1Object.mk 0 t false S [])))).length
        < 2 ^ 63 := by
      rw [hw]
      simp only [List.length_cons, List.length_append]
      omega
    have hp := parseElement_writeMinimal _ hnodes hlen
    rw [← hw, MakeDER_of_parse hp]
    exact henc
  · -- the indefinite form
    have hT : parseTag [toByte (0x20 ||| t)] 0 = .ok (0, t, true, [toByte (0x20 ||| t)].length) := by
      have := parseTag_encodeTag 0 t true [] [] (by decide) (by omega)
      rw [encodeTag_universal_short h31] at this
      simpa using this
    have hitems : ∀ it ∈ segs.map (fun S => (segmentElement t S, ASN1Object.mk 0 t false S [])),
        parseElement it.1 0 = .ok (it.2, it.1.length) ∧ ∀ tl, it.1 ≠ 0 :: 0 :: tl := by
      intro it hit
      obtain ⟨S, hS, rfl⟩ := List.mem_map.mp hit
      have hw := writeMinimal_segment h31 S
      have hSlen : (writeMinimal (ASN1Object.mk 0 t false S [])).length < 2 ^ 63 := by
        have hm : (segmentElement t S).length ≤ (segmentsBody t segs).length :=
          length_le_flatten_of_mem (List.mem_map_of_mem _ hS)
        rw [hw]
        unfold segmentElement at hm
        omega
      refine ⟨?_, ?_⟩
      · have := parseElement_writeMinimal _ (segment_nodes h31 S) hSlen
        rw [hw] at this
        exact this
      · intro tl h
        unfold segmentElement at h
        simp only [List.cons.injEq] at h
        exact toByte_ne_zero h0 (by omega) h.1
    have hfst : ((segs.map (fun S => (segmentElement t S, ASN1Object.mk 0 t false S []))).map
        Prod.fst).flatten = segmentsBody t segs := by
      rw [List.map_map]
      rfl
    have hsnd : (segs.map (fun S => (segmentElement t S, ASN1Object.mk 0 t false S []))).map
        Prod.snd = segs.map (fun S => ASN1Object.mk 0 t false S []) := by
      rw [List.map_map]
      rfl
    have hp := parseElement_indefinite_form hT _ hitems (by
      rw [hfst]
      simp only [List.length_append, List.length_cons, List.length_nil]
      omega)
    rw [hfst, hsnd] at hp
    have hform : toByte (0x20 ||| t) :: 0x80 :: (segmentsBody t segs ++ [0x00, 0x00])
        = [toByte (0x20 ||| t)] ++ [0x80] ++ segmentsBody t segs ++ [0x00, 0x00] := by simp
    rw [hform, MakeDER_of_parse hp]
    exact henc

/-- C6. Flatten equivalence for OCTET STRING and restricted character strings: for every
Universal tag `t` in {4, 12, 18, 19, 20, 21, 22, 25, 26, 27, 28, 30} and every list of
segments, MakeDER of the constructed form of tag `t` (with a definite length, and also with
the indefinite length) whose children are the Universal primitive tag-`t` elements holding
the segments returns the same bytes as MakeDER of the single primitive tag-`t` element
holding the concatenation of the segments: tag octet `t`, the minimal length of the
concatenation, and the concatenation. -/
theorem flatten_equivalence (t : Nat) (segs : List (List Byte))
    (ht : t ∈ [4, 12, 18, 19, 20, 21, 22, 25, 26, 27, 28, 30])
    (hsz : (segmentsBody t segs).length + 16 < 2 ^ 63) :
    MakeDER (toByte (0x20 ||| t)
        :: (encodeLength (segmentsBody t segs).length ++ segmentsBody t segs))
      = .ok (toByte t :: (encodeLength segs.flatten.length ++ segs.flatten)) ∧
    MakeDER (toByte (0x20 ||| t) :: 0x80 :: (segmentsBody t segs ++ [0x00, 0x00]))
      = .ok (toByte t :: (encodeLength segs.flatten.length ++ segs.flatten)) ∧
    MakeDER (toByte t :: (encodeLength segs.flatten.length ++ segs.flatten))
      = .ok (toByte t :: (encodeLength segs.flatten.length ++ segs.flatten)) := by
  have ht2 : t = 4 ∨ t ∈ stringTags := by
    simp only [List.mem_cons, List.mem_singleton, List.not_mem_nil, or_false] at ht
    simp only [stringTags, List.mem_cons, List.mem_singleton, List.not_mem_nil, or_false]
    exact ht
  exact segments_flatten_main ht2 segs hsz

/-- Witness of C6 on the OCTET STRING segments `ab cd` and `ef 01`
(`24 08 04 02 ab cd 04 02 ef 01` gives `04 04 ab cd ef 01`). -/
theorem flatten_equivalence_witness :
    MakeDER [0x24, 0x08, 0x04, 0x02, 0xAB, 0xCD, 0x04, 0x02, 0xEF, 0x01]
      = .ok [0x04, 0x04, 0xAB, 0xCD, 0xEF, 0x01] :=
  (flatten_equivalence 4 [[0xAB, 0xCD], [0xEF, 0x01]] (by decide) (by decide)).1

/-- C7. BIT STRING flattening: for a non-empty list of Universal primitive BIT STRING
children with contents `u1 ‖ d1`, ..., `un ‖ dn` in which `u1`, ..., `u(n-1)` are all zero,
flattenBitString on the parent succeeds and yields a primitive node with no children whose
content is `un ‖ d1 ‖ ... ‖ dn`; so does flattenConstructedType on the Universal
constructed tag-3 parent. -/
theorem flattenBitString_chunks (c t : Nat) (k : Bool) (v : List Byte)
    (chunks : List (Byte × List Byte)) (hne : chunks ≠ [])
    (hz : ∀ p ∈ chunks.dropLast, p.1 = 0) :
    flattenBitString (ASN1Object.mk c t k v (chunks.map bitStringChunk))
        = .ok (ASN1Object.mk c t false
            ((chunks.getLast hne).1 :: (chunks.map Prod.snd).flatten) []) ∧
      flattenConstructedType (ASN1Object.mk 0 3 true v (chunks.map bitStringChunk))
        = .ok (ASN1Object.mk 0 3 false
            ((chunks.getLast hne).1 :: (chunks.map Prod.snd).flatten) []) := by
  have hloop := flattenBitStringLoop_chunks chunks.length chunks 0 [] 0 (by omega) hz
  have hlast : (chunks.getLast?.map Prod.fst).getD 0 = (chunks.getLast hne).1 := by
    rw [List.getLast?_eq_getLast _ hne]
    rfl
  rw [hlast] at hloop
  have hfb : ∀ (c2 t2 : Nat) (k2 : Bool),
      flattenBitString (ASN1Object.mk c2 t2 k2 v (chunks.map bitStringChunk))
        = .ok (ASN1Object.mk c2 t2 false
            ((chunks.getLast hne).1 :: (chunks.map Prod.snd).flatten) []) := by
    intro c2 t2 k2
    unfold flattenBitString
    simp only [ASN1Object.SubObjects, List.length_map, hloop, bind, Except.bind,
      ASN1Object.Class, ASN1Object.TagNumber, List.nil_append, List.singleton_append]
  refine ⟨hfb c t k, ?_⟩
  unfold flattenConstructedType
  simp only [ASN1Object.TagNumber, if_true]
  exact hfb 0 3 true

/-- Witness of C7 on the chunks `00 ab` and `04 cd`. -/
theorem flattenBitString_chunks_witness :
    flattenConstructedType (ASN1Object.mk 0 3 true []
        [ASN1Object.mk 0 3 false [0x00, 0xAB] [], ASN1Object.mk 0 3 false [0x04, 0xCD] []])
      = .ok (ASN1Object.mk 0 3 false [0x04, 0xAB, 0xCD] []) :=
  (flattenBitString_chunks 0 3 true [] [(0x00, [0xAB]), (0x04, [0xCD])] (by simp)
    (by simp [List.dropLast])).2

set_option maxRecDepth 100000 in
/-- C8. BOOLEAN normalization: for every byte `b` and for the identifier octet 0x01
(Universal, tag 1, primitive) or 0x81 (Context-specific, tag 1, primitive), MakeDER of the
three-byte input (identifier, 0x01, `b`) succeeds and returns (identifier, 0x01, 0x00) if
`b` is 0x00 and (identifier, 0x01, 0xFF) otherwise. -/
theorem MakeDER_boolean_normalization : ∀ b : Byte,
    MakeDER [0x01, 0x01, b] = .ok [0x01, 0x01, if b = 0x00 then 0x00 else 0xFF] ∧
      MakeDER [0x81, 0x01, b] = .ok [0x81, 0x01, if b = 0x00 then 0x00 else 0xFF] := by
  decide

/-- C9. Minimal length emission: for every length `n` of a Go `int` (`n < 2 ^ 63`),
encodeLength `n` is the single byte `n` when `n < 128`, and otherwise the octet `0x80 | N`
followed by exactly `N` octets (at most eight) that are the big-endian unsigned value of `n`
with a non-zero first octet; the first emitted octet is never 0x80; and
127 gives `7f`, 128 gives `81 80`, 255 gives `81 ff`, 256 gives `82 01 00`. -/
theorem encodeLength_minimal (n : Nat) (hn : n < 2 ^ 63) :
    (n < 128 → encodeLength n = [toByte n] ∧ (toByte n).val = n) ∧
      (128 ≤ n → ∃ ds : List Byte, encodeLength n = toByte (0x80 ||| ds.length) :: ds ∧
        (toByte (0x80 ||| ds.length)).val = 0x80 + ds.length ∧
        1 ≤ ds.length ∧ ds.length ≤ 8 ∧ beValue ds = n ∧ ∃ d r, ds = d :: r ∧ d ≠ 0) ∧
      (encodeLength n).head? ≠ some 0x80 ∧
      encodeLength 127 = [0x7F] ∧ encodeLength 128 = [0x81, 0x80] ∧
      encodeLength 255 = [0x81, 0xFF] ∧ encodeLength 256 = [0x82, 0x01, 0x00] := by
  refine ⟨?_, ?_, encodeLength_head_ne_80 hn, by rfl, by rfl, by rfl, by rfl⟩
  · intro h
    exact ⟨encodeLength_short h, toByte_of_lt (by omega)⟩
  · intro h
    obtain ⟨ds, h1, h2, h3, h4, h5⟩ := encodeLength_long h hn
    have hval : ∀ m : Nat, m ≤ 8 → (toByte (0x80 ||| m)).val = 0x80 + m := by decide
    exact ⟨ds, h1, hval _ h3, h2, h3, h4, h5⟩

/-- Witness of C9 at the length 65536, which takes three length octets. -/
theorem encodeLength_minimal_witness :
    (65536 : Nat) < 2 ^ 63 ∧ encodeLength 65536 = [0x83, 0x01, 0x00, 0x00] ∧
      (encodeLength 65536).head? ≠ some 0x80 :=
  ⟨by decide, by rfl, (encodeLength_minimal 65536 (by decide)).2.2.1⟩

/-- C10. Tag emission: for a node with class `c` in {0, 1, 2, 3}, constructed flag `k` and
tag number `n`, encodeTag returns the single octet `(c << 6) | (0x20 if k) | n` when
`n < 31`, and otherwise the octet `(c << 6) | (0x20 if k) | 0x1F` followed by the base-128
big-endian digits of `n`, the first digit non-zero, with the high bit set on every digit
octet except the last; tag number 30 takes one octet and 31 takes two. -/
theorem encodeTag_emission (c n : Nat) (k : Bool) (v : List Byte) (subs : List ASN1Object)
    (hc : c < 4) :
    (n < 31 → encodeTag (ASN1Object.mk c n k v subs)
          = [toByte ((c <<< 6) ||| (if k then 0x20 else 0) ||| n)] ∧
        (toByte ((c <<< 6) ||| (if k then 0x20 else 0) ||| n)).val
          = (c <<< 6) ||| (if k then 0x20 else 0) ||| n) ∧
      (31 ≤ n → ∃ os : List Byte,
        encodeTag (ASN1Object.mk c n k v subs)
          = toByte ((c <<< 6) ||| (if k then 0x20 else 0) ||| 0x1F) :: os ∧
        (toByte ((c <<< 6) ||| (if k then 0x20 else 0) ||| 0x1F)).val
          = (c <<< 6) ||| (if k then 0x20 else 0) ||| 0x1F ∧
        ContinuationMarked os ∧ tagValue os = n ∧ ∃ e s, os = e :: s ∧ e.val % 128 ≠ 0) ∧
      (encodeTag (ASN1Object.mk c 30 k v subs)).length = 1 ∧
      (encodeTag (ASN1Object.mk c 31 k v subs)).length = 2 := by
  have hval : ∀ c : Nat, c < 4 → ∀ k : Bool, ∀ n : Nat, n < 32 →
      (toByte ((c <<< 6) ||| (if k then 0x20 else 0) ||| n)).val
        = (c <<< 6) ||| (if k then 0x20 else 0) ||| n := by decide
  refine ⟨fun h => ⟨encodeTag_short c n k v subs hc h, hval c hc k n (by omega)⟩, ?_, ?_, ?_⟩
  · intro h
    obtain ⟨os, h1, h2, h3, h4, -⟩ := encodeTag_long c n k v subs hc h
    exact ⟨os, h1, hval c hc k 0x1F (by decide), h2, h3, h4⟩
  · rw [encodeTag_short c 30 k v subs hc (by decide)]
    rfl
  · obtain ⟨os, h1, h2, -, -, h5⟩ := encodeTag_long c 31 k v subs hc (by decide)
    have hle : os.length ≤ 1 := h5 1 (by decide) (by decide)
    have hpos : os ≠ [] := by
      intro hnil
      rw [hnil] at h2
      exact h2
    have : 0 < os.length := List.length_pos.mpr hpos
    rw [h1]
    simp only [List.length_cons]
    omega

/-- Witness of C10 at the Context-specific constructed tag number 200 (`bf 81 48`). -/
theorem encodeTag_emission_witness :
    (2 : Nat) < 4 ∧ encodeTag (ASN1Object.mk 2 200 true [] []) = [0xBF, 0x81, 0x48] ∧
      (encodeTag (ASN1Object.mk 2 30 true [] [])).length = 1 ∧
      (encodeTag (ASN1Object.mk 2 31 true [] [])).length = 2 :=
  ⟨by decide, by rfl, (encodeTag_emission 2 200 true [] [] (by decide)).2.2⟩

/-! ## Identifier and length fields in front of arbitrary octets -/

theorem parseTag_encodeTag_append (c t : Nat) (k : Bool) (v : List Byte)
    (subs : List ASN1Object) (rest : List Byte) (hc : c < 4) (ht : t < 2 ^ 49) :
    parseTag (encodeTag (ASN1Object.mk c t k v subs) ++ rest) 0
      = .ok (c, t, k, (encodeTag (ASN1Object.mk c t k v subs)).length) := by
  have h := (parseTag_frame [] rest (parseTag_encodeTag c t k v subs hc ht)).2.2.2.2
  simpa using h

/-- The primitive form: identifier, a definite-length field, the content octets. -/
theorem parseElement_primitive_form {T L C : List Byte} {c t : Nat}
    (hT : parseTag T 0 = .ok (c, t, false, T.length))
    (hL : IsDefiniteLength L C.length) (hlen : (T ++ L ++ C).length < 2 ^ 63) :
    parseElement (T ++ L ++ C) 0 = .ok (ASN1Object.mk c t false C [], (T ++ L ++ C).length) := by
  generalize hdata : T ++ L ++ C = data at *
  have hTb := parseTag_frame [] [] hT
  have hTpos : 1 ≤ T.length := by omega
  have hdl : data.length = T.length + L.length + C.length := by
    rw [← hdata]
    simp only [List.length_append]
  have hn : C.length < 2 ^ 63 := by omega
  have hT1 : parseTag data 0 = .ok (c, t, false, T.length) := by
    have := (parseTag_frame [] (L ++ C) hT).2.2.2.2
    rw [← hdata]
    simpa [List.append_assoc] using this
  have hL1 : parseLength data T.length = .ok ((C.length : Int), (T ++ L).length) := by
    have := (parseLength_frame T C (parseLength_definite hL hn)).2.2
    rw [← hdata]
    simpa using this
  have hneg : ¬ ((C.length : Int) = -1) := by omega
  have hw : wrapInt ((((T ++ L).length : Nat) : Int) + (C.length : Int))
      = ((data.length : Nat) : Int) := by
    rw [wrapInt_of_range]
    · rw [hdl]
      simp only [List.length_append]
      push_cast
      ring
    · positivity
    · have : ((data.length : Nat) : Int) < 2 ^ 63 := by exact_mod_cast hlen
      rw [hdl] at this
      simp only [List.length_append]
      push_cast at this ⊢
      omega
  have hchk : ¬ (((data.length : Nat) : Int) > (data.length : Int)) := by omega
  have hs : slice data (T ++ L).length ((data.length : Nat) : Int) = .ok C := by
    unfold slice
    have hcnd : (((T ++ L).length : Nat) : Int) ≤ ((data.length : Nat) : Int) ∧
        ((data.length : Nat) : Int) ≤ ((data.length : Nat) : Int) := by
      rw [hdl]
      simp only [List.length_append]
      push_cast
      omega
    simp only [hcnd, and_self, if_true, Except.ok.injEq, Int.toNat_ofNat]
    rw [← hdata, List.drop_left]
    have : (T ++ L ++ C).length - (T ++ L).length = C.length := by
      simp only [List.length_append]
      omega
    rw [this, List.take_length]
  unfold parseElement
  rw [parseElementF_of_definite (by omega) hT1 hL1 hneg]
  unfold parseDefiniteContent
  rw [hw]
  simp only [hchk, if_false, Bool.false_eq_true, hs, bind, Except.bind, Except.map,
    Int.toNat_ofNat]

/-- The encoder on a primitive node whose content is not a one-byte BOOLEAN. -/
theorem encodeDER_primitive_plain (c t : Nat) (C : List Byte) (subs : List ASN1Object)
    (hbool : ¬ (C.length = 1 ∧ (c = 0 ∨ c = 2) ∧ t = 1)) :
    encodeDER (ASN1Object.mk c t false C subs)
      = .ok (encodeTag (ASN1Object.mk c t false C subs) ++ encodeLength C.length ++ C) := by
  have hcontent : encodePrimitiveContent (ASN1Object.mk c t false C subs) = C := by
    apply @encodePrimitiveContent_of_normal (ASN1Object.mk c t false C subs)
    intro hcl htag b hb
    simp only [ASN1Object.Value] at hb
    simp only [ASN1Object.Class] at hcl
    simp only [ASN1Object.TagNumber] at htag
    exact absurd ⟨by rw [hb]; rfl, hcl, htag⟩ hbool
  rw [encodeDER_unfold,
    encodeDERStep_primitive encodeDER (ASN1Object.mk c t false C subs) rfl, hcontent]

/-- MakeDER on a primitive element with any definite-length field. -/
theorem MakeDER_primitive_form (c t : Nat) (L C : List Byte) (hc : c < 4) (ht : t < 2 ^ 49)
    (hL : IsDefiniteLength L C.length)
    (hbool : ¬ (C.length = 1 ∧ (c = 0 ∨ c = 2) ∧ t = 1))
    (hlen : (encodeTag (ASN1Object.mk c t false [] []) ++ L ++ C).length < 2 ^ 63) :
    MakeDER (encodeTag (ASN1Object.mk c t false [] []) ++ L ++ C)
      = .ok (encodeTag (ASN1Object.mk c t false [] []) ++ encodeLength C.length ++ C) := by
  have hT := parseTag_encodeTag c t false [] [] hc ht
  rw [MakeDER_of_parse (parseElement_primitive_form hT hL hlen),
    encodeDER_primitive_plain c t C [] hbool]
  rfl

/-- MakeDER on an element followed by further octets. -/
theorem MakeDER_trailing {E X : List Byte} {o : ASN1Object}
    (hE : parseElement E 0 = .ok (o, E.length)) (hX : X ≠ [])
    (hlen : (E ++ X).length < 2 ^ 63) :
    parseElement (E ++ X) 0 = .ok (o, E.length) ∧ MakeDER (E ++ X) = .error .extraData := by
  have hb := (parseElementF_frame _ _ _ _ _ hE).1
  have hp : parseElement (E ++ X) 0 = .ok (o, E.length) := by
    have := (parseElementF_frame _ _ _ _ _ hE).2.2.2 [] X ((E ++ X).length + 1)
      (by simp only [List.length_append]; omega) (by simpa using hlen)
    unfold parseElement
    simpa using this
  refine ⟨hp, ?_⟩
  have hXpos : 0 < X.length := List.length_pos.mpr hX
  have hne : ¬ ((E ++ X).length = 0) := by
    simp only [List.length_append]; omega
  have hne2 : E.length ≠ (E ++ X).length := by
    simp only [List.length_append]; omega
  unfold MakeDER
  simp only [hne, if_false, hp, bind, Except.bind, ne_eq, hne2, not_false_eq_true, if_true]

/-! ## Claims C11 to C16 -/

/-- C11. Tag round trip: for every class `c` in {0, 1, 2, 3}, constructed flag `k`, tag
number `n` below `2 ^ 42` and every byte sequence `rest`, parseTag on
`encodeTag {c, n, k} ‖ rest` at position 0 succeeds and returns `(c, n, k)` with the new
position equal to the length of the output of encodeTag. -/
theorem parseTag_encodeTag_roundtrip (c n : Nat) (k : Bool) (v : List Byte)
    (subs : List ASN1Object) (rest : List Byte) (hc : c < 4) (hn : n < 2 ^ 42) :
    parseTag (encodeTag (ASN1Object.mk c n k v subs) ++ rest) 0
      = .ok (c, n, k, (encodeTag (ASN1Object.mk c n k v subs)).length) := by
  apply parseTag_encodeTag_append c n k v subs rest hc
  have : (2 : Nat) ^ 42 < 2 ^ 49 := by norm_num
  omega

/-- Witness of C11 at the Context-specific constructed tag number 200, followed by the
octets `03 02 01 05`. -/
theorem parseTag_encodeTag_roundtrip_witness :
    encodeTag (ASN1Object.mk 2 200 true [] []) = [0xBF, 0x81, 0x48] ∧
      parseTag (encodeTag (ASN1Object.mk 2 200 true [] []) ++ [0x03, 0x02, 0x01, 0x05]) 0
        = .ok (2, 200, true, 3) :=
  ⟨by rfl,
    parseTag_encodeTag_roundtrip 2 200 true [] [] [0x03, 0x02, 0x01, 0x05] (by decide)
      (by decide)⟩

/-- C12 as stated fails on the identifier. The minimal identifier of tag number `2 ^ 49`
followed by the long-form length `81 00` is rejected with "tag number is too large"; and
the identifier `1f 05`, which parseTag accepts as (Universal, primitive, tag 5), followed by
`81 00` is answered with `05 00`, which does not begin with `1f 05`. -/
theorem nonminimal_length_counterexample :
    encodeTag (ASN1Object.mk 0 (2 ^ 49) false [] [])
        = [0x1F, 0x81, 0x80, 0x80, 0x80, 0x80, 0x80, 0x80, 0x00] ∧
      MakeDER ([0x1F, 0x81, 0x80, 0x80, 0x80, 0x80, 0x80, 0x80, 0x00] ++ [0x81, 0x00] ++ [])
        = .error .tagTooLarge ∧
      parseTag [0x1F, 0x05] 0 = .ok (0, 5, false, 2) ∧
      MakeDER ([0x1F, 0x05] ++ [0x81, 0x00] ++ []) = .ok [0x05, 0x00] ∧
      MakeDER ([0x1F, 0x05] ++ [0x81, 0x00] ++ [])
        ≠ .ok ([0x1F, 0x05] ++ encodeLength 0 ++ []) ∧
      ¬ (∀ (c t : Nat) (ds C : List Byte), c < 4 → 1 ≤ ds.length → ds.length ≤ 127 →
          beValue ds = C.length →
          ¬ (C.length = 1 ∧ (c = 0 ∨ c = 2) ∧ t = 1) →
          MakeDER (encodeTag (ASN1Object.mk c t false [] [])
              ++ (toByte (0x80 ||| ds.length) :: ds) ++ C)
            = .ok (encodeTag (ASN1Object.mk c t false [] []) ++ encodeLength C.length ++ C)) := by
  have h1 : encodeTag (ASN1Object.mk 0 (2 ^ 49) false [] [])
      = [0x1F, 0x81, 0x80, 0x80, 0x80, 0x80, 0x80, 0x80, 0x00] := by rfl
  have h2 : MakeDER ([0x1F, 0x81, 0x80, 0x80, 0x80, 0x80, 0x80, 0x80, 0x00] ++ [0x81, 0x00]
      ++ []) = .error .tagTooLarge := by rfl
  refine ⟨h1, h2, by rfl, by rfl, by decide, ?_⟩
  intro hall
  have h := hall 0 (2 ^ 49) [0x00] [] (by decide) (by decide) (by decide) (by rfl)
    (by decide)
  rw [h1] at h
  have h3 : (toByte (0x80 ||| [(0x00 : Byte)].length) :: [(0x00 : Byte)]) = [0x81, 0x00] := by
    rfl
  rw [h3, h2] at h
  cases h

/-- C12, amended. Non-minimal input lengths are accepted and minimized: for every primitive
identifier `T` in minimal form (as encodeTag writes it) with a class in {0, 1, 2, 3} and a
tag number below `2 ^ 42`, every content `C` of `n` bytes (other than a one-byte content
under a Universal or Context-specific tag 1), and every long-form length field that encodes
`n` in 1 to 127 octets with any number of leading zero octets (including long form used for
`n < 128`), MakeDER of `T ‖ length field ‖ C` succeeds and returns
`T ‖ encodeLength(n) ‖ C`. -/
theorem nonminimal_length_minimized (c t : Nat) (ds C : List Byte) (hc : c < 4)
    (ht : t < 2 ^ 42) (h1 : 1 ≤ ds.length) (h127 : ds.length ≤ 127)
    (hv : beValue ds = C.length)
    (hbool : ¬ (C.length = 1 ∧ (c = 0 ∨ c = 2) ∧ t = 1))
    (hlen : (encodeTag (ASN1Object.mk c t false [] [])
      ++ (toByte (0x80 ||| ds.length) :: ds) ++ C).length < 2 ^ 63) :
    MakeDER (encodeTag (ASN1Object.mk c t false [] [])
        ++ (toByte (0x80 ||| ds.length) :: ds) ++ C)
      = .ok (encodeTag (ASN1Object.mk c t false [] []) ++ encodeLength C.length ++ C) := by
  have ht2 : t < 2 ^ 49 := by
    have : (2 : Nat) ^ 42 < 2 ^ 49 := by norm_num
    omega
  exact MakeDER_primitive_form c t _ C hc ht2 (Or.inr ⟨ds, h1, h127, hv, rfl⟩) hbool hlen

/-- Witness of the amended C12 on the INTEGER content `05` with the length field
`83 00 00 01`. -/
theorem nonminimal_length_minimized_witness :
    MakeDER [0x02, 0x83, 0x00, 0x00, 0x01, 0x05] = .ok [0x02, 0x01, 0x05] :=
  nonminimal_length_minimized 0 2 [0x00, 0x00, 0x01] [0x05] (by decide) (by decide)
    (by decide) (by decide) (by rfl) (by decide) (by decide)

/-- C13. Trailing garbage is rejected: for every byte sequence `E` on which parseElement at
position 0 succeeds having consumed all of `E`, and every non-empty byte sequence `X`
(with `E ‖ X` a byte slice, so shorter than `2 ^ 63`), parsing `E ‖ X` consumes exactly
the bytes of `E` for the first element and MakeDER of `E ‖ X` returns the error
"extra data found after parsing ASN.1 structure" and no bytes. -/
theorem MakeDER_trailing_garbage (E X : List Byte) (o : ASN1Object)
    (hE : parseElement E 0 = .ok (o, E.length)) (hX : X ≠ [])
    (hlen : (E ++ X).length < 2 ^ 63) :
    parseElement (E ++ X) 0 = .ok (o, E.length) ∧ MakeDER (E ++ X) = .error .extraData :=
  MakeDER_trailing hE hX hlen

/-- Witness of C13 on `02 01 05` followed by `ff`. -/
theorem MakeDER_trailing_garbage_witness :
    parseElement ([0x02, 0x01, 0x05] ++ [0xFF]) 0
        = .ok (ASN1Object.mk 0 2 false [0x05] [], 3) ∧
      MakeDER ([0x02, 0x01, 0x05] ++ [0xFF]) = .error .extraData :=
  MakeDER_trailing_garbage [0x02, 0x01, 0x05] [0xFF] (ASN1Object.mk 0 2 false [0x05] [])
    (by rfl) (by simp) (by decide)

set_option maxRecDepth 100000 in
/-- C14, failing input. On the ten bytes `04 88 7f ff ff ff ff ff ff ff` parseLength returns
the length `2 ^ 63 - 1` at position 10, where no byte remains; the sum `pos+length` wraps to
a negative `int`, the test `pos+length > len(data)` does not fire, and the slice expression
of the primitive branch panics, in parseDefiniteContent and so in MakeDER. -/
theorem parseDefiniteContent_overflow :
    parseLength [0x04, 0x88, 0x7F, 0xFF, 0xFF, 0xFF, 0xFF, 0xFF, 0xFF, 0xFF] 1
        = .ok (9223372036854775807, 10) ∧
      (9223372036854775807 : Int)
        > (([0x04, 0x88, 0x7F, 0xFF, 0xFF, 0xFF, 0xFF, 0xFF, 0xFF, 0xFF] : List Byte).length
            : Int) - 10 ∧
      wrapInt (10 + 9223372036854775807) = -9223372036854775799 ∧
      parseDefiniteContent (parseElementF 10)
          [0x04, 0x88, 0x7F, 0xFF, 0xFF, 0xFF, 0xFF, 0xFF, 0xFF, 0xFF] 10
          9223372036854775807 false = .error .slicePanic ∧
      MakeDER [0x04, 0x88, 0x7F, 0xFF, 0xFF, 0xFF, 0xFF, 0xFF, 0xFF, 0xFF]
        = .error .slicePanic :=
  ⟨by rfl, by decide, by rfl, by rfl, by rfl⟩

set_option maxRecDepth 100000 in
/-- C15, failing input. On `04 88 ff ff ff ff ff ff ff ff` the length octet is 0x88, not
0x80, and parseLength returns -1, the indefinite sentinel, so that MakeDER reports an
indefinite length on a primitive; with a last octet `fe` the returned length is -2, and on
`04 89 01 00 00 00 00 00 00 00 00` the nine octets have the value `2 ^ 64` and the returned
length is 0. -/
theorem parseLength_overflow :
    index [0x04, 0x88, 0xFF, 0xFF, 0xFF, 0xFF, 0xFF, 0xFF, 0xFF, 0xFF] 1 = .ok 0x88 ∧
      parseLength [0x04, 0x88, 0xFF, 0xFF, 0xFF, 0xFF, 0xFF, 0xFF, 0xFF, 0xFF] 1
        = .ok (-1, 10) ∧
      MakeDER [0x04, 0x88, 0xFF, 0xFF, 0xFF, 0xFF, 0xFF, 0xFF, 0xFF, 0xFF]
        = .error (.indefinitePrimitive 0 4) ∧
      parseLength [0x04, 0x88, 0xFF, 0xFF, 0xFF, 0xFF, 0xFF, 0xFF, 0xFF, 0xFE] 1
        = .ok (-2, 10) ∧
      beValue [0x01, 0x00, 0x00, 0x00, 0x00, 0x00, 0x00, 0x00, 0x00] = 2 ^ 64 ∧
      parseLength [0x04, 0x89, 0x01, 0x00, 0x00, 0x00, 0x00, 0x00, 0x00, 0x00, 0x00] 1
        = .ok (0, 11) :=
  ⟨by rfl, by rfl, by rfl, by rfl, by rfl, by rfl⟩

/-- C16, failing input. On `1f 81 80 80 80 80 80 00` the long-form tag number uses seven
tag-number octets and parseTag succeeds with the tag number `2 ^ 42`; the largest accepted
tag number is `2 ^ 49 - 1`, and MakeDER returns such an element unchanged. -/
theorem parseTag_seven_octets :
    parseTag [0x1F, 0x81, 0x80, 0x80, 0x80, 0x80, 0x80, 0x00, 0x00] 0
        = .ok (0, 2 ^ 42, false, 8) ∧
      parseTag [0x1F, 0xFF, 0xFF, 0xFF, 0xFF, 0xFF, 0xFF, 0x7F, 0x00] 0
        = .ok (0, 2 ^ 49 - 1, false, 8) ∧
      MakeDER [0x1F, 0x81, 0x80, 0x80, 0x80, 0x80, 0x80, 0x00, 0x00]
        = .ok [0x1F, 0x81, 0x80, 0x80, 0x80, 0x80, 0x80, 0x00, 0x00] ∧
      ¬ (∀ (data : List Byte) (pos c t q : Nat) (k : Bool),
          parseTag data pos = .ok (c, t, k, q) → t < 2 ^ 42) := by
  have h1 : parseTag [0x1F, 0x81, 0x80, 0x80, 0x80, 0x80, 0x80, 0x00, 0x00] 0
      = .ok (0, 2 ^ 42, false, 8) := by rfl
  refine ⟨h1, by rfl, by rfl, ?_⟩
  intro hall
  have := hall _ _ _ _ _ _ h1
  omega

/-! ## Progress of the parser -/

theorem parseElementF_progress {f : Nat} {data : List Byte} {p q : Nat} {o : ASN1Object}
    (h : parseElementF f data p = .ok (o, q)) : p + 2 ≤ q ∧ q ≤ data.length :=
  ⟨(parseElementF_frame _ _ _ _ _ h).1, (parseElementF_frame _ _ _ _ _ h).2.1⟩

/-! ## The loop of a definite constructed element and the chain of its sub-elements -/

theorem parseDefiniteLoop_chain {pe : List Byte → Nat → Except Err (ASN1Object × Nat)}
    {data : List Byte} {endPos : Int} : ∀ (lf p : Nat) (acc r : List ASN1Object) (q : Nat),
    parseDefiniteLoop pe data endPos lf p acc = .ok (r, q) →
    ∃ subs, r = acc ++ subs ∧ ChildrenChain pe data endPos p subs q ∧ ¬ ((q : Int) < endPos) := by
  intro lf
  induction lf with
  | zero => intro p acc r q h; simp [parseDefiniteLoop] at h
  | succ lf ih =>
    intro p acc r q h
    simp only [parseDefiniteLoop] at h
    by_cases hlt : (p : Int) < endPos
    · simp only [hlt, if_true] at h
      cases hpe : pe data p with
      | error e => rw [hpe] at h; cases h
      | ok res =>
        obtain ⟨o, p2⟩ := res
        rw [hpe] at h
        simp only [bind, Except.bind] at h
        obtain ⟨subs, h1, h2, h3⟩ := ih p2 (acc ++ [o]) r q h
        refine ⟨o :: subs, by rw [h1]; simp, ?_, h3⟩
        exact ⟨hlt, p2, hpe, h2⟩
    · simp only [hlt, if_false, Except.ok.injEq, Prod.mk.injEq] at h
      obtain ⟨rfl, rfl⟩ := h
      exact ⟨[], by simp, rfl, hlt⟩

theorem childrenChain_le {pe : List Byte → Nat → Except Err (ASN1Object × Nat)}
    {data : List Byte} {endPos : Int}
    (hprog : ∀ p o q, pe data p = .ok (o, q) → p + 2 ≤ q ∧ q ≤ data.length) :
    ∀ (subs : List ASN1Object) (p q : Nat), ChildrenChain pe data endPos p subs q →
      p ≤ q ∧ (p ≤ data.length → q ≤ data.length) ∧ (subs ≠ [] → q ≤ data.length)
  | [], p, q, h => by
    simp only [ChildrenChain] at h
    subst h
    exact ⟨Nat.le_refl _, fun hp => hp, fun hne => absurd rfl hne⟩
  | o :: rest, p, q, h => by
    simp only [ChildrenChain] at h
    obtain ⟨-, p2, hpe, hrest⟩ := h
    obtain ⟨h1, h2⟩ := hprog p o p2 hpe
    obtain ⟨i1, i2, -⟩ := childrenChain_le hprog rest p2 q hrest
    exact ⟨by omega, fun _ => i2 h2, fun _ => i2 h2⟩

theorem parseDefiniteLoop_of_chain {pe : List Byte → Nat → Except Err (ASN1Object × Nat)}
    {data : List Byte} {endPos : Int}
    (hprog : ∀ p o q, pe data p = .ok (o, q) → p + 2 ≤ q ∧ q ≤ data.length) :
    ∀ (subs : List ASN1Object) (p q : Nat) (acc : List ASN1Object) (lf : Nat),
      ChildrenChain pe data endPos p subs q → ¬ ((q : Int) < endPos) → p ≤ data.length →
      data.length + 1 ≤ lf + p →
      parseDefiniteLoop pe data endPos lf p acc = .ok (acc ++ subs, q)
  | [], p, q, acc, lf, h, hq, hp, hlf => by
    simp only [ChildrenChain] at h
    subst h
    obtain ⟨m, rfl⟩ : ∃ m, lf = m + 1 := ⟨lf - 1, by omega⟩
    simp only [parseDefiniteLoop, hq, if_false, List.append_nil]
  | o :: rest, p, q, acc, lf, h, hq, hp, hlf => by
    simp only [ChildrenChain] at h
    obtain ⟨hlt, p2, hpe, hrest⟩ := h
    obtain ⟨h1, h2⟩ := hprog p o p2 hpe
    obtain ⟨m, rfl⟩ : ∃ m, lf = m + 1 := ⟨lf - 1, by omega⟩
    simp only [parseDefiniteLoop, hlt, if_true, hpe, bind, Except.bind]
    rw [parseDefiniteLoop_of_chain hprog rest p2 q (acc ++ [o]) m hrest hq h2 (by omega)]
    simp

/-- Success of `parseDefiniteContent` on a constructed element, and its length-mismatch
error, in terms of the chain of sub-elements. -/
theorem parseDefiniteContent_constructed_cases (f : Nat) (data : List Byte) (pos : Nat)
    (length : Int) (h0 : 0 ≤ length) (h63 : length < 2 ^ 63) (hpos : pos < 2 ^ 63)
    (hdata : data.length < 2 ^ 63) :
    (∀ v subs q, parseDefiniteContent (parseElementF f) data pos length true = .ok (v, subs, q) →
      (q : Int) = (pos : Int) + length ∧ v = [] ∧
        ChildrenChain (parseElementF f) data ((pos : Int) + length) pos subs q) ∧
    (∀ subs q, ChildrenChain (parseElementF f) data ((pos : Int) + length) pos subs q →
      (q : Int) > (pos : Int) + length →
      parseDefiniteContent (parseElementF f) data pos length true
        = .error (.lengthMismatch ((pos : Int) + length) q)) ∧
    (∀ subs q, pos ≤ data.length →
      ChildrenChain (parseElementF f) data ((pos : Int) + length) pos subs q →
      (q : Int) = (pos : Int) + length →
      parseDefiniteContent (parseElementF f) data pos length true = .ok ([], subs, q)) := by
  have hprog : ∀ p o q, parseElementF f data p = .ok (o, q) → p + 2 ≤ q ∧ q ≤ data.length :=
    fun p o q h => parseElementF_progress h
  have hdI : ((data.length : Nat) : Int) < 2 ^ 63 := by exact_mod_cast hdata
  have hpI : ((pos : Nat) : Int) < 2 ^ 63 := by exact_mod_cast hpos
  refine ⟨?_, ?_, ?_⟩
  · intro v subs q h
    unfold parseDefiniteContent at h
    by_cases hchk : wrapInt ((pos : Int) + length) > (data.length : Int)
    · simp [hchk] at h
    · simp only [hchk, if_false, if_true] at h
      cases hl : parseDefiniteLoop (parseElementF f) data (wrapInt ((pos : Int) + length))
          (data.length + 1) pos [] with
      | error e => rw [hl] at h; cases h
      | ok res =>
        obtain ⟨r, q2⟩ := res
        rw [hl] at h
        simp only [bind, Except.bind] at h
        split at h
        · cases h
        · rename_i hne
          simp only [ne_eq, Decidable.not_not] at hne
          simp only [Except.ok.injEq, Prod.mk.injEq] at h
          obtain ⟨rfl, rfl, rfl⟩ := h
          obtain ⟨subs, hr, hchain, -⟩ := parseDefiniteLoop_chain _ _ _ _ _ hl
          have hE : wrapInt ((pos : Int) + length) = (pos : Int) + length := by
            have hnn : (0 : Int) ≤ wrapInt ((pos : Int) + length) := by omega
            unfold wrapInt at hnn ⊢
            norm_num at hnn h63 hdI hpI ⊢
            omega
          rw [hE] at hne hchain
          simp only [List.nil_append] at hr
          subst hr
          exact ⟨hne, rfl, hchain⟩
  · intro subs q hchain hgt
    obtain ⟨c1, c2, c3⟩ := childrenChain_le hprog subs pos q hchain
    have hne : subs ≠ [] := by
      rintro rfl
      simp only [ChildrenChain] at hchain
      omega
    have hq := c3 hne
    have hE : wrapInt ((pos : Int) + length) = (pos : Int) + length := by
      apply wrapInt_of_range
      · omega
      · omega
    have hchk : ¬ ((pos : Int) + length > (data.length : Int)) := by omega
    have hloop := parseDefiniteLoop_of_chain hprog subs pos q [] (data.length + 1) hchain
      (by omega) (by omega) (by omega)
    have hneq : (q : Int) ≠ (pos : Int) + length := by omega
    unfold parseDefiniteContent
    rw [hE]
    simp only [hchk, if_false, if_true, hloop, bind, Except.bind, hneq, ne_eq,
      not_false_eq_true]
  · intro subs q hple hchain heq
    obtain ⟨c1, c2, c3⟩ := childrenChain_le hprog subs pos q hchain
    have hq := c2 hple
    have hE : wrapInt ((pos : Int) + length) = (pos : Int) + length := by
      apply wrapInt_of_range
      · omega
      · omega
    have hchk : ¬ ((pos : Int) + length > (data.length : Int)) := by omega
    have hloop := parseDefiniteLoop_of_chain hprog subs pos q [] (data.length + 1) hchain
      (by omega) hple (by omega)
    unfold parseDefiniteContent
    rw [hE]
    simp only [hchk, if_false, if_true, hloop, bind, Except.bind, heq, ne_eq,
      not_true_eq_false, List.nil_append]

/-! ## Errors of sub-elements reach the caller -/

theorem parseLength_of_octet_80 {data : List Byte} {p : Nat} (h : data[p]? = some 0x80) :
    parseLength data p = .ok (-1, p + 1) := by
  have hlt : p < data.length := by
    by_contra hge
    rw [List.getElem?_eq_none (by omega)] at h
    cases h
  have hi : index data p = .ok 0x80 := by
    unfold index
    rw [h]
  have hp : ¬ (p ≥ data.length) := by omega
  unfold parseLength
  simp only [hp, if_false, hi, bind, Except.bind]
  rfl

/-- An element with a primitive identifier and the length octet 0x80. -/
theorem parseElementF_indefinite_primitive {data : List Byte} {pos c t p1 : Nat} (f : Nat)
    (hT : parseTag data pos = .ok (c, t, false, p1)) (h80 : data[p1]? = some 0x80) :
    parseElementF (f + 1) data pos = .error (.indefinitePrimitive c t) := by
  have hb := parseTag_frame [] [] hT
  rw [parseElementF_of_indefinite (by omega) hT (parseLength_of_octet_80 h80)]
  unfold parseIndefiniteContent
  simp [Except.map]

theorem loopReaches_bounds {data : List Byte} {f : Nat} {len : Int} {p2 p q : Nat}
    (h : LoopReaches data f len p2 p q) : p ≤ q ∧ (p ≤ data.length → q ≤ data.length) := by
  induction h with
  | here _ => exact ⟨Nat.le_refl _, fun hp => hp⟩
  | step _ hpe _ ih =>
    obtain ⟨h1, h2⟩ := parseElementF_progress hpe
    exact ⟨by omega, fun _ => ih.2 h2⟩

theorem loopReaches_first {data : List Byte} {f : Nat} {len : Int} {p2 p q : Nat}
    (h : LoopReaches data f len p2 p q) : LoopContinues data len p2 p := by
  cases h with
  | here hc => exact hc
  | step hc _ _ => exact hc

theorem loopReaches_indefinite_error {data : List Byte} {f : Nat} {p2 p q : Nat} {e : Err}
    (h : LoopReaches data f (-1) p2 p q) (he : parseElementF f data q = .error e) :
    ∀ (lf : Nat) (acc : List ASN1Object), p ≤ data.length → data.length + 1 ≤ lf + p →
      parseIndefiniteLoop (parseElementF f) data lf p acc = .error e := by
  induction h with
  | here hc =>
    intro lf acc hp hlf
    obtain ⟨m, rfl⟩ : ∃ m, lf = m + 1 := ⟨lf - 1, by omega⟩
    simp only [LoopContinues, if_true] at hc
    simp only [parseIndefiniteLoop, hc, bind, Except.bind, Bool.false_eq_true, if_false, he]
  | step hc hpe _ ih =>
    intro lf acc hp hlf
    obtain ⟨m, rfl⟩ : ∃ m, lf = m + 1 := ⟨lf - 1, by omega⟩
    obtain ⟨h1, h2⟩ := parseElementF_progress hpe
    simp only [LoopContinues, if_true] at hc
    simp only [parseIndefiniteLoop, hc, bind, Except.bind, Bool.false_eq_true, if_false, hpe]
    exact ih he m _ h2 (by omega)

theorem loopReaches_definite_error {data : List Byte} {f : Nat} {len : Int} {p2 p q : Nat}
    {e : Err} (hlen : ¬ (len = -1))
    (h : LoopReaches data f len p2 p q) (he : parseElementF f data q = .error e) :
    ∀ (lf : Nat) (acc : List ASN1Object), p ≤ data.length → data.length + 1 ≤ lf + p →
      parseDefiniteLoop (parseElementF f) data (wrapInt ((p2 : Int) + len)) lf p acc
        = .error e := by
  induction h with
  | here hc =>
    intro lf acc hp hlf
    obtain ⟨m, rfl⟩ : ∃ m, lf = m + 1 := ⟨lf - 1, by omega⟩
    simp only [LoopContinues, hlen, if_false] at hc
    simp only [parseDefiniteLoop, hc.2, if_true, he, bind, Except.bind]
  | step hc hpe _ ih =>
    intro lf acc hp hlf
    obtain ⟨m, rfl⟩ : ∃ m, lf = m + 1 := ⟨lf - 1, by omega⟩
    obtain ⟨h1, h2⟩ := parseElementF_progress hpe
    simp only [LoopContinues, hlen, if_false] at hc
    simp only [parseDefiniteLoop, hc.2, if_true, hpe, bind, Except.bind]
    exact ih he m _ h2 (by omega)

/-- An error of a sub-element that the content loop reaches is the error of the element. -/
theorem parseElementF_child_error {data : List Byte} {f p c t p1 p2 q : Nat} {len : Int}
    {e : Err} (hp : p < data.length) (hT : parseTag data p = .ok (c, t, true, p1))
    (hL : parseLength data p1 = .ok (len, p2)) (hr : LoopReaches data f len p2 p2 q)
    (he : parseElementF f data q = .error e) :
    parseElementF (f + 1) data p = .error e := by
  have hb2 := (parseLength_frame [] [] hL).2.1
  by_cases hlen : len = -1
  · subst hlen
    rw [parseElementF_of_indefinite hp hT hL]
    unfold parseIndefiniteContent
    simp only [not_true_eq_false, if_false]
    rw [loopReaches_indefinite_error hr he (data.length + 1) [] hb2 (by omega)]
    rfl
  · rw [parseElementF_of_definite hp hT hL hlen]
    have hc := loopReaches_first hr
    simp only [LoopContinues, hlen, if_false] at hc
    unfold parseDefiniteContent
    simp only [hc.1, if_false, if_true]
    rw [loopReaches_definite_error hlen hr he (data.length + 1) [] hb2 (by omega)]
    rfl

theorem reaches_fuel {data : List Byte} {f p : Nat} (h : Reaches data f p) :
    data.length + 1 ≤ f + p := by
  induction h with
  | root => omega
  | child _ _ hT hL hr ih =>
    have t1 := (parseTag_frame [] [] hT).1
    have l1 := (parseLength_frame [] [] hL).1
    have r1 := (loopReaches_bounds hr).1
    omega

/-- An error at a call that the run reaches is the error of the run. -/
theorem reaches_error {data : List Byte} {f p : Nat} {e : Err} (h : Reaches data f p)
    (he : parseElementF f data p = .error e) : parseElement data 0 = .error e := by
  induction h with
  | root => exact he
  | child _ hp hT hL hr ih => exact ih (parseElementF_child_error hp hT hL hr he)

theorem MakeDER_of_parse_error {data : List Byte} {e : Err} (hne : data ≠ [])
    (h : parseElement data 0 = .error e) : MakeDER data = .error e := by
  have hl : ¬ (data.length = 0) := by
    intro h0
    exact hne (List.length_eq_zero.mp h0)
  unfold MakeDER
  simp only [hl, if_false, h, bind, Except.bind]

/-! ## Exact rejection conditions of the flattening loops -/

theorem flattenBitStringLoop_error_iff (n : Nat) : ∀ (subs : List ASN1Object) (i : Nat)
    (bitData : List Byte) (fin : Byte),
    (∃ e, flattenBitStringLoop n subs i bitData fin = .error e) ↔
      ∃ k s, subs[k]? = some s ∧
        (¬ (s.Class = 0 ∧ s.TagNumber = 3 ∧ s.IsConstructed = false) ∨ s.Value.length = 0 ∨
          (i + k + 1 < n ∧ ∃ b rest, s.Value = b :: rest ∧ b ≠ 0))
  | [], i, bitData, fin => by
    simp [flattenBitStringLoop]
  | sub :: rest, i, bitData, fin => by
    have shift : ∀ (P : Nat → ASN1Object → Prop), ¬ P 0 sub →
        ((∃ k s, rest[k]? = some s ∧ P (k + 1) s) ↔
          ∃ k s, (sub :: rest)[k]? = some s ∧ P k s) := by
      intro P h0
      constructor
      · rintro ⟨k, s, hk, hP⟩
        exact ⟨k + 1, s, by simpa using hk, hP⟩
      · rintro ⟨k, s, hk, hP⟩
        cases k with
        | zero =>
          simp only [List.getElem?_cons_zero, Option.some.injEq] at hk
          subst hk
          exact absurd hP h0
        | succ k => exact ⟨k, s, by simpa using hk, hP⟩
    by_cases hv : sub.Class = 0 ∧ sub.TagNumber = 3 ∧ sub.IsConstructed = false
    · cases hval : sub.Value with
      | nil =>
        simp only [flattenBitStringLoop, hv, and_self, not_true_eq_false, if_false, hval,
          List.length_nil, if_true]
        exact ⟨fun _ => ⟨0, sub, by simp, Or.inr (Or.inl (by rw [hval]; rfl))⟩,
          fun _ => ⟨_, rfl⟩⟩
      | cons b r =>
        by_cases hlast : (i : Int) < (n : Int) - 1
        · by_cases hb : b = 0
          · simp only [flattenBitStringLoop, hv, and_self, not_true_eq_false, if_false, hval,
              List.length_cons, Nat.succ_ne_zero, index_cons_zero, bind, Except.bind, hlast,
              if_true, hb, ne_eq]
            rw [flattenBitStringLoop_error_iff n rest (i + 1)]
            have := shift (fun k s =>
              ¬ (s.Class = 0 ∧ s.TagNumber = 3 ∧ s.IsConstructed = false) ∨ s.Value.length = 0 ∨
                (i + k + 1 < n ∧ ∃ b rest, s.Value = b :: rest ∧ b ≠ 0))
              (by
                simp only [hv, and_self, not_true_eq_false, hval, List.length_cons,
                  Nat.succ_ne_zero, false_or, not_and, not_exists]
                intro _ b2 r2 h2
                simp only [List.cons.injEq] at h2
                rw [← h2.1, hb]
                simp)
            rw [← this]
            simp only [Nat.add_assoc, Nat.add_comm 1]
          · simp only [flattenBitStringLoop, hv, and_self, not_true_eq_false, if_false, hval,
              List.length_cons, Nat.succ_ne_zero, index_cons_zero, bind, Except.bind, hlast,
              if_true, hb, ne_eq, not_false_eq_true]
            refine ⟨fun _ => ⟨0, sub, by simp, Or.inr (Or.inr ⟨by omega, b, r, hval, hb⟩)⟩,
              fun _ => ⟨_, rfl⟩⟩
        · simp only [flattenBitStringLoop, hv, and_self, not_true_eq_false, if_false, hval,
            List.length_cons, Nat.succ_ne_zero, index_cons_zero, bind, Except.bind, hlast]
          rw [flattenBitStringLoop_error_iff n rest (i + 1)]
          have := shift (fun k s =>
            ¬ (s.Class = 0 ∧ s.TagNumber = 3 ∧ s.IsConstructed = false) ∨ s.Value.length = 0 ∨
              (i + k + 1 < n ∧ ∃ b rest, s.Value = b :: rest ∧ b ≠ 0))
            (by
              simp only [hv, and_self, not_true_eq_false, hval, List.length_cons,
                Nat.succ_ne_zero, false_or, not_and]
              intro h
              omega)
          rw [← this]
          simp only [Nat.add_assoc, Nat.add_comm 1]
    · simp only [flattenBitStringLoop, hv, not_false_eq_true, if_true]
      exact ⟨fun _ => ⟨0, sub, by simp, Or.inl hv⟩, fun _ => ⟨_, rfl⟩⟩

theorem flattenBitString_error_loop (obj : ASN1Object) (e : Err) :
    flattenBitString obj = .error e ↔
      flattenBitStringLoop obj.SubObjects.length obj.SubObjects 0 [] 0 = .error e := by
  unfold flattenBitString
  cases h : flattenBitStringLoop obj.SubObjects.length obj.SubObjects 0 [] 0 with
  | error e2 => simp [bind, Except.bind]
  | ok r => simp [bind, Except.bind]

theorem flattenBitStringInPlace_error (obj : ASN1Object) (e : Err)
    (h : flattenBitString obj = .error e) : flattenBitStringInPlace obj = (obj, some e) := by
  rw [flattenBitString_error_loop] at h
  unfold flattenBitStringInPlace
  rw [h]

theorem flattenBitStringInPlace_ok (obj r : ASN1Object)
    (h : flattenBitString obj = .ok r) : flattenBitStringInPlace obj = (r, none) := by
  unfold flattenBitString at h
  unfold flattenBitStringInPlace
  cases hl : flattenBitStringLoop obj.SubObjects.length obj.SubObjects 0 [] 0 with
  | error e2 => rw [hl] at h; cases h
  | ok res =>
    obtain ⟨bitData, fin⟩ := res
    rw [hl] at h
    simp only [bind, Except.bind, Except.ok.injEq] at h
    simp only [h]

theorem flattenBitString_rejects (obj : ASN1Object) :
    (∃ e, flattenBitString obj = .error e) ↔
      ∃ k s, obj.SubObjects[k]? = some s ∧
        (¬ (s.Class = 0 ∧ s.TagNumber = 3 ∧ s.IsConstructed = false) ∨ s.Value.length = 0 ∨
          (k + 1 < obj.SubObjects.length ∧ ∃ b rest, s.Value = b :: rest ∧ b ≠ 0)) := by
  have h := flattenBitStringLoop_error_iff obj.SubObjects.length obj.SubObjects 0 [] 0
  simp only [Nat.zero_add] at h
  rw [← h]
  constructor
  · rintro ⟨e, he⟩
    exact ⟨e, (flattenBitString_error_loop obj e).mp he⟩
  · rintro ⟨e, he⟩
    exact ⟨e, (flattenBitString_error_loop obj e).mpr he⟩

theorem flattenOctetStringLoop_error_iff : ∀ (subs : List ASN1Object) (i : Nat)
    (octets : List Byte),
    (∃ e, flattenOctetStringLoop subs i octets = .error e) ↔
      ∃ s ∈ subs, ¬ (s.Class = 0 ∧ s.TagNumber = 4 ∧ s.IsConstructed = false)
  | [], i, octets => by simp [flattenOctetStringLoop]
  | sub :: rest, i, octets => by
    by_cases hv : sub.Class = 0 ∧ sub.TagNumber = 4 ∧ sub.IsConstructed = false
    · simp only [flattenOctetStringLoop, hv, and_self, not_true_eq_false, if_false]
      rw [flattenOctetStringLoop_error_iff rest (i + 1)]
      simp [hv]
    · simp only [flattenOctetStringLoop, hv, not_false_eq_true, if_true]
      exact ⟨fun _ => ⟨sub, by simp, hv⟩, fun _ => ⟨_, rfl⟩⟩

theorem flattenStringLoop_error_iff (tag : Nat) : ∀ (subs : List ASN1Object) (i : Nat)
    (acc : List Byte),
    (∃ e, flattenStringLoop tag subs i acc = .error e) ↔
      ∃ s ∈ subs, ¬ (s.Class = 0 ∧ s.TagNumber = tag ∧ s.IsConstructed = false)
  | [], i, acc => by simp [flattenStringLoop]
  | sub :: rest, i, acc => by
    by_cases hv : sub.Class = 0 ∧ sub.TagNumber = tag ∧ sub.IsConstructed = false
    · simp only [flattenStringLoop, hv, and_self, not_true_eq_false, if_false]
      rw [flattenStringLoop_error_iff tag rest (i + 1)]
      simp [hv]
    · simp only [flattenStringLoop, hv, not_false_eq_true, if_true]
      exact ⟨fun _ => ⟨sub, by simp, hv⟩, fun _ => ⟨_, rfl⟩⟩

theorem flattenOctetString_cases (obj : ASN1Object) :
    ((∃ e, flattenOctetString obj = .error e) ↔
      ∃ s ∈ obj.SubObjects, ¬ (s.Class = 0 ∧ s.TagNumber = 4 ∧ s.IsConstructed = false)) ∧
    (∀ r, flattenOctetString obj = .ok r → r.IsConstructed = false) := by
  rw [← flattenOctetStringLoop_error_iff obj.SubObjects 0 []]
  unfold flattenOctetString
  cases h : flattenOctetStringLoop obj.SubObjects 0 [] with
  | error e2 => simp [bind, Except.bind]
  | ok r =>
    simp only [bind, Except.bind, Except.ok.injEq, exists_false, false_iff, not_exists]
    refine ⟨?_, ?_⟩
    · simp
    · rintro r2 rfl
      rfl

theorem flattenString_cases (obj : ASN1Object) :
    ((∃ e, flattenString obj = .error e) ↔
      ∃ s ∈ obj.SubObjects,
        ¬ (s.Class = 0 ∧ s.TagNumber = obj.TagNumber ∧ s.IsConstructed = false)) ∧
    (∀ r, flattenString obj = .ok r → r.IsConstructed = false) := by
  rw [← flattenStringLoop_error_iff obj.TagNumber obj.SubObjects 0 []]
  unfold flattenString
  cases h : flattenStringLoop obj.TagNumber obj.SubObjects 0 [] with
  | error e2 => simp [bind, Except.bind]
  | ok r =>
    simp only [bind, Except.bind, Except.ok.injEq, exists_false, false_iff, not_exists]
    refine ⟨?_, ?_⟩
    · simp
    · rintro r2 rfl
      rfl

/-- Flattening of a constructed OCTET STRING or character string. -/
theorem flattenConstructedType_string_cases (t : Nat) (v : List Byte) (subs : List ASN1Object)
    (ht : t = 4 ∨ t ∈ stringTags) :
    ((∃ e, flattenConstructedType (ASN1Object.mk 0 t true v subs) = .error e) ↔
      ∃ s ∈ subs, ¬ (s.Class = 0 ∧ s.TagNumber = t ∧ s.IsConstructed = false)) ∧
    (∀ r, flattenConstructedType (ASN1Object.mk 0 t true v subs) = .ok r →
      r.IsConstructed = false) := by
  rcases ht with rfl | ht
  · have h := flattenOctetString_cases (ASN1Object.mk 0 4 true v subs)
    have hf : flattenConstructedType (ASN1Object.mk 0 4 true v subs)
        = flattenOctetString (ASN1Object.mk 0 4 true v subs) := by
      simp [flattenConstructedType, ASN1Object.TagNumber]
    rw [hf]
    exact h
  · have h := flattenString_cases (ASN1Object.mk 0 t true v subs)
    have h3 : t ≠ 3 := by rintro rfl; simp [stringTags] at ht
    have h4 : t ≠ 4 := by rintro rfl; simp [stringTags] at ht
    have hf : flattenConstructedType (ASN1Object.mk 0 t true v subs)
        = flattenString (ASN1Object.mk 0 t true v subs) := by
      simp [flattenConstructedType, ASN1Object.TagNumber, h3, h4, ht]
    rw [hf]
    exact h

/-- Encoding of a constructed OCTET STRING or character string fails exactly when the
flattening fails, with the same error. -/
theorem encodeDER_string_error (t : Nat) (v : List Byte) (subs : List ASN1Object)
    (ht : t = 4 ∨ t ∈ stringTags) (e : Err) :
    encodeDER (ASN1Object.mk 0 t true v subs) = .error e ↔
      flattenConstructedType (ASN1Object.mk 0 t true v subs) = .error e := by
  rw [encodeDER_unfold]
  cases hf : flattenConstructedType (ASN1Object.mk 0 t true v subs) with
  | error e2 =>
    rw [encodeDERStep_flatten_error encodeDER (ASN1Object.mk 0 t true v subs) rfl rfl hf]
    constructor
    · intro h
      cases h
      rfl
    · intro h
      cases h
      rfl
  | ok r =>
    have hr := (flattenConstructedType_string_cases t v subs ht).2 r hf
    rw [encodeDERStep_flatten encodeDER (ASN1Object.mk 0 t true v subs) rfl rfl hf hr]
    simp

theorem flattenBitString_rejects_split (obj : ASN1Object) :
    (∃ e, flattenBitString obj = .error e) ↔
      ((∃ s ∈ obj.SubObjects, ¬ (s.Class = 0 ∧ s.TagNumber = 3 ∧ s.IsConstructed = false)) ∨
        (∃ s ∈ obj.SubObjects, s.Value.length = 0) ∨
        (∃ k s, k + 1 < obj.SubObjects.length ∧ obj.SubObjects[k]? = some s ∧
          ∃ b rest, s.Value = b :: rest ∧ b ≠ 0)) := by
  rw [flattenBitString_rejects]
  constructor
  · rintro ⟨k, s, hk, h | h | ⟨hlt, h⟩⟩
    · exact Or.inl ⟨s, List.mem_iff_getElem?.mpr ⟨k, hk⟩, h⟩
    · exact Or.inr (Or.inl ⟨s, List.mem_iff_getElem?.mpr ⟨k, hk⟩, h⟩)
    · exact Or.inr (Or.inr ⟨k, s, hlt, hk, h⟩)
  · rintro (⟨s, hs, h⟩ | ⟨s, hs, h⟩ | ⟨k, s, hlt, hk, h⟩)
    · obtain ⟨k, hk⟩ := List.mem_iff_getElem?.mp hs
      exact ⟨k, s, hk, Or.inl h⟩
    · obtain ⟨k, hk⟩ := List.mem_iff_getElem?.mp hs
      exact ⟨k, s, hk, Or.inr (Or.inl h)⟩
    · exact ⟨k, s, hk, Or.inr (Or.inr ⟨hlt, h⟩)⟩

theorem parseElement_indefinite_primitive_all {data : List Byte} {pos c t p1 : Nat}
    (hT : parseTag data pos = .ok (c, t, false, p1)) (h80 : data[p1]? = some 0x80) :
    parseElement data pos = .error (.indefinitePrimitive c t) ∧
      (∀ f, parseElementF (f + 1) data pos = .error (.indefinitePrimitive c t)) ∧
      (∀ f, Reaches data f pos → MakeDER data = .error (.indefinitePrimitive c t)) := by
  have hb := parseTag_frame [] [] hT
  have hpos : pos < data.length := by omega
  refine ⟨parseElementF_indefinite_primitive data.length hT h80,
    fun f => parseElementF_indefinite_primitive f hT h80, ?_⟩
  intro f hr
  have hf := reaches_fuel hr
  obtain ⟨m, rfl⟩ : ∃ m, f = m + 1 := ⟨f - 1, by omega⟩
  have hne : data ≠ [] := by
    rintro rfl
    simp at hpos
  exact MakeDER_of_parse_error hne
    (reaches_error hr (parseElementF_indefinite_primitive m hT h80))

/-- Claim C17 (indefinite length on a primitive is rejected). Whenever the identifier octets
at `pos` decode to a tag with the constructed bit clear and end at `p1`, and the octet at
`p1` is the length octet 0x80, then parseElement at `pos` returns the error "indefinite
length used with primitive type" for that class and tag, with any recursion budget of at
least one call; and if `pos` is a position at which the run of MakeDER on `data` calls
parseElement (the root call at 0, or a call made by the content loop of a constructed
element whose own call is reached, after the sub-elements before it were parsed), then
MakeDER of `data` returns that error. -/
theorem indefinite_primitive_rejected (data : List Byte) (pos c t p1 : Nat)
    (hT : parseTag data pos = .ok (c, t, false, p1)) (h80 : data[p1]? = some 0x80) :
    parseElement data pos = .error (.indefinitePrimitive c t) ∧
      (∀ f, parseElementF (f + 1) data pos = .error (.indefinitePrimitive c t)) ∧
      (∀ f, Reaches data f pos → MakeDER data = .error (.indefinitePrimitive c t)) :=
  parseElement_indefinite_primitive_all hT h80

/-- Witness of C17 on `30 02 04 80`: the OCTET STRING at position 2 inside the SEQUENCE has
the length octet 0x80, and MakeDER returns the error. -/
theorem indefinite_primitive_rejected_witness :
    parseElement [0x30, 0x02, 0x04, 0x80] 2 = .error (.indefinitePrimitive 0 4) ∧
      MakeDER [0x30, 0x02, 0x04, 0x80] = .error (.indefinitePrimitive 0 4) :=
  ⟨(indefinite_primitive_rejected [0x30, 0x02, 0x04, 0x80] 2 0 4 3 (by rfl) (by rfl)).1,
   (indefinite_primitive_rejected [0x30, 0x02, 0x04, 0x80] 2 0 4 3 (by rfl) (by rfl)).2.2 4
    (@Reaches.child [0x30, 0x02, 0x04, 0x80] 4 0 0 16 1 2 2 2 Reaches.root (by decide)
      (by rfl) (by rfl)
      (@LoopReaches.here [0x30, 0x02, 0x04, 0x80] 4 2 2 2
        (by unfold LoopContinues; rw [if_neg (by decide)]; decide)))⟩

/-- Claim C18 (a constructed definite length must be matched exactly). For every `data`
shorter than `2 ^ 63`, every position `pos` and every `length` with `0 ≤ length < 2 ^ 63`
(the values of a non-negative `int`): if parseDefiniteContent on a constructed element
succeeds, then the returned position is `pos + length`, no value bytes are returned, and
the returned sub-elements are parsed one after the other from `pos`, each starting before
`pos + length`, the last one ending exactly at `pos + length`; and if the sub-elements
parsed one after the other from `pos`, each starting before `pos + length`, end at a
position beyond `pos + length`, then the result is the error "constructed length mismatch"
with the expected end `pos + length` and the position reached; and if they end exactly at
`pos + length`, with `pos` inside `data`, the call succeeds with these sub-elements and
the position `pos + length`. -/
theorem parseDefiniteContent_constructed_exact (f : Nat) (data : List Byte) (pos : Nat)
    (length : Int) (h0 : 0 ≤ length) (h63 : length < 2 ^ 63) (hpos : pos < 2 ^ 63)
    (hdata : data.length < 2 ^ 63) :
    (∀ v subs q, parseDefiniteContent (parseElementF f) data pos length true = .ok (v, subs, q) →
      (q : Int) = (pos : Int) + length ∧ v = [] ∧
        ChildrenChain (parseElementF f) data ((pos : Int) + length) pos subs q) ∧
    (∀ subs q, ChildrenChain (parseElementF f) data ((pos : Int) + length) pos subs q →
      (q : Int) > (pos : Int) + length →
      parseDefiniteContent (parseElementF f) data pos length true
        = .error (.lengthMismatch ((pos : Int) + length) q)) ∧
    (∀ subs q, pos ≤ data.length →
      ChildrenChain (parseElementF f) data ((pos : Int) + length) pos subs q →
      (q : Int) = (pos : Int) + length →
      parseDefiniteContent (parseElementF f) data pos length true = .ok ([], subs, q)) :=
  parseDefiniteContent_constructed_cases f data pos length h0 h63 hpos hdata

/-- Witness of C18 on the test input `30 05 02 01 01 02 01 02`: the SEQUENCE claims five
content bytes, its two INTEGERs take six, and the result is the length-mismatch error with
expected end 7 and position 8. -/
theorem parseDefiniteContent_constructed_exact_witness :
    parseDefiniteContent (parseElementF 8) [0x30, 0x05, 0x02, 0x01, 0x01, 0x02, 0x01, 0x02]
        2 5 true
      = .error (.lengthMismatch (((2 : Nat) : Int) + 5) 8) :=
  (parseDefiniteContent_constructed_exact 8 [0x30, 0x05, 0x02, 0x01, 0x01, 0x02, 0x01, 0x02]
      2 5 (by decide) (by decide) (by decide) (by decide)).2.1
    [ASN1Object.mk 0 2 false [0x01] [], ASN1Object.mk 0 2 false [0x02] []] 8
    ⟨by decide, 5, by rfl, by decide, 8, by rfl, rfl⟩ (by decide)

/-- Claim C19 (the rejection of a constructed BIT STRING is exact). For every Universal
constructed tag-3 node, flattenBitString returns an error if and only if some child is not
a Universal primitive tag-3 element, or some child has zero content bytes, or some child
other than the last has a non-zero first content byte; and when it returns an error, the
node that the caller holds after the call is the node it passed. -/
theorem flattenBitString_rejection (v : List Byte) (subs : List ASN1Object) :
    ((∃ e, flattenBitString (ASN1Object.mk 0 3 true v subs) = .error e) ↔
      ((∃ s ∈ subs, ¬ (s.Class = 0 ∧ s.TagNumber = 3 ∧ s.IsConstructed = false)) ∨
        (∃ s ∈ subs, s.Value.length = 0) ∨
        (∃ k s, k + 1 < subs.length ∧ subs[k]? = some s ∧
          ∃ b rest, s.Value = b :: rest ∧ b ≠ 0))) ∧
    (∀ e, flattenBitString (ASN1Object.mk 0 3 true v subs) = .error e →
      flattenBitStringInPlace (ASN1Object.mk 0 3 true v subs)
        = (ASN1Object.mk 0 3 true v subs, some e)) :=
  ⟨flattenBitString_rejects_split (ASN1Object.mk 0 3 true v subs),
   fun e h => flattenBitStringInPlace_error (ASN1Object.mk 0 3 true v subs) e h⟩

/-- Claim C20 (the rejection of a constructed OCTET STRING or character string is exact).
For every Universal constructed node with tag number `t` in
{4, 12, 18, 19, 20, 21, 22, 25, 26, 27, 28, 30}, flattenConstructedType returns an error if
and only if some direct child is not a Universal primitive element with tag number `t`; and
encodeDER of the node returns an error exactly when the flattening does, with the same
error. -/
theorem flatten_string_rejection (t : Nat) (v : List Byte) (subs : List ASN1Object)
    (ht : t = 4 ∨ t ∈ stringTags) :
    ((∃ e, flattenConstructedType (ASN1Object.mk 0 t true v subs) = .error e) ↔
      ∃ s ∈ subs, ¬ (s.Class = 0 ∧ s.TagNumber = t ∧ s.IsConstructed = false)) ∧
    (∀ e, encodeDER (ASN1Object.mk 0 t true v subs) = .error e ↔
      flattenConstructedType (ASN1Object.mk 0 t true v subs) = .error e) :=
  ⟨(flattenConstructedType_string_cases t v subs ht).1,
   fun e => encodeDER_string_error t v subs ht e⟩

/-- Witness of C20 on a constructed UTF8String (tag 12) whose only child is the INTEGER
`02 01 05`: the encoding fails. -/
theorem flatten_string_rejection_witness :
    (12 = 4 ∨ 12 ∈ stringTags) ∧
      ∃ e, encodeDER (ASN1Object.mk 0 12 true [] [ASN1Object.mk 0 2 false [0x05] []])
        = .error e :=
  ⟨by decide,
   ((flatten_string_rejection 12 [] [ASN1Object.mk 0 2 false [0x05] []] (by decide)).1.mpr
      ⟨ASN1Object.mk 0 2 false [0x05] [], List.mem_singleton.mpr rfl, by decide⟩).imp
    (fun e he =>
      ((flatten_string_rejection 12 [] [ASN1Object.mk 0 2 false [0x05] []] (by decide)).2
        e).mpr he)⟩

/-! ## Claims C21, C22 and C27 -/

theorem encodeDER_nonUniversal_map (c t : Nat) (v : List Byte) (subs : List ASN1Object)
    (hc : c ≠ 0) :
    encodeDER (ASN1Object.mk c t true v subs)
      = (encodeSubs encodeDER subs).map (fun encs =>
          encodeTag (ASN1Object.mk c t true v subs) ++ encodeLength encs.flatten.length
            ++ encs.flatten) := by
  rw [encodeDER_unfold, encodeDERStep_keep encodeDER (ASN1Object.mk c t true v subs) rfl
    (by simp [ASN1Object.Class, hc])]
  simp [constructedContent, ASN1Object.Class, ASN1Object.SubObjects, hc]

theorem encodeDER_nonUniversal_cases (c t : Nat) (v : List Byte) (subs : List ASN1Object)
    (hc : c = 1 ∨ c = 2 ∨ c = 3) :
    (∀ encs, List.Forall₂ (fun s e => encodeDER s = .ok e) subs encs →
      encodeDER (ASN1Object.mk c t true v subs)
        = .ok (encodeTag (ASN1Object.mk c t true v subs) ++ encodeLength encs.flatten.length
            ++ encs.flatten)) ∧
    (∀ e, encodeDER (ASN1Object.mk c t true v subs) = .error e →
      ∃ s ∈ subs, encodeDER s = .error e) := by
  have hc0 : c ≠ 0 := by omega
  constructor
  · intro encs h
    rw [encodeDER_nonUniversal_map c t v subs hc0, encodeSubs_ok h]
    rfl
  · intro e h
    rw [encodeDER_nonUniversal_map c t v subs hc0] at h
    cases hs : encodeSubs encodeDER subs with
    | error e2 =>
      rw [hs] at h
      simp only [Except.map, Except.error.injEq] at h
      subst h
      exact encodeSubs_error hs
    | ok encs =>
      rw [hs] at h
      simp [Except.map] at h

/-- Claim C21 (non-Universal classes are never canonicalized). For every constructed node
whose class is Application (1), Context-specific (2) or Private (3), whatever its tag number:
when `encs` are the encodeDER outputs of the children in their order, encodeDER of the node
returns `encodeTag ‖ encodeLength(len content) ‖ content` with `content` the concatenation
of `encs` in that order; and encodeDER of the node fails only with the error of a child
(the node itself is neither flattened nor sorted). -/
theorem encodeDER_nonUniversal (c t : Nat) (v : List Byte) (subs : List ASN1Object)
    (hc : c = 1 ∨ c = 2 ∨ c = 3) :
    (∀ encs, List.Forall₂ (fun s e => encodeDER s = .ok e) subs encs →
      encodeDER (ASN1Object.mk c t true v subs)
        = .ok (encodeTag (ASN1Object.mk c t true v subs) ++ encodeLength encs.flatten.length
            ++ encs.flatten)) ∧
    (∀ e, encodeDER (ASN1Object.mk c t true v subs) = .error e →
      ∃ s ∈ subs, encodeDER s = .error e) :=
  encodeDER_nonUniversal_cases c t v subs hc

/-- Witness of C21 on an Application constructed node with tag number 17 whose two INTEGER
children are in descending order of their encodings: the order is kept. -/
theorem encodeDER_nonUniversal_witness :
    encodeDER (ASN1Object.mk 1 17 true []
        [ASN1Object.mk 0 2 false [0x02] [], ASN1Object.mk 0 2 false [0x01] []])
      = .ok ([0x71] ++ [0x06] ++ [[0x02, 0x01, 0x02], [0x02, 0x01, 0x01]].flatten) :=
  (encodeDER_nonUniversal 1 17 []
      [ASN1Object.mk 0 2 false [0x02] [], ASN1Object.mk 0 2 false [0x01] []]
      (Or.inl rfl)).1
    [[0x02, 0x01, 0x02], [0x02, 0x01, 0x01]]
    (.cons (by rfl) (.cons (by rfl) .nil))

theorem encodePrimitiveContent_value (obj : ASN1Object)
    (h : ¬ (obj.Value.length = 1 ∧
      ((obj.Class = 0 ∧ obj.TagNumber = 1) ∨ (obj.Class = 2 ∧ obj.TagNumber = 1)))) :
    encodePrimitiveContent obj = obj.Value := by
  unfold encodePrimitiveContent
  split
  · rename_i b hb
    rw [hb] at h
    simp only [List.length_singleton, true_and] at h
    rw [if_neg h]
    exact hb.symm
  · rfl

/-- Claim C22 (primitive content is preserved byte for byte). For every node,
encodePrimitiveContent returns the Value of the node unchanged unless Value has length
exactly 1 and (Class, TagNumber) is (0, 1) or (2, 1). -/
theorem encodePrimitiveContent_preserved (obj : ASN1Object)
    (h : ¬ (obj.Value.length = 1 ∧
      ((obj.Class = 0 ∧ obj.TagNumber = 1) ∨ (obj.Class = 2 ∧ obj.TagNumber = 1)))) :
    encodePrimitiveContent obj = obj.Value :=
  encodePrimitiveContent_value obj h

/-- Witness of C22: a two-byte and an empty Universal tag-1 value, and the one-byte tag-1
value `05` of Application and of Private class, are not altered. -/
theorem encodePrimitiveContent_preserved_witness :
    encodePrimitiveContent (ASN1Object.mk 0 1 false [0x05, 0x06] []) = [0x05, 0x06] ∧
      encodePrimitiveContent (ASN1Object.mk 0 1 false [] []) = [] ∧
      encodePrimitiveContent (ASN1Object.mk 1 1 false [0x05] []) = [0x05] ∧
      encodePrimitiveContent (ASN1Object.mk 3 1 false [0x05] []) = [0x05] :=
  ⟨encodePrimitiveContent_preserved (ASN1Object.mk 0 1 false [0x05, 0x06] []) (by decide),
   encodePrimitiveContent_preserved (ASN1Object.mk 0 1 false [] []) (by decide),
   encodePrimitiveContent_preserved (ASN1Object.mk 1 1 false [0x05] []) (by decide),
   encodePrimitiveContent_preserved (ASN1Object.mk 3 1 false [0x05] []) (by decide)⟩

theorem encodeDER_of_flatten (obj : ASN1Object) {r : ASN1Object}
    (hk : obj.IsConstructed = true) (hc : obj.Class = 0)
    (hf : flattenConstructedType obj = .ok r) (hr : r.IsConstructed = false) :
    encodeDER obj
      = .ok (encodeTag r ++ encodeLength (encodePrimitiveContent r).length
          ++ encodePrimitiveContent r) := by
  rw [encodeDER_unfold, encodeDERStep_flatten encodeDER obj hk hc hf hr]

theorem zero_segment_cases (t : Nat) (v : List Byte) (ht : t = 4 ∨ t ∈ stringTags) :
    flattenBitString (ASN1Object.mk 0 3 true v []) = .ok (ASN1Object.mk 0 3 false [0x00] []) ∧
      encodeDER (ASN1Object.mk 0 3 true v []) = .ok [0x03, 0x01, 0x00] ∧
      MakeDER [0x23, 0x00] = .ok [0x03, 0x01, 0x00] ∧
      flattenConstructedType (ASN1Object.mk 0 t true v [])
        = .ok (ASN1Object.mk 0 t false [] []) ∧
      encodeDER (ASN1Object.mk 0 t true v []) = .ok [toByte t, 0x00] ∧
      MakeDER [toByte (0x20 ||| t), 0x00] = .ok [toByte t, 0x00] := by
  have hbit : flattenConstructedType (ASN1Object.mk 0 3 true v [])
      = .ok (ASN1Object.mk 0 3 false [0x00] []) := rfl
  refine ⟨rfl, ?_, by rfl, ?_⟩
  · rw [encodeDER_of_flatten (ASN1Object.mk 0 3 true v []) rfl rfl hbit rfl]
    rfl
  simp only [stringTags, List.mem_cons, List.mem_singleton, List.not_mem_nil, or_false] at ht
  have key : ∀ t2 : Nat, flattenConstructedType (ASN1Object.mk 0 t2 true v [])
        = .ok (ASN1Object.mk 0 t2 false [] []) →
      encodeTag (ASN1Object.mk 0 t2 false [] []) = [toByte t2] →
      encodeDER (ASN1Object.mk 0 t2 true v []) = .ok [toByte t2, 0x00] := by
    intro t2 hf ht2
    rw [encodeDER_of_flatten (ASN1Object.mk 0 t2 true v []) rfl rfl hf rfl, ht2]
    rfl
  rcases ht with rfl | rfl | rfl | rfl | rfl | rfl | rfl | rfl | rfl | rfl | rfl | rfl <;>
    exact ⟨rfl, key _ rfl rfl, by rfl⟩

/-- Claim C27 (zero-segment constructed strings). For a Universal constructed BIT STRING
node with no children, flattenBitString succeeds and yields the primitive node with the
single content byte 0x00, encodeDER writes `03 01 00`, and MakeDER maps the two-byte input
`23 00` to the three-byte output `03 01 00`; for a Universal constructed OCTET STRING or
restricted character string of tag `t` with no children, the flattening yields the primitive
node with empty content, encodeDER writes `t 00`, and MakeDER maps the two bytes
`(0x20 | t) 00` to `t 00`. -/
theorem zero_segment_strings (t : Nat) (v : List Byte) (ht : t = 4 ∨ t ∈ stringTags) :
    flattenBitString (ASN1Object.mk 0 3 true v []) = .ok (ASN1Object.mk 0 3 false [0x00] []) ∧
      encodeDER (ASN1Object.mk 0 3 true v []) = .ok [0x03, 0x01, 0x00] ∧
      MakeDER [0x23, 0x00] = .ok [0x03, 0x01, 0x00] ∧
      flattenConstructedType (ASN1Object.mk 0 t true v [])
        = .ok (ASN1Object.mk 0 t false [] []) ∧
      encodeDER (ASN1Object.mk 0 t true v []) = .ok [toByte t, 0x00] ∧
      MakeDER [toByte (0x20 ||| t), 0x00] = .ok [toByte t, 0x00] :=
  zero_segment_cases t v ht

/-- Witness of C27 at the OCTET STRING: `24 00` gives `04 00`, and `23 00` gives
`03 01 00`. -/
theorem zero_segment_strings_witness :
    MakeDER [0x23, 0x00] = .ok [0x03, 0x01, 0x00] ∧ MakeDER [0x24, 0x00] = .ok [0x04, 0x00] :=
  ⟨(zero_segment_strings 4 [] (Or.inl rfl)).2.2.1,
   (zero_segment_strings 4 [] (Or.inl rfl)).2.2.2.2.2⟩

/-! ## Outcomes of the parser: which errors can occur, and independence of the fuel -/

theorem parseTagLoop_outcome (d : List Byte) : ∀ (fuel pos acc oc : Nat) (e : Err),
    7 ≤ fuel + oc → oc ≤ 6 → parseTagLoop d fuel pos acc oc = .error e →
    e = .truncatedTag ∨ e = .tagTooLarge := by
  intro fuel
  induction fuel with
  | zero => intro pos acc oc e h1 h2; omega
  | succ fuel ih =>
    intro pos acc oc e h1 h2 h
    simp only [parseTagLoop] at h
    by_cases hp : pos ≥ d.length
    · simp only [hp, if_true, Except.error.injEq] at h
      exact Or.inl h.symm
    · have hlt : pos < d.length := by omega
      simp only [hp, if_false, index_ok_of_lt hlt, bind, Except.bind] at h
      split at h
      · cases h
      · split at h
        · simp only [Except.error.injEq] at h
          exact Or.inr h.symm
        · rename_i hoc
          exact ih _ _ _ e (by omega) (by omega) h

theorem parseTag_outcome {d : List Byte} {p : Nat} {e : Err} (h : parseTag d p = .error e) :
    e = .unexpectedEnd ∨ e = .truncatedTag ∨ e = .tagTooLarge := by
  unfold parseTag at h
  by_cases hp : p ≥ d.length
  · simp only [hp, if_true, Except.error.injEq] at h
    exact Or.inl h.symm
  · have hlt : p < d.length := by omega
    simp only [hp, if_false, index_ok_of_lt hlt, bind, Except.bind] at h
    split at h
    · cases hl : parseTagLoop d 7 (p + 1) 0 0 with
      | error e2 =>
        rw [hl] at h
        simp only [Except.error.injEq] at h
        subst h
        exact Or.inr (parseTagLoop_outcome d 7 (p + 1) 0 0 e2 (by omega) (by omega) hl)
      | ok r => rw [hl] at h; cases h
    · cases h

theorem parseLengthLoop_total (d : List Byte) (pos : Nat) : ∀ (remaining i : Nat) (acc : Int),
    pos + i + remaining ≤ d.length → ∃ v, parseLengthLoop d pos remaining i acc = .ok v := by
  intro remaining
  induction remaining with
  | zero => intro i acc _; exact ⟨acc, rfl⟩
  | succ remaining ih =>
    intro i acc h
    have hlt : pos + i < d.length := by omega
    simp only [parseLengthLoop, index_ok_of_lt hlt, bind, Except.bind]
    exact ih (i + 1) _ (by omega)

theorem parseLength_outcome {d : List Byte} {p : Nat} {e : Err}
    (h : parseLength d p = .error e) :
    e = .unexpectedEndAfterTag ∨ e = .lengthBytesExceed := by
  unfold parseLength at h
  by_cases hp : p ≥ d.length
  · simp only [hp, if_true, Except.error.injEq] at h
    exact Or.inl h.symm
  · have hlt : p < d.length := by omega
    simp only [hp, if_false, index_ok_of_lt hlt, bind, Except.bind] at h
    split at h
    · cases h
    · split at h
      · cases h
      · split at h
        · simp only [Except.error.injEq] at h
          exact Or.inr h.symm
        · rename_i hle
          obtain ⟨v, hv⟩ := parseLengthLoop_total d (p + 1)
            ((d.get ⟨p, hlt⟩).val &&& 0x7F) 0 0 (by omega)
          rw [hv] at h
          cases h

theorem parseElementF_of_end {f : Nat} {d : List Byte} {p : Nat} (hp : p ≥ d.length) :
    parseElementF (f + 1) d p = .error .unexpectedEnd := by
  rw [parseElementF]
  simp only [hp, if_true]

theorem parseElementF_of_tag_error {f : Nat} {d : List Byte} {p : Nat} {e : Err}
    (hp : p < d.length) (hT : parseTag d p = .error e) :
    parseElementF (f + 1) d p = .error e := by
  have hp2 : ¬ (p ≥ d.length) := by omega
  rw [parseElementF]
  simp only [hp2, if_false, hT, bind, Except.bind]

theorem parseElementF_of_length_error {f : Nat} {d : List Byte} {p c t p1 : Nat} {k : Bool}
    {e : Err} (hp : p < d.length) (hT : parseTag d p = .ok (c, t, k, p1))
    (hL : parseLength d p1 = .error e) :
    parseElementF (f + 1) d p = .error e := by
  have hp2 : ¬ (p ≥ d.length) := by omega
  rw [parseElementF]
  simp only [hp2, if_false, hT, bind, Except.bind, hL]

theorem isEndOfContents_total (d : List Byte) (p : Nat) :
    ∃ b, isEndOfContents d p = .ok b := by
  obtain ⟨b, hb, -⟩ := isEndOfContents_ok d p
  exact ⟨b, hb⟩

theorem parseIndefiniteLoop_outcome {pe : List Byte → Nat → Except Err (ASN1Object × Nat)}
    {d : List Byte} (p0 : Nat)
    (hprog : ∀ p o q, pe d p = .ok (o, q) → p + 2 ≤ q ∧ q ≤ d.length)
    (hpe : ∀ p e, p0 ≤ p → p ≤ d.length → pe d p = .error e →
      e.isErrorValue ∨ e = .slicePanic) :
    ∀ (lf p : Nat) (acc : List ASN1Object) (e : Err), p0 ≤ p → p ≤ d.length →
      d.length + 1 ≤ lf + p → parseIndefiniteLoop pe d lf p acc = .error e →
      e.isErrorValue ∨ e = .slicePanic := by
  intro lf
  induction lf with
  | zero => intro p acc e _ h2 h3; omega
  | succ lf ih =>
    intro p acc e h1 h2 h3 h
    obtain ⟨b, hb⟩ := isEndOfContents_total d p
    simp only [parseIndefiniteLoop, hb, bind, Except.bind] at h
    cases b with
    | true => simp at h
    | false =>
      simp only [Bool.false_eq_true, if_false] at h
      cases hx : pe d p with
      | error e2 =>
        rw [hx] at h
        simp only [Except.error.injEq] at h
        subst h
        exact hpe p e2 h1 h2 hx
      | ok r =>
        obtain ⟨o, q⟩ := r
        rw [hx] at h
        obtain ⟨g1, g2⟩ := hprog p o q hx
        exact ih q _ e (by omega) g2 (by omega) h

theorem parseDefiniteLoop_outcome {pe : List Byte → Nat → Except Err (ASN1Object × Nat)}
    {d : List Byte} (endPos : Int) (p0 : Nat)
    (hprog : ∀ p o q, pe d p = .ok (o, q) → p + 2 ≤ q ∧ q ≤ d.length)
    (hpe : ∀ p e, p0 ≤ p → p ≤ d.length → pe d p = .error e →
      e.isErrorValue ∨ e = .slicePanic) :
    ∀ (lf p : Nat) (acc : List ASN1Object) (e : Err), p0 ≤ p → p ≤ d.length →
      d.length + 1 ≤ lf + p → parseDefiniteLoop pe d endPos lf p acc = .error e →
      e.isErrorValue ∨ e = .slicePanic := by
  intro lf
  induction lf with
  | zero => intro p acc e _ h2 h3; omega
  | succ lf ih =>
    intro p acc e h1 h2 h3 h
    simp only [parseDefiniteLoop] at h
    split at h
    · cases hx : pe d p with
      | error e2 =>
        rw [hx] at h
        simp only [bind, Except.bind, Except.error.injEq] at h
        subst h
        exact hpe p e2 h1 h2 hx
      | ok r =>
        obtain ⟨o, q⟩ := r
        rw [hx] at h
        obtain ⟨g1, g2⟩ := hprog p o q hx
        exact ih q _ e (by omega) g2 (by omega) h
    · cases h

theorem slice_outcome {d : List Byte} {lo : Nat} {hi : Int} {e : Err}
    (h : slice d lo hi = .error e) : e = .slicePanic := by
  unfold slice at h
  split at h
  · cases h
  · simp only [Except.error.injEq] at h
    exact h.symm

theorem map_error {α β : Type} {x : Except Err α} {g : α → β} {e : Err}
    (h : x.map g = .error e) : x = .error e := by
  cases x with
  | error e2 => simpa [Except.map] using h
  | ok a => simp [Except.map] at h

/-- With a recursion budget that covers the input left after `p`, the outcome of
`parseElementF` is a result, an error value of the program or the slice panic: never an
index panic and never the exhaustion of the fuel. -/
theorem parseElementF_outcome : ∀ (f : Nat) (d : List Byte) (p : Nat) (e : Err),
    1 ≤ f → d.length + 1 ≤ f + p → parseElementF f d p = .error e →
    e.isErrorValue ∨ e = .slicePanic := by
  intro f
  induction f with
  | zero => intro d p e h1; omega
  | succ f ih =>
    intro d p e _ hf h
    by_cases hp : p ≥ d.length
    · rw [parseElementF_of_end hp] at h
      cases h
      exact Or.inl trivial
    have hlt : p < d.length := by omega
    cases hT : parseTag d p with
    | error e1 =>
      rw [parseElementF_of_tag_error hlt hT] at h
      cases h
      rcases parseTag_outcome hT with rfl | rfl | rfl <;> exact Or.inl trivial
    | ok r1 =>
      obtain ⟨c, t, k, p1⟩ := r1
      have hb1 := parseTag_frame [] [] hT
      cases hL : parseLength d p1 with
      | error e1 =>
        rw [parseElementF_of_length_error hlt hT hL] at h
        cases h
        rcases parseLength_outcome hL with rfl | rfl <;> exact Or.inl trivial
      | ok r2 =>
        obtain ⟨len, p2⟩ := r2
        have hb2 := parseLength_frame [] [] hL
        have hprog : ∀ p' o q, parseElementF f d p' = .ok (o, q) →
            p' + 2 ≤ q ∧ q ≤ d.length := fun p' o q hx => parseElementF_progress hx
        have hpe : ∀ p' e', p2 ≤ p' → p' ≤ d.length → parseElementF f d p' = .error e' →
            e'.isErrorValue ∨ e' = .slicePanic :=
          fun p' e' g1 g2 hx => ih d p' e' (by omega) (by omega) hx
        by_cases hlen : len = -1
        · subst hlen
          rw [parseElementF_of_indefinite hlt hT hL] at h
          have h2 := map_error h
          unfold parseIndefiniteContent at h2
          split at h2
          · cases h2
            exact Or.inl trivial
          · cases hl : parseIndefiniteLoop (parseElementF f) d (d.length + 1) p2 [] with
            | error e2 =>
              rw [hl] at h2
              simp only [bind, Except.bind, Except.error.injEq] at h2
              subst h2
              exact parseIndefiniteLoop_outcome p2 hprog hpe _ _ _ _ (Nat.le_refl _) hb2.2.1
                (by omega) hl
            | ok r3 => rw [hl] at h2; cases h2
        · rw [parseElementF_of_definite hlt hT hL hlen] at h
          have h2 := map_error h
          unfold parseDefiniteContent at h2
          split at h2
          · cases h2
            exact Or.inl trivial
          · split at h2
            · dsimp only at h2
              cases hl : parseDefiniteLoop (parseElementF f) d (wrapInt ((p2 : Int) + len))
                  (d.length + 1) p2 [] with
              | error e2 =>
                rw [hl] at h2
                simp only [bind, Except.bind, Except.error.injEq] at h2
                subst h2
                exact parseDefiniteLoop_outcome _ p2 hprog hpe _ _ _ _ (Nat.le_refl _)
                  hb2.2.1 (by omega) hl
              | ok r3 =>
                rw [hl] at h2
                simp only [bind, Except.bind] at h2
                split at h2
                · cases h2
                  exact Or.inl trivial
                · cases h2
            · cases hs : slice d p2 (wrapInt ((p2 : Int) + len)) with
              | error e2 =>
                rw [hs] at h2
                simp only [bind, Except.bind, Except.error.injEq] at h2
                subst h2
                exact Or.inr (slice_outcome hs)
              | ok v => rw [hs] at h2; cases h2

theorem parseIndefiniteLoop_congr {pe pe2 : List Byte → Nat → Except Err (ASN1Object × Nat)}
    {d : List Byte} (p0 : Nat)
    (hprog : ∀ p o q, pe d p = .ok (o, q) → p + 2 ≤ q ∧ q ≤ d.length)
    (heq : ∀ p, p0 ≤ p → p ≤ d.length → pe d p = pe2 d p) :
    ∀ (lf p : Nat) (acc : List ASN1Object), p0 ≤ p → p ≤ d.length →
      parseIndefiniteLoop pe d lf p acc = parseIndefiniteLoop pe2 d lf p acc := by
  intro lf
  induction lf with
  | zero => intro p acc _ _; rfl
  | succ lf ih =>
    intro p acc h1 h2
    simp only [parseIndefiniteLoop]
    rw [← heq p h1 h2]
    obtain ⟨b, hb⟩ := isEndOfContents_total d p
    simp only [hb, bind, Except.bind]
    cases b with
    | true => rfl
    | false =>
      simp only [Bool.false_eq_true, if_false]
      cases hx : pe d p with
      | error e => rfl
      | ok r =>
        obtain ⟨o, q⟩ := r
        obtain ⟨g1, g2⟩ := hprog p o q hx
        exact ih q _ (by omega) g2

theorem parseDefiniteLoop_congr {pe pe2 : List Byte → Nat → Except Err (ASN1Object × Nat)}
    {d : List Byte} (p0 : Nat)
    (hprog : ∀ p o q, pe d p = .ok (o, q) → p + 2 ≤ q ∧ q ≤ d.length)
    (heq : ∀ p, p0 ≤ p → p ≤ d.length → pe d p = pe2 d p) :
    ∀ (endPos : Int) (lf p : Nat) (acc : List ASN1Object), p0 ≤ p → p ≤ d.length →
      parseDefiniteLoop pe d endPos lf p acc = parseDefiniteLoop pe2 d endPos lf p acc := by
  intro endPos lf
  induction lf with
  | zero => intro p acc _ _; rfl
  | succ lf ih =>
    intro p acc h1 h2
    simp only [parseDefiniteLoop]
    rw [← heq p h1 h2]
    split
    · cases hx : pe d p with
      | error e => rfl
      | ok r =>
        obtain ⟨o, q⟩ := r
        obtain ⟨g1, g2⟩ := hprog p o q hx
        exact ih q _ (by omega) g2
    · rfl

/-- The result of `parseElementF` does not depend on the recursion budget, once the budget
covers the input left after `p`. -/
theorem parseElementF_fuel_eq : ∀ (f f2 : Nat) (d : List Byte) (p : Nat),
    1 ≤ f → 1 ≤ f2 → d.length + 1 ≤ f + p → d.length + 1 ≤ f2 + p →
    parseElementF f d p = parseElementF f2 d p := by
  intro f
  induction f with
  | zero => intro f2 d p h1; omega
  | succ f ih =>
    intro f2 d p _ h2 hf hf2
    obtain ⟨g, rfl⟩ : ∃ g, f2 = g + 1 := ⟨f2 - 1, by omega⟩
    by_cases hp : p ≥ d.length
    · rw [parseElementF_of_end hp, parseElementF_of_end hp]
    have hlt : p < d.length := by omega
    cases hT : parseTag d p with
    | error e1 =>
      rw [parseElementF_of_tag_error hlt hT, parseElementF_of_tag_error hlt hT]
    | ok r1 =>
      obtain ⟨c, t, k, p1⟩ := r1
      have hb1 := parseTag_frame [] [] hT
      cases hL : parseLength d p1 with
      | error e1 =>
        rw [parseElementF_of_length_error hlt hT hL, parseElementF_of_length_error hlt hT hL]
      | ok r2 =>
        obtain ⟨len, p2⟩ := r2
        have hb2 := parseLength_frame [] [] hL
        have hprog : ∀ p' o q, parseElementF f d p' = .ok (o, q) →
            p' + 2 ≤ q ∧ q ≤ d.length := fun p' o q hx => parseElementF_progress hx
        have heq : ∀ p', p2 ≤ p' → p' ≤ d.length →
            parseElementF f d p' = parseElementF g d p' :=
          fun p' g1 g2 => ih g d p' (by omega) (by omega) (by omega) (by omega)
        by_cases hlen : len = -1
        · subst hlen
          rw [parseElementF_of_indefinite hlt hT hL, parseElementF_of_indefinite hlt hT hL]
          have hc : parseIndefiniteContent (parseElementF f) d p2 k c t
              = parseIndefiniteContent (parseElementF g) d p2 k c t := by
            unfold parseIndefiniteContent
            rw [parseIndefiniteLoop_congr p2 hprog heq _ _ _ (Nat.le_refl _) hb2.2.1]
          rw [hc]
        · rw [parseElementF_of_definite hlt hT hL hlen, parseElementF_of_definite hlt hT hL hlen]
          have hc : parseDefiniteContent (parseElementF f) d p2 len k
              = parseDefiniteContent (parseElementF g) d p2 len k := by
            unfold parseDefiniteContent
            dsimp only
            rw [parseDefiniteLoop_congr p2 hprog heq _ _ _ _ (Nat.le_refl _) hb2.2.1]
          rw [hc]

theorem isErrorValue_of_flatten {e : Err} (h : e.isFlattenError) : e.isErrorValue := by
  cases e <;> trivial

theorem isErrorValue_ne {e : Err} (h : e.isErrorValue ∨ e = .slicePanic) :
    e ≠ .indexPanic ∧ e ≠ .fuelExhausted := by
  rcases h with h | rfl
  · constructor <;> (rintro rfl; exact h)
  · constructor <;> (intro h2; cases h2)

/-- Function `MakeDER` returns bytes or an error value on every input, except where the
slice expression of the primitive branch of parseDefiniteContent panics. -/
theorem MakeDER_outcome (data : List Byte) (e : Err) (h : MakeDER data = .error e) :
    e.isErrorValue ∨ e = .slicePanic := by
  unfold MakeDER at h
  split at h
  · cases h
    exact Or.inl trivial
  · cases hp : parseElement data 0 with
    | error e2 =>
      rw [hp] at h
      simp only [bind, Except.bind, Except.error.injEq] at h
      subst h
      exact parseElementF_outcome (data.length + 1) data 0 e2 (by omega) (by omega) hp
    | ok r =>
      obtain ⟨obj, q⟩ := r
      rw [hp] at h
      simp only [bind, Except.bind] at h
      split at h
      · cases h
        exact Or.inl trivial
      · exact Or.inl (isErrorValue_of_flatten (encodeDER_error obj e h))

theorem parseElement_total (data : List Byte) (pos : Nat) :
    (∀ f o p, parseElementF f data pos = .ok (o, p) → pos + 2 ≤ p ∧ p ≤ data.length) ∧
    (∀ o p, parseElement data pos = .ok (o, p) → pos + 2 ≤ p ∧ p ≤ data.length) ∧
    parseElement data pos ≠ .error .fuelExhausted ∧
    (∀ f, 1 ≤ f → data.length + 1 ≤ f + pos →
      parseElementF f data pos = parseElement data pos) ∧
    (∀ (f lf : Nat) (acc : List ASN1Object) (endPos : Int), 1 ≤ f → pos ≤ data.length →
      data.length + 1 ≤ f + pos → data.length + 1 ≤ lf + pos →
      parseIndefiniteLoop (parseElementF f) data lf pos acc ≠ .error .fuelExhausted ∧
      parseDefiniteLoop (parseElementF f) data endPos lf pos acc ≠ .error .fuelExhausted) := by
  refine ⟨fun f o p h => parseElementF_progress h, fun o p h => parseElementF_progress h,
    ?_, ?_, ?_⟩
  · intro h
    exact (isErrorValue_ne
      (parseElementF_outcome (data.length + 1) data pos _ (by omega) (by omega) h)).2 rfl
  · intro f h1 h2
    exact parseElementF_fuel_eq f (data.length + 1) data pos h1 (by omega) h2 (by omega)
  · intro f lf acc endPos h1 hple hf hlf
    have hprog : ∀ p' o q, parseElementF f data p' = .ok (o, q) →
        p' + 2 ≤ q ∧ q ≤ data.length := fun p' o q hx => parseElementF_progress hx
    have hpe : ∀ p' e', pos ≤ p' → p' ≤ data.length → parseElementF f data p' = .error e' →
        e'.isErrorValue ∨ e' = .slicePanic :=
      fun p' e' g1 g2 hx => parseElementF_outcome f data p' e' h1 (by omega) hx
    constructor
    · intro h
      exact (isErrorValue_ne (parseIndefiniteLoop_outcome pos hprog hpe lf pos acc _
        (Nat.le_refl _) hple hlf h)).2 rfl
    · intro h
      exact (isErrorValue_ne (parseDefiniteLoop_outcome endPos pos hprog hpe lf pos acc _
        (Nat.le_refl _) hple hlf h)).2 rfl

/-! ## Inversion of a successful parse -/

theorem isEndOfContents_eq (d : List Byte) (p : Nat) :
    isEndOfContents d p = .ok (decide (MarkerAt d p)) := by
  unfold isEndOfContents MarkerAt
  by_cases h : p + 2 ≤ d.length
  · have h0 : p < d.length := by omega
    have h1 : p + 1 < d.length := by omega
    simp only [h, if_true, index_ok_of_lt h0, index_ok_of_lt h1, bind, Except.bind,
      List.getElem?_eq_getElem h0, List.getElem?_eq_getElem h1, Option.some.injEq]
    by_cases hb : d.get ⟨p, h0⟩ = 0
    · have hb2 : d[p] = 0 := hb
      simp only [hb, if_true, hb2, true_and]
      rfl
    · have hb2 : ¬ (d[p] = 0) := hb
      simp only [hb, if_false, hb2, false_and, decide_False]
  · have h1 : d[p + 1]? = none := List.getElem?_eq_none (by omega)
    simp only [h, if_false, h1, and_false, decide_False]
    simp

theorem parseIndefiniteLoop_chain {pe : List Byte → Nat → Except Err (ASN1Object × Nat)}
    {data : List Byte} : ∀ (lf p : Nat) (acc r : List ASN1Object) (q : Nat),
    parseIndefiniteLoop pe data lf p acc = .ok (r, q) →
    ∃ subs, r = acc ++ subs ∧ IndefiniteChain pe data p subs q := by
  intro lf
  induction lf with
  | zero => intro p acc r q h; simp [parseIndefiniteLoop] at h
  | succ lf ih =>
    intro p acc r q h
    simp only [parseIndefiniteLoop, isEndOfContents_eq, bind, Except.bind] at h
    by_cases hm : MarkerAt data p
    · simp only [hm, decide_True, if_true, Except.ok.injEq, Prod.mk.injEq] at h
      obtain ⟨rfl, rfl⟩ := h
      exact ⟨[], by simp, hm, rfl⟩
    · simp only [hm, decide_False, Bool.false_eq_true, if_false] at h
      cases hpe : pe data p with
      | error e => rw [hpe] at h; cases h
      | ok res =>
        obtain ⟨o, p2⟩ := res
        rw [hpe] at h
        obtain ⟨subs, h1, h2⟩ := ih p2 (acc ++ [o]) r q h
        exact ⟨o :: subs, by rw [h1]; simp, hm, p2, hpe, h2⟩

theorem parseIndefiniteLoop_of_chain {pe : List Byte → Nat → Except Err (ASN1Object × Nat)}
    {data : List Byte}
    (hprog : ∀ p o q, pe data p = .ok (o, q) → p + 2 ≤ q ∧ q ≤ data.length) :
    ∀ (subs : List ASN1Object) (p q : Nat) (acc : List ASN1Object) (lf : Nat),
      IndefiniteChain pe data p subs q → p ≤ data.length → data.length + 1 ≤ lf + p →
      parseIndefiniteLoop pe data lf p acc = .ok (acc ++ subs, q)
  | [], p, q, acc, lf, h, hp, hlf => by
    simp only [IndefiniteChain] at h
    obtain ⟨hm, rfl⟩ := h
    obtain ⟨m, rfl⟩ : ∃ m, lf = m + 1 := ⟨lf - 1, by omega⟩
    simp only [parseIndefiniteLoop, isEndOfContents_eq, bind, Except.bind, hm, decide_True,
      if_true, List.append_nil]
  | o :: rest, p, q, acc, lf, h, hp, hlf => by
    simp only [IndefiniteChain] at h
    obtain ⟨hm, p2, hpe, hrest⟩ := h
    obtain ⟨h1, h2⟩ := hprog p o p2 hpe
    obtain ⟨m, rfl⟩ : ∃ m, lf = m + 1 := ⟨lf - 1, by omega⟩
    simp only [parseIndefiniteLoop, isEndOfContents_eq, bind, Except.bind, hm, decide_False,
      Bool.false_eq_true, if_false, hpe]
    rw [parseIndefiniteLoop_of_chain hprog rest p2 q (acc ++ [o]) m hrest h2 (by omega)]
    simp

theorem indefiniteChain_members {pe : List Byte → Nat → Except Err (ASN1Object × Nat)}
    {data : List Byte} : ∀ (subs : List ASN1Object) (p q : Nat),
    IndefiniteChain pe data p subs q → ∀ s ∈ subs, ∃ p2 q2, pe data p2 = .ok (s, q2)
  | [], _, _, _ => by simp
  | o :: rest, p, q, h => by
    simp only [IndefiniteChain] at h
    obtain ⟨-, p2, hpe, hrest⟩ := h
    intro s hs
    rcases List.mem_cons.mp hs with rfl | hs
    · exact ⟨p, p2, hpe⟩
    · exact indefiniteChain_members rest p2 q hrest s hs

theorem childrenChain_members {pe : List Byte → Nat → Except Err (ASN1Object × Nat)}
    {data : List Byte} {endPos : Int} : ∀ (subs : List ASN1Object) (p q : Nat),
    ChildrenChain pe data endPos p subs q → ∀ s ∈ subs, ∃ p2 q2, pe data p2 = .ok (s, q2)
  | [], _, _, _ => by simp
  | o :: rest, p, q, h => by
    simp only [ChildrenChain] at h
    obtain ⟨-, p2, hpe, hrest⟩ := h
    intro s hs
    rcases List.mem_cons.mp hs with rfl | hs
    · exact ⟨p, p2, hpe⟩
    · exact childrenChain_members rest p2 q hrest s hs

theorem parseIndefiniteContent_inv {pe : List Byte → Nat → Except Err (ASN1Object × Nat)}
    {data : List Byte} {p2 c t q : Nat} {k : Bool} {v : List Byte} {subs : List ASN1Object}
    (h : parseIndefiniteContent pe data p2 k c t = .ok (v, subs, q)) :
    k = true ∧ v = [] ∧ IndefiniteChain pe data p2 subs q := by
  unfold parseIndefiniteContent at h
  split at h
  · cases h
  · rename_i hk
    cases hl : parseIndefiniteLoop pe data (data.length + 1) p2 [] with
    | error e => rw [hl] at h; cases h
    | ok res =>
      obtain ⟨r, q2⟩ := res
      rw [hl] at h
      simp only [bind, Except.bind, Except.ok.injEq, Prod.mk.injEq] at h
      obtain ⟨rfl, rfl, rfl⟩ := h
      obtain ⟨subs, hr, hchain⟩ := parseIndefiniteLoop_chain _ _ _ _ _ hl
      simp only [List.nil_append] at hr
      subst hr
      exact ⟨by simpa using hk, rfl, hchain⟩

theorem parseDefiniteContent_inv {pe : List Byte → Nat → Except Err (ASN1Object × Nat)}
    {data : List Byte} {p2 q : Nat} {len : Int} {k : Bool} {v : List Byte}
    {subs : List ASN1Object}
    (h : parseDefiniteContent pe data p2 len k = .ok (v, subs, q)) :
    (k = true ∧ v = [] ∧ (q : Int) = wrapInt ((p2 : Int) + len) ∧
        ChildrenChain pe data (wrapInt ((p2 : Int) + len)) p2 subs q) ∨
      (k = false ∧ subs = [] ∧ slice data p2 (wrapInt ((p2 : Int) + len)) = .ok v ∧
        q = (wrapInt ((p2 : Int) + len)).toNat) := by
  unfold parseDefiniteContent at h
  split at h
  · cases h
  · split at h
    · rename_i hk
      dsimp only at h
      cases hl : parseDefiniteLoop pe data (wrapInt ((p2 : Int) + len)) (data.length + 1)
          p2 [] with
      | error e => rw [hl] at h; cases h
      | ok res =>
        obtain ⟨r, q2⟩ := res
        rw [hl] at h
        simp only [bind, Except.bind] at h
        split at h
        · cases h
        · rename_i hne
          simp only [ne_eq, Decidable.not_not] at hne
          simp only [Except.ok.injEq, Prod.mk.injEq] at h
          obtain ⟨rfl, rfl, rfl⟩ := h
          obtain ⟨subs, hr, hchain, -⟩ := parseDefiniteLoop_chain _ _ _ _ _ hl
          simp only [List.nil_append] at hr
          subst hr
          exact Or.inl ⟨hk, rfl, hne, hchain⟩
    · rename_i hk
      cases hs : slice data p2 (wrapInt ((p2 : Int) + len)) with
      | error e => rw [hs] at h; cases h
      | ok val =>
        rw [hs] at h
        simp only [bind, Except.bind, Except.ok.injEq, Prod.mk.injEq] at h
        obtain ⟨rfl, rfl, rfl⟩ := h
        exact Or.inr ⟨by simpa using hk, rfl, rfl, rfl⟩

theorem map_ok {α β : Type} {x : Except Err α} {g : α → β} {b : β}
    (h : x.map g = .ok b) : ∃ a, x = .ok a ∧ g a = b := by
  cases x with
  | error e => simp [Except.map] at h
  | ok a =>
    simp only [Except.map, Except.ok.injEq] at h
    exact ⟨a, rfl, h⟩

/-- A successful call of `parseElementF`, taken apart: identifier, length field, content. -/
theorem parseElementF_inv {f : Nat} {d : List Byte} {p q : Nat} {o : ASN1Object}
    (h : parseElementF (f + 1) d p = .ok (o, q)) :
    ∃ (c t p1 p2 : Nat) (k : Bool) (len : Int) (v : List Byte) (subs : List ASN1Object),
      p < d.length ∧ parseTag d p = .ok (c, t, k, p1) ∧ parseLength d p1 = .ok (len, p2) ∧
      o = ASN1Object.mk c t k v subs ∧
      ((len = -1 ∧ parseIndefiniteContent (parseElementF f) d p2 k c t = .ok (v, subs, q)) ∨
        (¬ (len = -1) ∧
          parseDefiniteContent (parseElementF f) d p2 len k = .ok (v, subs, q))) := by
  by_cases hp : p ≥ d.length
  · rw [parseElementF_of_end hp] at h
    cases h
  have hlt : p < d.length := by omega
  cases hT : parseTag d p with
  | error e1 =>
    rw [parseElementF_of_tag_error hlt hT] at h
    cases h
  | ok r1 =>
    obtain ⟨c, t, k, p1⟩ := r1
    cases hL : parseLength d p1 with
    | error e1 =>
      rw [parseElementF_of_length_error hlt hT hL] at h
      cases h
    | ok r2 =>
      obtain ⟨len, p2⟩ := r2
      by_cases hlen : len = -1
      · subst hlen
        rw [parseElementF_of_indefinite hlt hT hL] at h
        obtain ⟨⟨v, subs, q2⟩, hc, hg⟩ := map_ok h
        simp only [Prod.mk.injEq] at hg
        obtain ⟨rfl, rfl⟩ := hg
        exact ⟨c, t, p1, p2, k, -1, v, subs, hlt, rfl, hL, rfl, Or.inl ⟨rfl, hc⟩⟩
      · rw [parseElementF_of_definite hlt hT hL hlen] at h
        obtain ⟨⟨v, subs, q2⟩, hc, hg⟩ := map_ok h
        simp only [Prod.mk.injEq] at hg
        obtain ⟨rfl, rfl⟩ := hg
        exact ⟨c, t, p1, p2, k, len, v, subs, hlt, rfl, hL, rfl, Or.inr ⟨hlen, hc⟩⟩

/-- Every node of the tree returned by a call of `parseElementF` on `d` is itself the
object returned by a call of `parseElementF` on `d`. -/
theorem parseElementF_nodes_parsed : ∀ (f : Nat) (d : List Byte) (p : Nat) (o : ASN1Object)
    (q : Nat), parseElementF f d p = .ok (o, q) →
    AllNodes (fun x => ∃ f2 p2 q2, parseElementF (f2 + 1) d p2 = .ok (x, q2)) o := by
  intro f
  induction f with
  | zero =>
    intro d p o q h
    rw [parseElementF] at h
    cases h
  | succ f ih =>
    intro d p o q h
    obtain ⟨c, t, p1, p2, k, len, v, subs, hlt, hT, hL, rfl, hcont⟩ := parseElementF_inv h
    rw [allNodes_mk]
    refine ⟨⟨f, p, q, h⟩, ?_⟩
    intro s hs
    have hmem : ∃ p3 q3, parseElementF f d p3 = .ok (s, q3) := by
      rcases hcont with ⟨-, hc⟩ | ⟨-, hc⟩
      · obtain ⟨-, -, hchain⟩ := parseIndefiniteContent_inv hc
        exact indefiniteChain_members subs p2 q hchain s hs
      · rcases parseDefiniteContent_inv hc with ⟨-, -, -, hchain⟩ | ⟨-, rfl, -, -⟩
        · exact childrenChain_members subs p2 q hchain s hs
        · simp at hs
    obtain ⟨p3, q3, h3⟩ := hmem
    exact ih d p3 s q3 h3

/-! ## Nodes of the parsed tree -/

theorem wrapInt_bounds (x : Int) : -2 ^ 63 ≤ wrapInt x ∧ wrapInt x < 2 ^ 63 := by
  unfold wrapInt
  norm_num
  omega

theorem parseLengthLoop_range (d : List Byte) (pos : Nat) : ∀ (remaining i : Nat)
    (acc v : Int), -2 ^ 63 ≤ acc ∧ acc < 2 ^ 63 →
    parseLengthLoop d pos remaining i acc = .ok v → -2 ^ 63 ≤ v ∧ v < 2 ^ 63 := by
  intro remaining
  induction remaining with
  | zero =>
    intro i acc v hacc h
    simp only [parseLengthLoop, Except.ok.injEq] at h
    subst h
    exact hacc
  | succ remaining ih =>
    intro i acc v _ h
    simp only [parseLengthLoop] at h
    cases hb : index d (pos + i) with
    | error e => rw [hb] at h; cases h
    | ok b =>
      rw [hb] at h
      exact ih (i + 1) _ v (wrapInt_bounds _) h

theorem parseLength_range {d : List Byte} {p q : Nat} {len : Int}
    (h : parseLength d p = .ok (len, q)) : -2 ^ 63 ≤ len ∧ len < 2 ^ 63 := by
  unfold parseLength at h
  split at h
  · cases h
  · cases hb : index d p with
    | error e => rw [hb] at h; cases h
    | ok b =>
      rw [hb] at h
      simp only [bind, Except.bind] at h
      have hb256 : (b.val : Int) < 256 := by exact_mod_cast b.isLt
      have hb0 : (0 : Int) ≤ (b.val : Int) := Int.ofNat_nonneg _
      split at h
      · simp only [Except.ok.injEq, Prod.mk.injEq] at h
        obtain ⟨rfl, -⟩ := h
        constructor <;> omega
      · split at h
        · simp only [Except.ok.injEq, Prod.mk.injEq] at h
          obtain ⟨rfl, -⟩ := h
          constructor <;> norm_num
        · split at h
          · cases h
          · cases hl : parseLengthLoop d (p + 1) (b.val &&& 0x7F) 0 0 with
            | error e => rw [hl] at h; cases h
            | ok v =>
              rw [hl] at h
              simp only [Except.ok.injEq, Prod.mk.injEq] at h
              obtain ⟨rfl, -⟩ := h
              exact parseLengthLoop_range d (p + 1) _ 0 0 v (by norm_num) hl

/-! ## The end-of-contents marker -/

theorem parseIndefiniteContent_chain_iff (f : Nat) (data : List Byte) (pos c t : Nat) :
    (∀ v subs q, parseIndefiniteContent (parseElementF f) data pos true c t
        = .ok (v, subs, q) →
      v = [] ∧ IndefiniteChain (parseElementF f) data pos subs q) ∧
    (∀ subs q, pos ≤ data.length → IndefiniteChain (parseElementF f) data pos subs q →
      parseIndefiniteContent (parseElementF f) data pos true c t = .ok ([], subs, q)) := by
  constructor
  · intro v subs q h
    exact (parseIndefiniteContent_inv h).2
  · intro subs q hpos hchain
    have hprog : ∀ p' o q, parseElementF f data p' = .ok (o, q) →
        p' + 2 ≤ q ∧ q ≤ data.length := fun p' o q hx => parseElementF_progress hx
    unfold parseIndefiniteContent
    simp only [not_true_eq_false, if_false]
    rw [parseIndefiniteLoop_of_chain hprog subs pos q [] (data.length + 1) hchain hpos
      (by omega)]
    rfl

/-- C23 as stated fails. The two octets `00 00` inside the definite-length SEQUENCE
`30 02 00 00`, and at the top level, are parsed as a Universal primitive tag-0 node with
empty content, which is an end-of-contents element, and MakeDER returns them in its
output. -/
theorem eoc_node_counterexample :
    parseElement [0x30, 0x02, 0x00, 0x00] 0
        = .ok (ASN1Object.mk 0 16 true [] [ASN1Object.mk 0 0 false [] []], 4) ∧
      IsEndOfContentsNode (ASN1Object.mk 0 0 false [] []) ∧
      MakeDER [0x30, 0x02, 0x00, 0x00] = .ok [0x30, 0x02, 0x00, 0x00] ∧
      parseElement [0x00, 0x00] 0 = .ok (ASN1Object.mk 0 0 false [] [], 2) ∧
      MakeDER [0x00, 0x00] = .ok [0x00, 0x00] ∧
      ¬ (∀ (data : List Byte) (o : ASN1Object) (q : Nat), parseElement data 0 = .ok (o, q) →
          AllNodes (fun x => ¬ IsEndOfContentsNode x) o) := by
  refine ⟨by rfl, by decide, by rfl, by rfl, by rfl, ?_⟩
  intro hall
  have h := hall [0x00, 0x00] (ASN1Object.mk 0 0 false [] []) 2 (by rfl)
  rw [allNodes_mk] at h
  exact h.1 (by decide)

/-- C23, amended. The end-of-contents marker that ends an indefinite-length element never
enters the tree: parseIndefiniteContent on a constructed element succeeds exactly when
sub-elements are parsed one after the other from `pos`, each starting at a position where
the two octets `00 00` do not stand, and `00 00` stands after the last of them; it then
returns exactly these sub-elements, no value bytes, and the position after the marker, so no
node stands for the marker.  The output of MakeDER is the encoding of the tree that the
parser returned for the whole input, so nothing in it comes from the marker. -/
theorem eoc_marker_not_in_tree (f : Nat) (data : List Byte) (pos c t : Nat) :
    (∀ v subs q, parseIndefiniteContent (parseElementF f) data pos true c t
        = .ok (v, subs, q) →
      v = [] ∧ IndefiniteChain (parseElementF f) data pos subs q) ∧
    (∀ subs q, pos ≤ data.length → IndefiniteChain (parseElementF f) data pos subs q →
      parseIndefiniteContent (parseElementF f) data pos true c t = .ok ([], subs, q)) ∧
    (∀ out, MakeDER data = .ok out →
      ∃ obj, parseElement data 0 = .ok (obj, data.length) ∧ encodeDER obj = .ok out) :=
  ⟨(parseIndefiniteContent_chain_iff f data pos c t).1,
   (parseIndefiniteContent_chain_iff f data pos c t).2,
   fun _ h => MakeDER_ok h⟩

/-- Witness of the amended C23 on `30 80 02 01 05 00 00`: the content of the SEQUENCE, from
position 2, is the INTEGER and then the marker; one sub-element is returned and the position
is 7. -/
theorem eoc_marker_not_in_tree_witness :
    parseIndefiniteContent (parseElementF 7) [0x30, 0x80, 0x02, 0x01, 0x05, 0x00, 0x00] 2
        true 0 16
      = .ok ([], [ASN1Object.mk 0 2 false [0x05] []], 7) :=
  (eoc_marker_not_in_tree 7 [0x30, 0x80, 0x02, 0x01, 0x05, 0x00, 0x00] 2 0 16).2.1
    [ASN1Object.mk 0 2 false [0x05] []] 7 (by decide)
    ⟨by decide, 5, by rfl, by decide, rfl⟩

/-! ## Claims C25 and C26 -/

set_option maxRecDepth 100000 in
/-- C25, failing inputs. On `04 88 ff ff ff ff ff ff ff fe` the length decoder returns -2,
the test `pos+length > len(data)` does not fire, and the slice expression
`data[pos : pos+length]` of the primitive branch panics; on `04 88 7f ff ff ff ff ff ff ff`
the sum `pos+length` wraps and the same expression panics.  These are the only panics: on
no input does MakeDER end in an index panic, and the loops of the embedding always have
enough fuel. -/
theorem MakeDER_slice_panic :
    parseLength [0x04, 0x88, 0xFF, 0xFF, 0xFF, 0xFF, 0xFF, 0xFF, 0xFF, 0xFE] 1
        = .ok (-2, 10) ∧
      MakeDER [0x04, 0x88, 0xFF, 0xFF, 0xFF, 0xFF, 0xFF, 0xFF, 0xFF, 0xFE]
        = .error .slicePanic ∧
      MakeDER [0x04, 0x88, 0x7F, 0xFF, 0xFF, 0xFF, 0xFF, 0xFF, 0xFF, 0xFF]
        = .error .slicePanic ∧
      ¬ Err.isErrorValue .slicePanic ∧
      (∀ data : List Byte,
        MakeDER data ≠ .error .indexPanic ∧ MakeDER data ≠ .error .fuelExhausted) := by
  refine ⟨by rfl, by rfl, by rfl, fun h => h, ?_⟩
  intro data
  constructor
  · intro h
    exact (isErrorValue_ne (MakeDER_outcome data _ h)).1 rfl
  · intro h
    exact (isErrorValue_ne (MakeDER_outcome data _ h)).2 rfl

/-- Claim C26 (parser progress and termination). For every `data` and `pos`: if
parseElement at `pos` succeeds with new position `p` then `pos + 2 ≤ p ≤ len(data)`, with
any recursion budget, so every iteration of the two child-parsing loops advances the
position by at least two; the recursion of parseElement is well founded on the remaining
input: the fuel of the embedding never runs out, neither in parseElement nor in the two
loops, and the result is the same for every recursion budget that covers the remaining
input. -/
theorem parseElement_progress_total (data : List Byte) (pos : Nat) :
    (∀ f o p, parseElementF f data pos = .ok (o, p) → pos + 2 ≤ p ∧ p ≤ data.length) ∧
    (∀ o p, parseElement data pos = .ok (o, p) → pos + 2 ≤ p ∧ p ≤ data.length) ∧
    parseElement data pos ≠ .error .fuelExhausted ∧
    (∀ f, 1 ≤ f → data.length + 1 ≤ f + pos →
      parseElementF f data pos = parseElement data pos) ∧
    (∀ (f lf : Nat) (acc : List ASN1Object) (endPos : Int), 1 ≤ f → pos ≤ data.length →
      data.length + 1 ≤ f + pos → data.length + 1 ≤ lf + pos →
      parseIndefiniteLoop (parseElementF f) data lf pos acc ≠ .error .fuelExhausted ∧
      parseDefiniteLoop (parseElementF f) data endPos lf pos acc ≠ .error .fuelExhausted) :=
  parseElement_total data pos

/-- Witness of C26 on `30 03 02 01 05`: the element at 0 ends at 5, and the budget 4 gives
the result of parseElement for the INTEGER at position 2. -/
theorem parseElement_progress_total_witness :
    (0 + 2 ≤ 5 ∧ 5 ≤ ([0x30, 0x03, 0x02, 0x01, 0x05] : List Byte).length) ∧
      parseElementF 4 [0x30, 0x03, 0x02, 0x01, 0x05] 2
        = parseElement [0x30, 0x03, 0x02, 0x01, 0x05] 2 :=
  ⟨(parseElement_progress_total [0x30, 0x03, 0x02, 0x01, 0x05] 0).2.1
      (ASN1Object.mk 0 16 true [] [ASN1Object.mk 0 2 false [0x05] []]) 5 (by rfl),
   (parseElement_progress_total [0x30, 0x03, 0x02, 0x01, 0x05] 2).2.2.2.1 4 (by decide)
      (by decide)⟩

/-! ## Nodes of the parsed tree and the octets they were parsed from -/

theorem childrenChain_elementsAt {pe : List Byte → Nat → Except Err (ASN1Object × Nat)}
    {d : List Byte} {endPos : Int}
    (ih : ∀ p o q, pe d p = .ok (o, q) → ElementAt d o p q) :
    ∀ (subs : List ASN1Object) (p q : Nat), ChildrenChain pe d endPos p subs q →
      ElementsAt d false subs p q
  | [], p, q, h => by
    simp only [ChildrenChain] at h
    simp only [ElementsAt, h]
  | o :: rest, p, q, h => by
    simp only [ChildrenChain] at h
    obtain ⟨-, p2, hpe, hrest⟩ := h
    simp only [ElementsAt]
    exact ⟨by simp, p2, ih p o p2 hpe, childrenChain_elementsAt ih rest p2 q hrest⟩

theorem indefiniteChain_elementsAt {pe : List Byte → Nat → Except Err (ASN1Object × Nat)}
    {d : List Byte}
    (ih : ∀ p o q, pe d p = .ok (o, q) → ElementAt d o p q) :
    ∀ (subs : List ASN1Object) (p q : Nat), IndefiniteChain pe d p subs q →
      ∃ q2, ElementsAt d true subs p q2 ∧ MarkerAt d q2 ∧ q = q2 + 2
  | [], p, q, h => by
    simp only [IndefiniteChain] at h
    exact ⟨p, by simp only [ElementsAt], h.1, h.2⟩
  | o :: rest, p, q, h => by
    simp only [IndefiniteChain] at h
    obtain ⟨hm, p2, hpe, hrest⟩ := h
    obtain ⟨q2, h1, h2, h3⟩ := indefiniteChain_elementsAt ih rest p2 q hrest
    refine ⟨q2, ?_, h2, h3⟩
    simp only [ElementsAt]
    exact ⟨fun _ => hm, p2, ih p o p2 hpe, h1⟩

/-- A successful call of `parseElementF` returns the tree that stands at the position, and
the end of that element. -/
theorem parseElementF_elementAt : ∀ (f : Nat) (d : List Byte) (p : Nat) (o : ASN1Object)
    (q : Nat), parseElementF f d p = .ok (o, q) → ElementAt d o p q := by
  intro f
  induction f with
  | zero =>
    intro d p o q h
    rw [parseElementF] at h
    cases h
  | succ f ih =>
    intro d p o q h
    obtain ⟨c, t, p1, p2, k, len, v, subs, hlt, hT, hL, rfl, hcont⟩ := parseElementF_inv h
    have hq := (parseElementF_progress h).2
    have hb1 := parseTag_frame [] [] hT
    have hprog : ∀ p' o q, parseElementF f d p' = .ok (o, q) →
        p' + 2 ≤ q ∧ q ≤ d.length := fun p' o q hx => parseElementF_progress hx
    simp only [ElementAt]
    refine ⟨p1, p2, len, hT, hL, hb1.2.2.1, hb1.2.2.2.1, hq, ?_, ?_⟩
    · intro hk
      subst hk
      rcases hcont with ⟨-, hc⟩ | ⟨-, hc⟩
      · obtain ⟨hk, -, -⟩ := parseIndefiniteContent_inv hc
        cases hk
      · rcases parseDefiniteContent_inv hc with ⟨hk, -, -, -⟩ | ⟨-, hsubs, hs, hqe⟩
        · cases hk
        · obtain ⟨s1, s2, s3⟩ := slice_ok hs
          have b1 := wrapInt_bounds ((p2 : Int) + len)
          have hr := parseLength_range hL
          obtain ⟨r1, r2⟩ := hr
          have hw : wrapInt ((p2 : Int) + len) = (p2 : Int) + len ∧ 0 ≤ len := by
            unfold wrapInt at s1 s2 b1 ⊢
            norm_num at s1 s2 b1 r1 r2 ⊢
            omega
          obtain ⟨hw1, hw2⟩ := hw
          rw [hw1] at hqe s3
          refine ⟨hsubs, hw2, by omega, ?_⟩
          rw [s3, hqe]
    · intro hk
      subst hk
      rcases hcont with ⟨hlen, hc⟩ | ⟨hlen, hc⟩
      · subst hlen
        obtain ⟨-, hv, hchain⟩ := parseIndefiniteContent_inv hc
        refine ⟨hv, ?_⟩
        rw [if_pos rfl]
        exact indefiniteChain_elementsAt (ih d) subs p2 q hchain
      · rcases parseDefiniteContent_inv hc with ⟨-, hv, hqe, hchain⟩ | ⟨hk, -, -, -⟩
        · refine ⟨hv, ?_⟩
          rw [if_neg hlen]
          have hle := (childrenChain_le hprog subs p2 q hchain).1
          have b1 := wrapInt_bounds ((p2 : Int) + len)
          have hr := parseLength_range hL
          obtain ⟨r1, r2⟩ := hr
          have hw : wrapInt ((p2 : Int) + len) = (p2 : Int) + len ∧ 0 ≤ len := by
            unfold wrapInt at hqe b1 ⊢
            norm_num at hqe b1 r1 r2 ⊢
            omega
          rw [hw.1] at hqe
          exact ⟨hw.2, hqe, childrenChain_elementsAt (ih d) subs p2 q hchain⟩
        · cases hk

theorem elementsAt_childrenChain {pe : List Byte → Nat → Except Err (ASN1Object × Nat)}
    {d : List Byte} (p0 : Nat)
    (hprog : ∀ p o q, pe d p = .ok (o, q) → p + 2 ≤ q ∧ q ≤ d.length) :
    ∀ (subs : List ASN1Object) (p q : Nat),
      (∀ s ∈ subs, ∀ p q, p0 ≤ p → ElementAt d s p q → pe d p = .ok (s, q)) →
      p0 ≤ p → ElementsAt d false subs p q →
      ChildrenChain pe d (q : Int) p subs q ∧ p ≤ q
  | [], p, q, _, _, h => by
    simp only [ElementsAt] at h
    subst h
    exact ⟨rfl, Nat.le_refl _⟩
  | s :: rest, p, q, hc, hp, h => by
    simp only [ElementsAt] at h
    obtain ⟨-, p2, hs, hrest⟩ := h
    have hpe := hc s (by simp) p p2 hp hs
    obtain ⟨g1, g2⟩ := hprog p s p2 hpe
    obtain ⟨i1, i2⟩ := elementsAt_childrenChain p0 hprog rest p2 q
      (fun s2 hs2 => hc s2 (List.mem_cons_of_mem _ hs2)) (by omega) hrest
    refine ⟨?_, by omega⟩
    simp only [ChildrenChain]
    exact ⟨by omega, p2, hpe, i1⟩

theorem elementsAt_indefiniteChain {pe : List Byte → Nat → Except Err (ASN1Object × Nat)}
    {d : List Byte} (p0 : Nat)
    (hprog : ∀ p o q, pe d p = .ok (o, q) → p + 2 ≤ q ∧ q ≤ d.length) :
    ∀ (subs : List ASN1Object) (p q2 : Nat),
      (∀ s ∈ subs, ∀ p q, p0 ≤ p → ElementAt d s p q → pe d p = .ok (s, q)) →
      p0 ≤ p → ElementsAt d true subs p q2 → MarkerAt d q2 →
      IndefiniteChain pe d p subs (q2 + 2)
  | [], p, q2, _, _, h, hm => by
    simp only [ElementsAt] at h
    subst h
    exact ⟨hm, rfl⟩
  | s :: rest, p, q2, hc, hp, h, hm => by
    simp only [ElementsAt] at h
    obtain ⟨hnm, p2, hs, hrest⟩ := h
    have hpe := hc s (by simp) p p2 hp hs
    obtain ⟨g1, g2⟩ := hprog p s p2 hpe
    have i1 := elementsAt_indefiniteChain p0 hprog rest p2 q2
      (fun s2 hs2 => hc s2 (List.mem_cons_of_mem _ hs2)) (by omega) hrest hm
    simp only [IndefiniteChain]
    exact ⟨hnm trivial, p2, hpe, i1⟩

/-- The parser returns the tree that stands at a position (for an input that is a Go
slice: shorter than `2 ^ 63`). -/
theorem elementAt_parse (d : List Byte) (hd : d.length < 2 ^ 63) : ∀ (o : ASN1Object)
    (p q f : Nat), ElementAt d o p q → 1 ≤ f → d.length + 1 ≤ f + p →
    parseElementF f d p = .ok (o, q) := by
  intro o
  induction o using ASN1Object.induct with
  | step c t k v subs ih =>
    intro p q f h hf1 hf
    simp only [ElementAt] at h
    obtain ⟨p1, p2, len, hT, hL, -, -, hq, hprim, hcons⟩ := h
    have hb1 := parseTag_frame [] [] hT
    have hb2 := parseLength_frame [] [] hL
    have hlt : p < d.length := by omega
    obtain ⟨g, rfl⟩ : ∃ g, f = g + 1 := ⟨f - 1, by omega⟩
    have hprog : ∀ p' o q, parseElementF g d p' = .ok (o, q) →
        p' + 2 ≤ q ∧ q ≤ d.length := fun p' o q hx => parseElementF_progress hx
    have hc : ∀ s ∈ subs, ∀ p' q', p2 ≤ p' → ElementAt d s p' q' →
        parseElementF g d p' = .ok (s, q') := by
      intro s hs p' q' hp' hel
      have hq' : p' < d.length := by
        cases s with
        | mk c2 t2 k2 v2 subs2 =>
          simp only [ElementAt] at hel
          obtain ⟨p1', -, -, hT', -⟩ := hel
          have := parseTag_frame [] [] hT'
          omega
      exact ih s hs p' q' g hel (by omega) (by omega)
    have hdI : ((d.length : Nat) : Int) < 2 ^ 63 := by exact_mod_cast hd
    cases k with
    | false =>
      obtain ⟨hsubs, h0, hqe, hv⟩ := hprim rfl
      have hlen : ¬ (len = -1) := by omega
      rw [parseElementF_of_definite hlt hT hL hlen]
      have hw : wrapInt ((p2 : Int) + len) = (q : Int) := by
        rw [hqe]
        exact wrapInt_of_range (by omega) (by omega)
      have hsl : slice d p2 (q : Int) = .ok ((d.drop p2).take (q - p2)) := by
        unfold slice
        have : (p2 : Int) ≤ (q : Int) ∧ (q : Int) ≤ (d.length : Int) := by omega
        simp only [this, and_self, if_true, Int.toNat_ofNat]
      unfold parseDefiniteContent
      rw [hw]
      have hg : ¬ ((q : Int) > (d.length : Int)) := by omega
      simp only [hg, if_false, Bool.false_eq_true, hsl, bind, Except.bind, Except.map,
        Int.toNat_ofNat, hsubs, hv]
    | true =>
      obtain ⟨hv, hrest⟩ := hcons rfl
      by_cases hlen : len = -1
      · subst hlen
        rw [if_pos rfl] at hrest
        obtain ⟨q2, hel, hm, rfl⟩ := hrest
        rw [parseElementF_of_indefinite hlt hT hL]
        have hchain := elementsAt_indefiniteChain p2 hprog subs p2 q2 hc (Nat.le_refl _) hel hm
        rw [(parseIndefiniteContent_chain_iff g d p2 c t).2 subs (q2 + 2) hb2.2.1 hchain, hv]
        rfl
      · rw [if_neg hlen] at hrest
        obtain ⟨h0, hqe, hel⟩ := hrest
        rw [parseElementF_of_definite hlt hT hL hlen]
        obtain ⟨hchain, -⟩ := elementsAt_childrenChain p2 hprog subs p2 q hc (Nat.le_refl _) hel
        rw [hqe] at hchain
        rw [(parseDefiniteContent_constructed_cases g d p2 len h0 (by omega) (by omega)
          hd).2.2 subs q hb2.2.1 hchain hqe, hv]
        rfl

theorem parseElement_elementAt_all (data : List Byte) (pos : Nat) (o : ASN1Object) (q : Nat)
    (h : parseElement data pos = .ok (o, q)) :
    ElementAt data o pos q ∧
      AllNodes (fun x => WellFormedNode x ∧ TagBelow (2 ^ 49) x) o ∧
      (data.length < 2 ^ 63 → ∀ o2 q2, ElementAt data o2 pos q2 → o2 = o ∧ q2 = q) := by
  refine ⟨parseElementF_elementAt _ _ _ _ _ h, parseElement_nodes h, ?_⟩
  intro hd o2 q2 h2
  have hb := parseElementF_progress h
  have h3 := elementAt_parse data hd o2 pos q2 (data.length + 1) h2 (by omega) (by omega)
  have h4 : parseElementF (data.length + 1) data pos = .ok (o, q) := h
  rw [h3] at h4
  simp only [Except.ok.injEq, Prod.mk.injEq] at h4
  exact h4

/-- Claim C24 (parser node invariants). For every `data` and `pos` on which parseElement
succeeds, the returned tree is the element that stands at `pos` and ends at the returned
position, node by node: every node has its Class in {0, 1, 2, 3} and a non-negative
TagNumber (below `2 ^ 49`), decoded from the identifier octets at the position of that
node; if IsConstructed is false then SubObjects is empty and Value is exactly the content
octets of that element, the `length` octets that follow its length field in `data`; if
IsConstructed is true then Value is empty and the sub-objects are the elements standing one
after the other in its content.  The class, sub-object and value invariants hold at every
node of the tree, and on an input shorter than `2 ^ 63` no other tree and no other end
position stand at `pos` in this sense. -/
theorem parser_node_invariants (data : List Byte) (pos : Nat) (o : ASN1Object) (q : Nat)
    (h : parseElement data pos = .ok (o, q)) :
    ElementAt data o pos q ∧
      AllNodes (fun x => WellFormedNode x ∧ TagBelow (2 ^ 49) x) o ∧
      (data.length < 2 ^ 63 → ∀ o2 q2, ElementAt data o2 pos q2 → o2 = o ∧ q2 = q) :=
  parseElement_elementAt_all data pos o q h

/-- Witness of C24 on `02 01 05 02 01 07` at position 0: the INTEGER with content `05` is
the element at 0 and ends at 3; the INTEGER with content `07`, which stands at position 3,
is not the element at 0. -/
theorem parser_node_invariants_witness :
    ElementAt [0x02, 0x01, 0x05, 0x02, 0x01, 0x07] (ASN1Object.mk 0 2 false [0x05] []) 0 3 ∧
      ¬ ElementAt [0x02, 0x01, 0x05, 0x02, 0x01, 0x07] (ASN1Object.mk 0 2 false [0x07] [])
          0 3 :=
  ⟨(parser_node_invariants [0x02, 0x01, 0x05, 0x02, 0x01, 0x07] 0
      (ASN1Object.mk 0 2 false [0x05] []) 3 (by rfl)).1,
   fun h7 => by
    have e := ((parser_node_invariants [0x02, 0x01, 0x05, 0x02, 0x01, 0x07] 0
      (ASN1Object.mk 0 2 false [0x05] []) 3 (by rfl)).2.2 (by decide) _ _ h7).1
    injection e with _ _ _ hv _
    exact absurd hv (by decide)⟩

end Asn1Utils
